import Mathlib

/-!
Datastore: record codec, buffered readers and store of the segmented
key-value store.

Shallow embedding of `datastore/entry.go` (the record codec `Encode`, `Decode`,
`readValue`, `readMark`, `Length`), of the part of Go's `bufio.Reader` that the
two readers call, and of the store that `datastore/db_test.go` exercises.

Conventions of the embedding.

* A Go `string` or `[]byte` is a `List Byte`, a byte being a `Fin 256`.
* Go's `int` is taken to be 64 bits wide.  The lengths of strings that are
  held in memory, and their sums with small constants, stay far below `2^63`,
  so lengths are natural numbers and sums of lengths are exact.  The width
  matters where the code converts to `uint32` (a reduction modulo `2^32`) and
  where it computes with `uint32` values (addition modulo `2^32`); both are
  explicit below.
* A function that can stop with a run-time panic (index or slice bounds out
  of range) returns an `Option`; `none` is the panic.
* A Go function with results `(x, error)` returns a pair whose second
  component is an `Option GoError`, `none` being `nil`.

The definitions come first, the theorems follow.
-/

namespace Datastore

/-- One octet. -/
abbrev Byte := Fin 256

/-- The record of `entry.go`: `type entry struct { key, value string; mark int }`. -/
structure entry where
  key : List Byte
  value : List Byte
  mark : Int
deriving DecidableEq

/-- The number of values of a `uint32`. -/
def two32 : Nat := 4294967296

/-- Conversion `uint32(n)` of a non-negative `int` such as a length. -/
def u32 (n : Nat) : Nat := n % two32

/-- Conversion `uint32(i)` of an arbitrary `int` (two's complement truncation). -/
def uint32 (i : Int) : Nat := (i % (two32 : Int)).toNat

/-- Addition of two `uint32` values, which wraps around. -/
def u32add (a b : Nat) : Nat := (a + b) % two32

/-- Conversion `byte(v)`: the low eight bits. -/
def byteOf (v : Nat) : Byte := ⟨v % 256, Nat.mod_lt v (by decide)⟩

/-- The four bytes `byte(v), byte(v>>8), byte(v>>16), byte(v>>24)` that
`binary.LittleEndian.PutUint32` stores. -/
def leBytes (v : Nat) : List Byte :=
  [byteOf v, byteOf (v / 256), byteOf (v / 65536), byteOf (v / 16777216)]

/-- Function `binary.LittleEndian.PutUint32(b[off:], v)`: the slice expression
needs `off ≤ len(b)`, the store needs four bytes from `off` on; the four bytes
are written through the slice into `b`. -/
def PutUint32 (b : List Byte) (off v : Nat) : Option (List Byte) :=
  if off ≤ b.length then
    if 4 ≤ b.length - off then
      some (b.take off ++ leBytes v ++ b.drop (off + 4))
    else none
  else none

/-- Function `copy(b[off:], src)`: copies `min(len(b)-off, len(src))` bytes. -/
def copyAt (b : List Byte) (off : Nat) (src : List Byte) : Option (List Byte) :=
  if off ≤ b.length then
    some (b.take off ++ src.take (b.length - off)
      ++ b.drop (off + min (b.length - off) src.length))
  else none

/-- Function `binary.LittleEndian.Uint32(b)`: needs four bytes; the value is
`b[0] | b[1]<<8 | b[2]<<16 | b[3]<<24`, a sum since the shifted bytes do not
overlap. -/
def Uint32 (b : List Byte) : Option Nat :=
  match b with
  | b0 :: b1 :: b2 :: b3 :: _ =>
    some (b0.val + b1.val * 256 + b2.val * 65536 + b3.val * 16777216)
  | _ => none

/-- Slice expression `s[lo:]`: in range when `lo ≤ len(s)`. -/
def sliceFrom (s : List Byte) (lo : Nat) : Option (List Byte) :=
  if lo ≤ s.length then some (s.drop lo) else none

/-- Slice expression `s[lo:hi]`: in range when `lo ≤ hi ≤ cap(s)`.  The
capacity is taken to be the length: in `Decode` every such expression is
followed by `s[hi:]`, which is checked against the length, so a larger
capacity changes neither whether `Decode` panics nor what it returns. -/
def slice (s : List Byte) (lo hi : Nat) : Option (List Byte) :=
  if lo ≤ hi ∧ hi ≤ s.length then some ((s.drop lo).take (hi - lo)) else none

/-- Statement `dst := make([]byte, n); copy(dst, src)`: the first
`min(n, len(src))` bytes come from `src`, the others stay zero. -/
def makeCopy (n : Nat) (src : List Byte) : List Byte :=
  src.take n ++ List.replicate (n - src.length) 0

/-- Method `(e *entry) Encode() []byte` of `entry.go`. -/
def Encode (e : entry) : Option (List Byte) := do
  let kl := e.key.length
  let vl := e.value.length
  let size := kl + vl + 16
  let res := List.replicate size (0 : Byte)
  let res ← PutUint32 res 0 (u32 size)
  let res ← PutUint32 res 4 (u32 kl)
  let res ← copyAt res 8 e.key
  let res ← PutUint32 res (kl + 8) (u32 vl)
  let res ← copyAt res (kl + 12) e.value
  let res ← PutUint32 res (kl + 12 + vl) (uint32 e.mark)
  pure res

/-- Method `(e *entry) Decode(input []byte)` of `entry.go`; `kl` and `vl` are
`uint32`, so the index expressions `kl+8`, `kl+12`, `kl+12+vl` wrap around.
The receiver is passed in and the updated receiver is returned. -/
def Decode (e : entry) (input : List Byte) : Option entry := do
  let kl ← Uint32 (← sliceFrom input 4)
  let keyBuf := makeCopy kl (← slice input 8 (u32add kl 8))
  let e := { e with key := keyBuf }
  let vl ← Uint32 (← sliceFrom input (u32add kl 8))
  let valBuf := makeCopy vl
    (← slice input (u32add kl 12) (u32add (u32add kl 12) vl))
  let e := { e with value := valBuf }
  let m ← Uint32 (← sliceFrom input (u32add (u32add kl 12) vl))
  pure { e with mark := (m : Int) }

/-- Method `(e *entry) Length() int64` of `entry.go`. -/
def Length (e : entry) : Int := ((e.key.length + e.value.length + 12 : Nat) : Int)

/-- The layout of section 3 of the specification,
`[total_size:4][key_len:4][key][value_len:4][value][marker:4]`, with each
field given as a number. -/
def layout (total kl : Nat) (key : List Byte) (vl : Nat) (value : List Byte)
    (m : Nat) : List Byte :=
  leBytes total ++ (leBytes kl ++ (key ++ (leBytes vl ++ (value ++ leBytes m))))

/-- The buffers that the specification of Decode calls malformed, for the two
length fields that Decode reads: the buffer is shorter than the 8 byte header,
or the key length field `kl` at offset 4 asks for more than the buffer holds
before the value length field ends (`len < 8 + kl + 4`), or the value length
field `vl` at offset `kl + 8` asks for more than the buffer holds before the
marker ends (`len < 8 + kl + 4 + vl + 4`).  The last case is taken for buffers
shorter than `2^32` bytes, on which the 32 bit index arithmetic of Decode and
the arithmetic of the specification agree. -/
def fieldsOutOfBounds (input : List Byte) : Prop :=
  input.length < 8
  ∨ (∃ kl, Uint32 (input.drop 4) = some kl ∧ input.length < 8 + kl + 4)
  ∨ (∃ kl vl, Uint32 (input.drop 4) = some kl ∧ Uint32 (input.drop (kl + 8)) = some vl
      ∧ input.length < 8 + kl + 4 + vl + 4 ∧ input.length < two32)

/-! ## The buffered reader

`readValue` and `readMark` take a `*bufio.Reader`.  The type belongs to Go's
standard library; its methods `Peek`, `Discard` and `Read` are embedded here
statement by statement.  The reader under the buffer is a byte source that
hands out as many bytes as are asked for while it has them and reports
`io.EOF` once it is empty, as a regular file or a `bytes.Reader` does.

For the loops of the library a bound on the number of rounds is computed
from the bytes left in the source.  A result `none` stands for a panic of
the library or for the bound being used up; every result established below
is a `some`, so neither happens there.
-/

/-- The error values: `io.EOF`, `bufio.ErrBufferFull` and `io.ErrNoProgress`
of the library, the error that `readValue` builds with `fmt.Errorf`, and the
errors of the store (`ErrNotFound` named by the tests, `ErrShortRead` named
by the specification, `os.ErrNotExist` for a segment file that is missing). -/
inductive GoError where
  | EOF
  | ErrBufferFull
  | ErrNoProgress
  | cantReadValueBytes (read expected : Nat)
  | ErrNotFound
  | ErrShortRead
  | ErrNotExist
deriving DecidableEq

/-- State of a `bufio.Reader`: `size` is `len(b.buf)`, `buf` the unread bytes
`b.buf[b.r:b.w]`, `src` the bytes that the underlying reader `b.rd` has not
delivered yet, `err` the pending error `b.err`. -/
structure Reader where
  size : Nat
  buf : List Byte
  src : List Byte
  err : Option GoError
deriving DecidableEq

/-- Constant `minReadBufferSize` of package bufio. -/
def minReadBufferSize : Nat := 16

/-- Constant `defaultBufSize` of package bufio. -/
def defaultBufSize : Nat := 4096

/-- Constant `maxConsecutiveEmptyReads` of package bufio. -/
def maxConsecutiveEmptyReads : Nat := 100

/-- Function `bufio.NewReaderSize(rd, size)` over a source holding `src`. -/
def NewReaderSize (src : List Byte) (size : Nat) : Reader :=
  { size := max size minReadBufferSize, buf := [], src := src, err := none }

/-- Function `bufio.NewReader(rd)` over a source holding `src`. -/
def NewReader (src : List Byte) : Reader := NewReaderSize src defaultBufSize

/-- Call `rd.Read(p)` with `len(p) = n > 0` on the underlying reader: the bytes
stored, the error, and what is left in the source. -/
def srcRead (n : Nat) (src : List Byte) : List Byte × Option GoError × List Byte :=
  if src = [] then ([], some GoError.EOF, []) else (src.take n, none, src.drop n)

namespace Reader

/-- The bytes from the reader's position to the end of the input. -/
def stream (b : Reader) : List Byte := b.buf ++ b.src

/-- Method `Buffered`: `b.w - b.r`. -/
def Buffered (b : Reader) : Nat := b.buf.length

/-- Method `readErr`: returns the pending error and clears it. -/
def readErr (b : Reader) : Option GoError × Reader := (b.err, { b with err := none })

/-- The loop of `fill`: up to `maxConsecutiveEmptyReads` reads into the free
part `b.buf[b.w:]` of the buffer. -/
def fillLoop : Nat → Reader → Reader
  | 0, b => { b with err := some GoError.ErrNoProgress }
  | i + 1, b =>
    match srcRead (b.size - b.buf.length) b.src with
    | (data, err, rest) =>
      let b1 : Reader := { b with buf := b.buf ++ data, src := rest }
      match err with
      | some e => { b1 with err := some e }
      | none => if data.length > 0 then b1 else fillLoop i b1

/-- Method `fill`: slides the unread bytes to the start of the buffer, panics
when the buffer is full, and reads new bytes behind them. -/
def fill (b : Reader) : Option Reader :=
  if b.size ≤ b.buf.length then none else some (fillLoop maxConsecutiveEmptyReads b)

/-- The loop of `Peek`:
`for b.w-b.r < n && b.w-b.r < len(b.buf) && b.err == nil { b.fill() }`. -/
def peekLoop : Nat → Nat → Reader → Option Reader
  | 0, _, _ => none
  | fuel + 1, n, b =>
    if b.buf.length < n ∧ b.buf.length < b.size ∧ b.err = none then
      (fill b).bind (peekLoop fuel n)
    else some b

/-- Method `Peek(n)` for `n ≥ 0`: the bytes returned, the error, the reader
afterwards. -/
def Peek (n : Nat) (b : Reader) : Option ((List Byte × Option GoError) × Reader) :=
  (peekLoop (b.src.length + 3) n b).bind fun b =>
    if n > b.size then some ((b.buf, some GoError.ErrBufferFull), b)
    else if b.buf.length < n then
      match readErr b with
      | (err, b1) =>
        some ((b.buf, if err = none then some GoError.ErrBufferFull else err), b1)
    else some ((b.buf.take n, none), b)

/-- The loop of `Discard`; `remain` bytes are still to be skipped. -/
def discardLoop : Nat → Nat → Nat → Reader → Option ((Nat × Option GoError) × Reader)
  | 0, _, _, _ => none
  | fuel + 1, n, remain, b =>
    (if b.Buffered = 0 then fill b else some b).bind fun b =>
      let skip := min b.Buffered remain
      let b1 : Reader := { b with buf := b.buf.drop skip }
      let remain1 := remain - skip
      if remain1 = 0 then some ((n, none), b1)
      else if b1.err ≠ none then
        match readErr b1 with
        | (err, b2) => some ((n - remain1, err), b2)
      else discardLoop fuel n remain1 b1

/-- Method `Discard(n)` for `n ≥ 0`: the number of bytes skipped, the error,
the reader afterwards. -/
def Discard (n : Nat) (b : Reader) : Option ((Nat × Option GoError) × Reader) :=
  if n = 0 then some ((0, none), b) else discardLoop (b.src.length + 3) n n b

/-- Method `Read(p)` with `len(p) = m`: the bytes stored at the start of `p`
(their number is the count `n` that Go returns), the error, the reader
afterwards.  The bytes come from the buffer when it holds any, and else from
one read of the source. -/
def Read (m : Nat) (b : Reader) : Option ((List Byte × Option GoError) × Reader) :=
  if m = 0 then
    if b.Buffered > 0 then some (([], none), b)
    else
      match readErr b with
      | (err, b1) => some (([], err), b1)
  else if b.buf.length = 0 then
    if b.err ≠ none then
      match readErr b with
      | (err, b1) => some (([], err), b1)
    else if m ≥ b.size then
      match srcRead m b.src with
      | (data, err, rest) =>
        match readErr { b with src := rest, err := err } with
        | (err1, b1) => some ((data, err1), b1)
    else
      match srcRead b.size b.src with
      | (data, err, rest) =>
        let b1 : Reader := { b with src := rest, err := err }
        if data.length = 0 then
          match readErr b1 with
          | (err1, b2) => some (([], err1), b2)
        else
          some ((data.take m, none), { b1 with buf := data.drop (min m data.length) })
  else
    some ((b.buf.take m, none), { b with buf := b.buf.drop (min m b.buf.length) })

end Reader

/-- Function `readValue(in *bufio.Reader) (string, error)` of `entry.go`: the
pair returned and the reader afterwards. -/
def readValue (r : Reader) : Option ((List Byte × Option GoError) × Reader) :=
  (Reader.Peek 8 r).bind fun
  | ((header, err), r) =>
    if err ≠ none then some (([], err), r)
    else
      (sliceFrom header 4).bind fun h4 =>
      (Uint32 h4).bind fun keySize =>
      (Reader.Discard (keySize + 8) r).bind fun
      | ((_, err), r) =>
        if err ≠ none then some (([], err), r)
        else
          (Reader.Peek 4 r).bind fun
          | ((header, err), r) =>
            if err ≠ none then some (([], err), r)
            else
              (Uint32 header).bind fun valSize =>
              (Reader.Discard 4 r).bind fun
              | ((_, err), r) =>
                if err ≠ none then some (([], err), r)
                else
                  (Reader.Read valSize r).bind fun
                  | ((got, err), r) =>
                    if err ≠ none then some (([], err), r)
                    else if got.length ≠ valSize then
                      some (([], some (GoError.cantReadValueBytes got.length valSize)), r)
                    else some ((makeCopy valSize got, none), r)

/-- Function `readMark(in *bufio.Reader) (int, error)` of `entry.go`: the pair
returned and the reader afterwards. -/
def readMark (r : Reader) : Option ((Int × Option GoError) × Reader) :=
  (Reader.Peek 8 r).bind fun
  | ((header, err), r) =>
    if err ≠ none then some ((-1, err), r)
    else
      (sliceFrom header 4).bind fun h4 =>
      (Uint32 h4).bind fun keySize =>
      (Reader.Discard (keySize + 8) r).bind fun
      | ((_, err), r) =>
        if err ≠ none then some ((-1, err), r)
        else
          (Reader.Peek 4 r).bind fun
          | ((header, err), r) =>
            if err ≠ none then some ((-1, err), r)
            else
              (Uint32 header).bind fun valSize =>
              (Reader.Discard (valSize + 4) r).bind fun
              | ((_, err), r) =>
                if err ≠ none then some ((-1, err), r)
                else
                  (Reader.Peek 4 r).bind fun
                  | ((header, err), r) =>
                    if err ≠ none then some ((-1, err), r)
                    else
                      (Uint32 header).bind fun mark =>
                      some (((mark : Int), none), r)

/-- The reader states that the methods produce from a new reader: the buffer
has at least `minReadBufferSize` bytes of room, holds no more than its size,
and an error is pending only once the source is empty. -/
def Reader.wf (b : Reader) : Prop :=
  minReadBufferSize ≤ b.size ∧ b.buf.length ≤ b.size ∧ (b.err ≠ none → b.src = [])

/-- The streams that the specification of the value reader calls truncated:
the stream ends before the 8 byte header, or, with `kl` the key length field
at offset 4, before the key region (`len < 8 + kl`) or before the end of the
value length field (`len < 8 + kl + 4`), or, with `vl` the value length field
at offset `8 + kl`, before the end of the value (`len < 8 + kl + 4 + vl`). -/
def truncatedRecord (s : List Byte) : Prop :=
  s.length < 8
  ∨ ∃ kl, Uint32 (s.drop 4) = some kl
      ∧ (s.length < 8 + kl ∨ s.length < 8 + kl + 4
        ∨ ∃ vl, Uint32 (s.drop (8 + kl)) = some vl ∧ s.length < 8 + kl + 4 + vl)

/-! ## The store

The file `db.go` with the store itself is not among the sources; only its
tests (`db_test.go`) are.  The definitions of this section are written from
sections 3, 4.2, 4.3 and 4.4 of the specification and use the codec above.
File operations do not fail in this model, and a tick of the compactor is a
function of its own (`Db.merge`).
-/

/-- Modelled from the spec: the segment of section 3 (type missing with
`db.go`), an append-only file with a numeric `id`; `data` is the content of
the file and its length the segment's `size`. -/
structure Segment where
  id : Nat
  data : List Byte
deriving DecidableEq

/-- Modelled from the spec: the Index of section 3 (missing with `db.go`),
a map from key to `(segment_id, byte_offset)` with at most one entry per
key, kept as an association list. -/
abbrev Index := List (List Byte × (Nat × Nat))

/-- Modelled from the spec: lookup of a key in the Index. -/
def indexGet (idx : Index) (key : List Byte) : Option (Nat × Nat) :=
  (idx.find? (fun p => p.1 = key)).map Prod.snd

/-- Modelled from the spec: removal of a key from the Index. -/
def indexDel (idx : Index) (key : List Byte) : Index :=
  idx.filter (fun p => p.1 ≠ key)

/-- Modelled from the spec: `Index[key] = loc`, overwriting any prior entry. -/
def indexSet (idx : Index) (key : List Byte) (loc : Nat × Nat) : Index :=
  (key, loc) :: indexDel idx key

/-- Modelled from the spec: the Store of section 3 (type `Db`, missing with
`db.go`): the closed segments in ascending id order, the active segment, the
Index and the maximum segment size. -/
structure Db where
  closed : List Segment
  active : Segment
  index : Index
  maxSegmentSize : Nat
deriving DecidableEq

/-- Modelled from the spec: the list `db.segments` that the tests count, the
closed segments followed by the active one. -/
def Db.segments (db : Db) : List Segment := db.closed ++ [db.active]

/-- Modelled from the spec: the rotation of section 4.2 (missing with
`db.go`): the active segment is closed and joins the closed segments, a new
empty segment with the next id becomes active. -/
def Db.rotate (db : Db) : Db :=
  { db with closed := db.closed ++ [db.active],
            active := { id := db.active.id + 1, data := [] } }

/-- Modelled from the spec: the common part of Put and Delete in section 4.2
(missing with `db.go`): the encoded record is appended to the active
segment's file and the Index is updated with the record's location by `upd`;
then the size of the active segment, the length of its file (section 3), is
checked against `maxSegmentSize` and the store rotates if it is exceeded. -/
def Db.append (db : Db) (e : entry)
    (upd : Index → (Nat × Nat) → Index) : Option (Option GoError × Db) :=
  (Encode e).bind fun bytes =>
    let offset := db.active.data.length
    let db1 : Db := { db with active := { db.active with data := db.active.data ++ bytes },
                              index := upd db.index (db.active.id, offset) }
    some (none, if db1.active.data.length > db1.maxSegmentSize then db1.rotate else db1)

/-- Modelled from the spec: `Put(key, value)` of section 4.2 (missing with
`db.go`): a live record (marker 0) is appended and the Index entry of the key
is set to its location. -/
def Db.Put (db : Db) (key value : List Byte) : Option (Option GoError × Db) :=
  db.append { key := key, value := value, mark := 0 } (fun idx loc => indexSet idx key loc)

/-- Modelled from the spec: `Delete(key)` of section 4.2 (missing with
`db.go`): a tombstone record (marker 1) is appended and the key is removed
from the Index. -/
def Db.Delete (db : Db) (key : List Byte) : Option (Option GoError × Db) :=
  db.append { key := key, value := [], mark := 1 } (fun idx _ => indexDel idx key)

/-- Modelled from the spec: `Get(key)` of section 4.2 (missing with `db.go`):
`ErrNotFound` when the Index has no entry; otherwise the referenced segment
file is opened, positioned at the stored offset and the value is read by
`readValue` (from `entry.go`), which takes a `*bufio.Reader`: the file is
wrapped with `bufio.NewReader`. -/
def Db.Get (db : Db) (key : List Byte) : Option (List Byte × Option GoError) :=
  match indexGet db.index key with
  | none => some ([], some GoError.ErrNotFound)
  | some (sid, offset) =>
    match db.segments.find? (fun s => s.id = sid) with
    | none => some ([], some GoError.ErrNotExist)
    | some seg => (readValue (NewReader (seg.data.drop offset))).map Prod.fst

/-- Modelled from the spec: `Close()` of section 4.2 (missing with
`db.go`): no file is deleted; what stays is the directory with one file per
segment. -/
def Db.Close (db : Db) : Option GoError × List Segment := (none, db.segments)

/-- Modelled from the spec: the step of Recovery in section 4.3 for one
record found at `offset` of segment `sid`: marker 0 sets the Index entry,
marker 1 deletes it. -/
def replayRecord (idx : Index) (sid offset : Nat) (e : entry) : Index :=
  if e.mark = 0 then indexSet idx e.key (sid, offset)
  else if e.mark = 1 then indexDel idx e.key
  else idx

/-- Modelled from the spec: Recovery of section 4.3 over one segment file
from `offset` on, record by record in append order.  A record is the
`total_size` bytes announced by its first field, decoded by `Decode` (from
`entry.go`); a file that ends inside a record fails with `ErrShortRead`.  The
number of rounds is bounded by the length of the file. -/
def recoverSegment : Nat → Nat → List Byte → Nat → Index → Option (Option GoError × Index)
  | 0, _, _, _, _ => none
  | fuel + 1, sid, data, offset, idx =>
    if data.length ≤ offset then some (none, idx)
    else
      match Uint32 (data.drop offset) with
      | none => some (some GoError.ErrShortRead, idx)
      | some total =>
        if data.length < offset + total then some (some GoError.ErrShortRead, idx)
        else
          (Decode ⟨[], [], 0⟩ ((data.drop offset).take total)).bind fun e =>
            recoverSegment fuel sid data (offset + total) (replayRecord idx sid offset e)

/-- Modelled from the spec: Recovery of section 4.3 over the segment files in
ascending id order. -/
def recoverAll : List Segment → Index → Option (Option GoError × Index)
  | [], idx => some (none, idx)
  | s :: rest, idx =>
    (recoverSegment (s.data.length + 1) s.id s.data 0 idx).bind fun
    | (some err, idx) => some (some err, idx)
    | (none, idx) => recoverAll rest idx

/-- Modelled from the spec: `Open(directory, maxSegmentSize)` of section 4.2,
which the tests call `NewDb` (missing with `db.go`); `dir` lists the segment
files of the directory in ascending id order.  Without files segment 0
becomes active with an empty Index; otherwise Recovery runs and the segment
with the highest id becomes active. -/
def NewDb (dir : List Segment) (maxSegmentSize : Nat) : Option (Option GoError × Option Db) :=
  match dir.getLast? with
  | none =>
    some (none, some { closed := [], active := { id := 0, data := [] }, index := [],
                       maxSegmentSize := maxSegmentSize })
  | some last =>
    (recoverAll dir []).bind fun
    | (some err, _) => some (some err, none)
    | (none, idx) =>
      some (none, some { closed := dir.dropLast, active := last, index := idx,
                         maxSegmentSize := maxSegmentSize })

/-- The loop of the tests over a list of pairs,
`for _, pair := range pairs { db.Put(pair[0], pair[1]) }`, on the store. -/
def Db.PutAll (db : Db) : List (List Byte × List Byte) → Option Db
  | [] => some db
  | (k, v) :: rest => (db.Put k v).bind fun p => p.2.PutAll rest

/-- The number of bytes that the encoded records of a list of pairs take,
`len(key)+len(value)+16` for each pair. -/
def encodedSize (ps : List (List Byte × List Byte)) : Nat :=
  (ps.map fun p => p.1.length + p.2.length + 16).sum

/-- Modelled from the spec: the temporary merge map of section 4.4, step 3
(the compactor is missing with `db.go`), from key to live value, kept as an
association list. -/
abbrev MergeMap := List (List Byte × List Byte)

/-- Modelled from the spec: the step of the merge replay of section 4.4 for
one record, with the same last-write-wins and tombstone logic as Recovery:
marker 0 sets the value of the key, marker 1 removes the key. -/
def mergeRecord (m : MergeMap) (e : entry) : MergeMap :=
  if e.mark = 0 then m.filter (fun p => p.1 ≠ e.key) ++ [(e.key, e.value)]
  else if e.mark = 1 then m.filter (fun p => p.1 ≠ e.key)
  else m

/-- Modelled from the spec: the replay of one segment file into the merge map
(section 4.4, step 3), record by record in offset order, the records being
read as in Recovery. -/
def mergeSegment : Nat → List Byte → Nat → MergeMap → Option (Option GoError × MergeMap)
  | 0, _, _, _ => none
  | fuel + 1, data, offset, m =>
    if data.length ≤ offset then some (none, m)
    else
      match Uint32 (data.drop offset) with
      | none => some (some GoError.ErrShortRead, m)
      | some total =>
        if data.length < offset + total then some (some GoError.ErrShortRead, m)
        else
          (Decode ⟨[], [], 0⟩ ((data.drop offset).take total)).bind fun e =>
            mergeSegment fuel data (offset + total) (mergeRecord m e)

/-- Modelled from the spec: the writing of the merged segment file (section
4.4, step 4): one live record (marker 0) per surviving key, in the order of
the merge map; returns the file and the offset of each key's record. -/
def writeMerged : MergeMap → List Byte → List (List Byte × Nat) →
    Option (List Byte × List (List Byte × Nat))
  | [], data, offsets => some (data, offsets)
  | (k, v) :: rest, data, offsets =>
    (Encode ⟨k, v, 0⟩).bind fun bytes =>
      writeMerged rest (data ++ bytes) ((k, data.length) :: offsets)

/-- Modelled from the spec: the swap of section 4.4, step 5, on one Index
entry: an entry that points into one of the two merged segments is pointed at
the key's record in the new segment. -/
def remapEntry (a b : Nat) (offsets : List (List Byte × Nat))
    (p : List Byte × (Nat × Nat)) : List Byte × (Nat × Nat) :=
  if p.2.1 = a ∨ p.2.1 = b then
    match offsets.find? (fun q => q.1 = p.1) with
    | some q => (p.1, (b, q.2))
    | none => p
  else p

/-- Modelled from the spec: one tick of the Compactor (section 4.4, missing
with `db.go`).  With fewer than two closed segments nothing happens.
Otherwise the two oldest closed segments are replayed into the merge map, the
merged segment is written, and it takes the place of the two in the segment
list while the Index entries that pointed into them are redirected.  The
merged segment is given the id of the newer of the two, which is free once
the two are removed and sorts between the older segments and the rest. -/
def Db.merge (db : Db) : Option (Option GoError × Db) :=
  match db.closed with
  | a :: b :: rest =>
    (mergeSegment (a.data.length + 1) a.data 0 []).bind fun
    | (some err, _) => some (some err, db)
    | (none, m1) =>
      (mergeSegment (b.data.length + 1) b.data 0 m1).bind fun
      | (some err, _) => some (some err, db)
      | (none, m2) =>
        (writeMerged m2 [] []).bind fun
        | (data, offsets) =>
          some (none, { db with closed := { id := b.id, data := data } :: rest,
                                index := db.index.map (remapEntry a.id b.id offsets) })
  | _ => some (none, db)

/-- The first five pairs that `TestDb_Segmentation` puts: `key1/value11`,
`key2/value21`, `key1/value12`, `key2/value22`, `key3/value31`. -/
def segmentationFirst : List (List Byte × List Byte) :=
  [([107, 101, 121, 49], [118, 97, 108, 117, 101, 49, 49]),
   ([107, 101, 121, 50], [118, 97, 108, 117, 101, 50, 49]),
   ([107, 101, 121, 49], [118, 97, 108, 117, 101, 49, 50]),
   ([107, 101, 121, 50], [118, 97, 108, 117, 101, 50, 50]),
   ([107, 101, 121, 51], [118, 97, 108, 117, 101, 51, 49])]

/-- The two pairs that `TestDb_Segmentation` puts next: `key1/value13`,
`key3/value32`. -/
def segmentationNext : List (List Byte × List Byte) :=
  [([107, 101, 121, 49], [118, 97, 108, 117, 101, 49, 51]),
   ([107, 101, 121, 51], [118, 97, 108, 117, 101, 51, 50])]

/-! ## Histories of operations and the records of the segment files

The definitions of this part serve the statements about recovery and
merging.  A history is a list of operations on a store; the segment files of
a store that a history produced are sequences of encoded records, and the
Index is what a replay of these records gives.
-/

/-- An operation on the store: `Put(key, value)`, `Delete(key)`, one tick of
the compactor, or Close followed by `NewDb` on the same directory with a
threshold. -/
inductive Op where
  | put (key value : List Byte)
  | delete (key : List Byte)
  | merge
  | reopen (maxSegmentSize : Nat)
deriving DecidableEq

/-- The record that the operation writes fits the 32 bit length fields of
the layout (section 4.1): `len(key) + len(value) + 16 < 2^32`. -/
def Op.fits : Op → Prop
  | .put k v => k.length + v.length + 16 < two32
  | .delete k => k.length + 16 < two32
  | .merge => True
  | .reopen _ => True

/-- One operation on the store.  A Put, Delete or `NewDb` that returns an
error ends the history (`none`); an error of the compactor is not reported to
a caller (section 7) and the history goes on. -/
def Db.step (db : Db) : Op → Option Db
  | .put k v => (db.Put k v).bind fun r => if r.1 = none then some r.2 else none
  | .delete k => (db.Delete k).bind fun r => if r.1 = none then some r.2 else none
  | .merge => db.merge.map Prod.snd
  | .reopen m => (NewDb db.Close.2 m).bind fun r => if r.1 = none then r.2 else none

/-- A list of operations on the store, one after the other. -/
def Db.run (db : Db) : List Op → Option Db
  | [] => some db
  | op :: rest => (db.step op).bind fun d => d.run rest

/-- The value that a key has after a history: the value of the latest Put of
the key when no Delete of the key follows it, and none otherwise. -/
def latest (key : List Byte) (ops : List Op) : Option (List Byte) :=
  ops.foldl (fun acc op =>
    match op with
    | .put k v => if k = key then some v else acc
    | .delete k => if k = key then none else acc
    | .merge => acc
    | .reopen _ => acc) none

/-- The content of a segment file that holds the given records: their
encodings one after the other. -/
def encodeAll : List entry → List Byte
  | [] => []
  | e :: es => (Encode e).getD [] ++ encodeAll es

/-- The records of segment `sid` with the offsets at which they start, the
first one at offset `off`. -/
def located (sid : Nat) : Nat → List entry → List (Nat × Nat × entry)
  | _, [] => []
  | off, e :: es => (sid, off, e) :: located sid (off + ((Encode e).getD []).length) es

/-- The log of a list of segments, each given by its id and its records: all
records with segment id and offset, in segment order and then offset
order. -/
def logOf : List (Nat × List entry) → List (Nat × Nat × entry)
  | [] => []
  | p :: rest => located p.1 0 p.2 ++ logOf rest

/-- One record of the log seen from a key: a live record of the key gives its
place and value, a tombstone of the key gives nothing, a record of another key
keeps what was found before. -/
def lookStep (key : List Byte) (acc : Option (Nat × Nat × List Byte)) (r : Nat × Nat × entry) :
    Option (Nat × Nat × List Byte) :=
  if r.2.2.key = key then
    (if r.2.2.mark = 0 then some (r.1, r.2.1, r.2.2.value) else none)
  else acc

/-- The most recent record of a key in a log, when it is a live one: segment
id, offset and value (section 3, the invariant of the Index). -/
def lookFrom (key : List Byte) (acc : Option (Nat × Nat × List Byte))
    (log : List (Nat × Nat × entry)) : Option (Nat × Nat × List Byte) :=
  log.foldl (lookStep key) acc

/-- The Index after the replay of a log, record by record (`replayRecord`). -/
def replayLog (idx : Index) (log : List (Nat × Nat × entry)) : Index :=
  log.foldl (fun i r => replayRecord i r.1 r.2.1 r.2.2) idx

/-- The records that Put and Delete write within the limits of the layout:
the lengths fit the 32 bit fields and the marker is 0 or 1. -/
def entry.valid (e : entry) : Prop :=
  e.key.length + e.value.length + 16 < two32 ∧ (e.mark = 0 ∨ e.mark = 1)

/-- The segment with the given id whose file holds the given records. -/
def toSegment (p : Nat × List entry) : Segment := { id := p.1, data := encodeAll p.2 }

/-- The reader of the default size over the stream `s` that has consumed `p`
bytes of it and holds up to `c` more in its buffer. -/
def readerAt (s : List Byte) (p c : Nat) : Reader :=
  { size := defaultBufSize, buf := (s.drop p).take c, src := s.drop (p + c), err := none }

/-- The number of bytes that the buffer of a new reader of the default size
holds when `readValue` reaches its `Read`, on a stream that holds a whole
record with a key of `kl` bytes: what is left of the 4096 byte blocks that
`Peek` and `Discard` fetched for the header and the key, after the value
length field, the buffer being refilled for that field when it holds fewer
than four bytes. -/
def bufferedAtRead (kl : Nat) : Nat :=
  (if 4 ≤ (4096 - (kl + 8) % 4096) % 4096 then (4096 - (kl + 8) % 4096) % 4096 else 4096) - 4

/-- What `readValue` returns for a whole record with a key of `kl` bytes and
value `V`, read from a new reader of the default size: the value when the
buffer is empty at the `Read` or holds the whole value, and else the error
for the bytes that the buffer holds. -/
def readOutcome (kl : Nat) (V : List Byte) : List Byte × Option GoError :=
  if bufferedAtRead kl = 0 ∨ V.length ≤ bufferedAtRead kl then (V, none)
  else ([], some (GoError.cantReadValueBytes (bufferedAtRead kl) V.length))

/-- What Get returns for a key, given the value that the key has after the
history of the store: `ErrNotFound` without a value, and else what `readValue`
makes of the key's record. -/
def getSpec (key : List Byte) : Option (List Byte) → List Byte × Option GoError
  | none => ([], some GoError.ErrNotFound)
  | some v => readOutcome key.length v

/-- The invariants of the data model (section 3) on a store, for a history
`ops`: the segment files hold sequences of records within the limits of the
layout, the ids of the segments increase strictly, the Index holds for each
key the place of its most recent record when that is a live one, and the
value of that record is the value that the key has after `ops`. -/
def Db.Good (db : Db) (ops : List Op) : Prop :=
  ∃ (cs : List (Nat × List entry)) (aes : List entry),
    db.closed = cs.map toSegment ∧ db.active.data = encodeAll aes
    ∧ (∀ p ∈ cs ++ [(db.active.id, aes)], ∀ e ∈ p.2, e.valid)
    ∧ ((cs ++ [(db.active.id, aes)]).map Prod.fst).Pairwise (· < ·)
    ∧ (∀ k, indexGet db.index k
        = (lookFrom k none (logOf (cs ++ [(db.active.id, aes)]))).map fun t => (t.1, t.2.1))
    ∧ (∀ k, (lookFrom k none (logOf (cs ++ [(db.active.id, aes)]))).map (fun t => t.2.2)
        = latest k ops)

/-- The value that a merge map holds for a key: that of the last pair with
the key. -/
def lastVal (key : List Byte) (acc : Option (List Byte)) (m : MergeMap) : Option (List Byte) :=
  m.foldl (fun a p => if p.1 = key then some p.2 else a) acc

/-- The live record that the merged segment gets for a pair of the merge
map. -/
def liveEntry (p : List Byte × List Byte) : entry := { key := p.1, value := p.2, mark := 0 }

/-- A key of `2^32` bytes built around a key `K1` of `2^31 - 16` bytes: eight
zero bytes, the encoded record of `K1` with an empty value, and that encoded
record once more without its last eight bytes.  Encoded with an empty value,
the key length field wraps to 0 and the file reads as three records. -/
def longKeyOf (K1 : List Byte) : List Byte :=
  leBytes 0 ++ (leBytes 0 ++ ((Encode ⟨K1, [], 0⟩).getD []
    ++ (leBytes 2147483648 ++ (leBytes 2147483632 ++ K1))))

/-- The three records that the file of one Put of the long key with an empty
value reads as: the empty key, and `K1` twice, each with an empty value. -/
def threeRecords (K1 : List Byte) : List entry :=
  [⟨[], [], 0⟩, ⟨K1, [], 0⟩, ⟨K1, [], 0⟩]

/-- The store after one Put of the long key with an empty value on a new
store with threshold 10: the file of segment 0 is closed, segment 1 is
active. -/
def afterLongPut (K1 : List Byte) : Db :=
  { closed := [toSegment (0, threeRecords K1)], active := { id := 1, data := [] },
    index := [(longKeyOf K1, (0, 0))], maxSegmentSize := 10 }

theorem leBytes_length (v : Nat) : (leBytes v).length = 4 := rfl

theorem Uint32_leBytes (v : Nat) (hv : v < two32) (rest : List Byte) :
    Uint32 (leBytes v ++ rest) = some v := by
  simp only [leBytes, byteOf, Uint32, List.cons_append, List.nil_append, Option.some.injEq]
  unfold two32 at hv
  omega

theorem Uint32_lt (b : List Byte) (v : Nat) (h : Uint32 b = some v) : v < two32 := by
  unfold Uint32 at h
  unfold two32
  split at h
  · rename_i b0 b1 b2 b3 _
    simp only [Option.some.injEq] at h
    have h0 := b0.isLt
    have h1 := b1.isLt
    have h2 := b2.isLt
    have h3 := b3.isLt
    omega
  · simp at h

theorem Uint32_short (b : List Byte) (h : b.length < 4) : Uint32 b = none := by
  match b, h with
  | [], _ => rfl
  | [_], _ => rfl
  | [_, _], _ => rfl
  | [_, _, _], _ => rfl
  | _ :: _ :: _ :: _ :: _, h => simp at h; omega

/-! ## Encode writes the documented layout -/

theorem PutUint32_eq (b A Z C : List Byte) (off v : Nat) (hb : b = A ++ (Z ++ C))
    (hZ : Z.length = 4) (hoff : off = A.length) :
    PutUint32 b off v = some (A ++ (leBytes v ++ C)) := by
  subst hb hoff
  unfold PutUint32
  have h1 : A.length ≤ (A ++ (Z ++ C)).length := by simp
  have h2 : 4 ≤ (A ++ (Z ++ C)).length - A.length := by simp; omega
  rw [if_pos h1, if_pos h2]
  have h3 : List.drop (A.length + 4) (A ++ (Z ++ C)) = C := by
    rw [← List.drop_drop, List.drop_left, ← hZ, List.drop_left]
  rw [h3, List.take_left, List.append_assoc]

theorem copyAt_eq (b A Z C src : List Byte) (off : Nat) (hb : b = A ++ (Z ++ C))
    (hZ : Z.length = src.length) (hoff : off = A.length) :
    copyAt b off src = some (A ++ (src ++ C)) := by
  subst hb hoff
  unfold copyAt
  have h1 : A.length ≤ (A ++ (Z ++ C)).length := by simp
  rw [if_pos h1]
  have h2 : (A ++ (Z ++ C)).length - A.length = src.length + C.length := by
    simp; omega
  have h3 : List.drop (A.length + min (src.length + C.length) src.length) (A ++ (Z ++ C)) = C := by
    rw [Nat.min_eq_right (by omega), ← List.drop_drop, List.drop_left, ← hZ, List.drop_left]
  rw [h2, h3, List.take_left, List.take_of_length_le (by omega), List.append_assoc]

theorem replicate_split (kl vl : Nat) :
    List.replicate (kl + vl + 16) (0 : Byte) =
      List.replicate 4 0 ++ (List.replicate 4 0 ++ (List.replicate kl 0 ++
        (List.replicate 4 0 ++ (List.replicate vl 0 ++ List.replicate 4 0)))) := by
  simp only [List.append_replicate_replicate]
  congr 1
  omega

/-- The six writes of Encode, performed on a buffer cut into the six regions
they fill. -/
theorem Encode_writes (k v Z1 Z2 ZK Z3 ZV Z4 : List Byte) (t a b m : Nat)
    (h1 : Z1.length = 4) (h2 : Z2.length = 4) (hK : ZK.length = k.length)
    (h3 : Z3.length = 4) (hV : ZV.length = v.length) (h4 : Z4.length = 4) :
    (do
      let res ← PutUint32 (Z1 ++ (Z2 ++ (ZK ++ (Z3 ++ (ZV ++ Z4))))) 0 t
      let res ← PutUint32 res 4 a
      let res ← copyAt res 8 k
      let res ← PutUint32 res (k.length + 8) b
      let res ← copyAt res (k.length + 12) v
      let res ← PutUint32 res (k.length + 12 + v.length) m
      pure res) = some (layout t a k b v m) := by
  have s1 : PutUint32 (Z1 ++ (Z2 ++ (ZK ++ (Z3 ++ (ZV ++ Z4))))) 0 t
      = some ([] ++ (leBytes t ++ (Z2 ++ (ZK ++ (Z3 ++ (ZV ++ Z4)))))) :=
    PutUint32_eq _ [] Z1 _ 0 t rfl h1 rfl
  have s2 : PutUint32 (leBytes t ++ (Z2 ++ (ZK ++ (Z3 ++ (ZV ++ Z4))))) 4 a
      = some (leBytes t ++ (leBytes a ++ (ZK ++ (Z3 ++ (ZV ++ Z4))))) :=
    PutUint32_eq _ (leBytes t) Z2 _ 4 a rfl h2 rfl
  have s3 : copyAt (leBytes t ++ (leBytes a ++ (ZK ++ (Z3 ++ (ZV ++ Z4))))) 8 k
      = some ((leBytes t ++ leBytes a) ++ (k ++ (Z3 ++ (ZV ++ Z4)))) :=
    copyAt_eq _ (leBytes t ++ leBytes a) ZK _ k 8 (by simp only [List.append_assoc]) hK rfl
  have s4 : PutUint32 ((leBytes t ++ leBytes a) ++ (k ++ (Z3 ++ (ZV ++ Z4)))) (k.length + 8) b
      = some ((leBytes t ++ leBytes a ++ k) ++ (leBytes b ++ (ZV ++ Z4))) :=
    PutUint32_eq _ (leBytes t ++ leBytes a ++ k) Z3 _ _ b (by simp only [List.append_assoc]) h3
      (by simp [leBytes_length]; omega)
  have s5 : copyAt ((leBytes t ++ leBytes a ++ k) ++ (leBytes b ++ (ZV ++ Z4))) (k.length + 12) v
      = some ((leBytes t ++ leBytes a ++ k ++ leBytes b) ++ (v ++ Z4)) :=
    copyAt_eq _ (leBytes t ++ leBytes a ++ k ++ leBytes b) ZV _ v _
      (by simp only [List.append_assoc]) hV (by simp [leBytes_length]; omega)
  have s6 : PutUint32 ((leBytes t ++ leBytes a ++ k ++ leBytes b) ++ (v ++ Z4))
      (k.length + 12 + v.length) m
      = some ((leBytes t ++ leBytes a ++ k ++ leBytes b ++ v) ++ (leBytes m ++ [])) :=
    PutUint32_eq _ (leBytes t ++ leBytes a ++ k ++ leBytes b ++ v) Z4 [] _ m
      (by simp only [List.append_assoc, List.append_nil]) h4 (by simp [leBytes_length]; omega)
  rw [s1]
  simp only [Option.bind_eq_bind, Option.some_bind, List.nil_append]
  rw [s2]
  simp only [Option.some_bind]
  rw [s3]
  simp only [Option.some_bind]
  rw [s4]
  simp only [Option.some_bind]
  rw [s5]
  simp only [Option.some_bind]
  rw [s6]
  simp [layout]

/-- Encode never panics and returns the six fields in order, the numeric fields
reduced to 32 bits. -/
theorem Encode_eq (e : entry) :
    Encode e = some (layout (u32 (e.key.length + e.value.length + 16)) (u32 e.key.length)
      e.key (u32 e.value.length) e.value (uint32 e.mark)) := by
  unfold Encode
  simp only [replicate_split]
  exact Encode_writes e.key e.value _ _ _ _ _ _ _ _ _ _ (by simp) (by simp) (by simp)
    (by simp) (by simp) (by simp)

/-! ## Decode reads the layout back -/

theorem sliceFrom_eq (s A B : List Byte) (lo : Nat) (hs : s = A ++ B) (hlo : lo = A.length) :
    sliceFrom s lo = some B := by
  subst hs hlo
  unfold sliceFrom
  rw [if_pos (by simp), List.drop_left]

theorem slice_eq (s A M B : List Byte) (lo hi : Nat) (hs : s = A ++ (M ++ B))
    (hlo : lo = A.length) (hhi : hi = A.length + M.length) :
    slice s lo hi = some M := by
  subst hs hlo hhi
  unfold slice
  rw [if_pos (by simp), List.drop_left, Nat.add_sub_cancel_left, List.take_left]

theorem makeCopy_self (M : List Byte) : makeCopy M.length M = M := by
  simp [makeCopy]

theorem u32add_small (a b : Nat) (h : a + b < two32) : u32add a b = a + b := by
  unfold u32add
  exact Nat.mod_eq_of_lt h

/-- Decode on a buffer cut into the regions it reads: four bytes it skips, a
key length field, the key, a value length field, the value, a marker field. -/
theorem Decode_parts (e0 : entry) (h LK K LV V LM rest : List Byte) (m : Nat)
    (hh : h.length = 4) (hLK : LK.length = 4) (hLV : LV.length = 4)
    (uK : ∀ r, Uint32 (LK ++ r) = some K.length)
    (uV : ∀ r, Uint32 (LV ++ r) = some V.length)
    (uM : ∀ r, Uint32 (LM ++ r) = some m)
    (hlen : K.length + V.length + 12 < two32) :
    Decode e0 (h ++ (LK ++ (K ++ (LV ++ (V ++ (LM ++ rest))))))
      = some ⟨K, V, (m : Int)⟩ := by
  have a8 : u32add K.length 8 = K.length + 8 := u32add_small _ _ (by omega)
  have a12 : u32add K.length 12 = K.length + 12 := u32add_small _ _ (by omega)
  have a12v : u32add (K.length + 12) V.length = K.length + 12 + V.length :=
    u32add_small _ _ (by omega)
  have s1 : sliceFrom (h ++ (LK ++ (K ++ (LV ++ (V ++ (LM ++ rest)))))) 4
      = some (LK ++ (K ++ (LV ++ (V ++ (LM ++ rest))))) :=
    sliceFrom_eq _ h _ 4 rfl hh.symm
  have s2 : slice (h ++ (LK ++ (K ++ (LV ++ (V ++ (LM ++ rest)))))) 8 (K.length + 8)
      = some K :=
    slice_eq _ (h ++ LK) K (LV ++ (V ++ (LM ++ rest))) _ _
      (by simp only [List.append_assoc]) (by simp [hh, hLK]) (by simp [hh, hLK]; omega)
  have s3 : sliceFrom (h ++ (LK ++ (K ++ (LV ++ (V ++ (LM ++ rest)))))) (K.length + 8)
      = some (LV ++ (V ++ (LM ++ rest))) :=
    sliceFrom_eq _ (h ++ (LK ++ K)) _ _
      (by simp only [List.append_assoc]) (by simp [hh, hLK]; omega)
  have s4 : slice (h ++ (LK ++ (K ++ (LV ++ (V ++ (LM ++ rest)))))) (K.length + 12)
      (K.length + 12 + V.length) = some V :=
    slice_eq _ (h ++ (LK ++ (K ++ LV))) V (LM ++ rest) _ _
      (by simp only [List.append_assoc]) (by simp [hh, hLK, hLV]; omega)
      (by simp [hh, hLK, hLV]; omega)
  have s5 : sliceFrom (h ++ (LK ++ (K ++ (LV ++ (V ++ (LM ++ rest))))))
      (K.length + 12 + V.length) = some (LM ++ rest) :=
    sliceFrom_eq _ (h ++ (LK ++ (K ++ (LV ++ V)))) _ _
      (by simp only [List.append_assoc]) (by simp [hh, hLK, hLV]; omega)
  unfold Decode
  rw [s1]
  simp only [Option.bind_eq_bind, Option.some_bind]
  rw [uK]
  simp only [Option.some_bind, a8, a12, a12v]
  rw [s2, s3]
  simp only [Option.some_bind]
  rw [uV]
  simp only [Option.some_bind, a12v]
  rw [s4, s5]
  simp only [Option.some_bind]
  rw [uM]
  simp [makeCopy_self]

theorem Decode_fields (e0 : entry) (h K V rest : List Byte) (m : Nat)
    (hh : h.length = 4) (hlen : K.length + V.length + 12 < two32) (hm : m < two32) :
    Decode e0 (h ++ (leBytes K.length ++ (K ++ (leBytes V.length ++ (V ++ (leBytes m ++ rest))))))
      = some ⟨K, V, (m : Int)⟩ :=
  Decode_parts e0 h _ K _ V _ rest m hh rfl rfl
    (Uint32_leBytes _ (by omega)) (Uint32_leBytes _ (by omega)) (Uint32_leBytes _ hm) hlen

theorem u32_small (n : Nat) (h : n < two32) : u32 n = n := Nat.mod_eq_of_lt h

theorem uint32_small (i : Int) (h0 : 0 ≤ i) (h1 : i < 4294967296) :
    ((uint32 i : Nat) : Int) = i ∧ uint32 i < two32 := by
  unfold uint32 two32
  omega

/-! ## Claims about Encode, Decode and Length -/

/-- C1: for every entry whose key and value lengths satisfy
`len(key)+len(value)+16 < 2^32` and whose marker lies in `[0, 2^32)`, Encode
returns a buffer, and Decode of that buffer into any entry `e0` runs without
an out-of-range access and leaves exactly the key, the value and the marker
of `e`. -/
theorem Decode_Encode (e e0 : entry)
    (hlen : e.key.length + e.value.length + 16 < 4294967296)
    (h0 : 0 ≤ e.mark) (h1 : e.mark < 4294967296) :
    ∃ bytes, Encode e = some bytes ∧ Decode e0 bytes = some e := by
  refine ⟨_, Encode_eq e, ?_⟩
  have hm := uint32_small e.mark h0 h1
  unfold layout
  rw [u32_small e.key.length (by unfold two32; omega),
    u32_small e.value.length (by unfold two32; omega)]
  rw [← List.append_nil (leBytes (uint32 e.mark))]
  rw [Decode_fields e0 (leBytes _) e.key e.value [] (uint32 e.mark) rfl
    (by unfold two32; omega) hm.2]
  rw [hm.1]

/-- Witness of C1 at key `[1, 2]`, value `[3]`, marker 1, decoded into another
entry. -/
theorem Decode_Encode_witness :
    ((⟨[1, 2], [3], 1⟩ : entry).key.length + (⟨[1, 2], [3], 1⟩ : entry).value.length + 16
        < 4294967296
      ∧ (0 : Int) ≤ (⟨[1, 2], [3], 1⟩ : entry).mark)
    ∧ ∃ bytes, Encode ⟨[1, 2], [3], 1⟩ = some bytes
        ∧ Decode ⟨[9], [], 7⟩ bytes = some ⟨[1, 2], [3], 1⟩ :=
  ⟨by decide, Decode_Encode ⟨[1, 2], [3], 1⟩ ⟨[9], [], 7⟩ (by decide) (by decide) (by decide)⟩

/-- C2: for every entry with `len(key)+len(value)+16 < 2^32` and marker in
`[0, 2^32)`, Encode returns
`LE32(len(key)+len(value)+16) ++ LE32(len(key)) ++ key ++ LE32(len(value)) ++ value ++ LE32(mark)`;
the buffer has length `len(key)+len(value)+16` and its leading four bytes,
read as a little-endian number, give that length. -/
theorem Encode_layout (e : entry)
    (hlen : e.key.length + e.value.length + 16 < 4294967296)
    (h0 : 0 ≤ e.mark) (h1 : e.mark < 4294967296) :
    ∃ bytes, Encode e = some bytes
      ∧ bytes = leBytes (e.key.length + e.value.length + 16) ++ leBytes e.key.length ++ e.key
          ++ leBytes e.value.length ++ e.value ++ leBytes e.mark.toNat
      ∧ bytes.length = e.key.length + e.value.length + 16
      ∧ Uint32 (bytes.take 4) = some bytes.length := by
  have hb : Encode e = some (leBytes (e.key.length + e.value.length + 16) ++ leBytes e.key.length
      ++ e.key ++ leBytes e.value.length ++ e.value ++ leBytes e.mark.toNat) := by
    rw [Encode_eq e]
    unfold layout
    rw [u32_small e.key.length (by unfold two32; omega),
      u32_small e.value.length (by unfold two32; omega),
      u32_small _ (by unfold two32; omega)]
    have hm : uint32 e.mark = e.mark.toNat := by
      unfold uint32 two32
      omega
    rw [hm]
    simp only [List.append_assoc]
  refine ⟨_, hb, rfl, ?_, ?_⟩
  · simp only [List.length_append, leBytes_length]
    omega
  · have hl : (leBytes (e.key.length + e.value.length + 16) ++ leBytes e.key.length
        ++ e.key ++ leBytes e.value.length ++ e.value ++ leBytes e.mark.toNat).length
        = e.key.length + e.value.length + 16 := by
      simp only [List.length_append, leBytes_length]
      omega
    rw [hl]
    simp only [List.append_assoc]
    rw [List.take_left' (leBytes_length _)]
    rw [← List.append_nil (leBytes _)]
    exact Uint32_leBytes _ (by unfold two32; omega) []

/-- Witness of C2 at key `[1, 2]`, value `[3]`, marker 1. -/
theorem Encode_layout_witness :
    ((⟨[1, 2], [3], 1⟩ : entry).key.length + (⟨[1, 2], [3], 1⟩ : entry).value.length + 16
        < 4294967296)
    ∧ ∃ bytes, Encode ⟨[1, 2], [3], 1⟩ = some bytes
      ∧ bytes = leBytes (2 + 1 + 16) ++ leBytes 2 ++ [1, 2] ++ leBytes 1 ++ [3] ++ leBytes 1
      ∧ bytes.length = 2 + 1 + 16
      ∧ Uint32 (bytes.take 4) = some bytes.length :=
  ⟨by decide, Encode_layout ⟨[1, 2], [3], 1⟩ (by decide) (by decide) (by decide)⟩

/-- C8: for every entry, Length is `len(key)+len(value)+12`; Encode returns a
buffer and Length is exactly 4 less than the length of that buffer; the
marker plays no part. -/
theorem Length_eq (e : entry) :
    Length e = (e.key.length : Int) + (e.value.length : Int) + 12
      ∧ (∃ bytes, Encode e = some bytes ∧ Length e = (bytes.length : Int) - 4)
      ∧ ∀ m : Int, Length { e with mark := m } = Length e := by
  refine ⟨by simp [Length], ⟨_, Encode_eq e, ?_⟩, fun m => rfl⟩
  simp only [Length, layout, List.length_append, leBytes_length]
  push_cast
  omega

theorem sliceFrom_some (s t : List Byte) (lo : Nat) (h : sliceFrom s lo = some t) :
    lo ≤ s.length ∧ t = s.drop lo := by
  unfold sliceFrom at h
  split at h
  · simp only [Option.some.injEq] at h
    exact ⟨by assumption, h.symm⟩
  · simp at h

theorem slice_some (s t : List Byte) (lo hi : Nat) (h : slice s lo hi = some t) :
    lo ≤ hi ∧ hi ≤ s.length ∧ t = (s.drop lo).take (hi - lo) := by
  unfold slice at h
  split at h
  · rename_i hc
    simp only [Option.some.injEq] at h
    exact ⟨hc.1, hc.2, h.symm⟩
  · simp at h

theorem Uint32_some_length (b : List Byte) (v : Nat) (h : Uint32 b = some v) : 4 ≤ b.length := by
  by_contra hc
  rw [Uint32_short b (by omega)] at h
  simp at h

/-- What a run of Decode that does not panic tells about the buffer: the
index expressions it evaluated, wrapped to 32 bits, were all in range. -/
theorem Decode_some_inv (e r : entry) (input : List Byte) (h : Decode e input = some r) :
    ∃ kl vl m, Uint32 (input.drop 4) = some kl
      ∧ 8 ≤ u32add kl 8 ∧ u32add kl 8 + 4 ≤ input.length
      ∧ Uint32 (input.drop (u32add kl 8)) = some vl
      ∧ u32add kl 12 ≤ u32add (u32add kl 12) vl
      ∧ u32add (u32add kl 12) vl + 4 ≤ input.length
      ∧ Uint32 (input.drop (u32add (u32add kl 12) vl)) = some m
      ∧ r = ⟨makeCopy kl ((input.drop 8).take (u32add kl 8 - 8)),
            makeCopy vl ((input.drop (u32add kl 12)).take (u32add (u32add kl 12) vl - u32add kl 12)),
            (m : Int)⟩ := by
  unfold Decode at h
  simp only [Option.bind_eq_bind, Option.bind_eq_some, Option.pure_def, Option.some.injEq] at h
  obtain ⟨s1, hs1, kl, hkl, s2, hs2, s3, hs3, vl, hvl, s4, hs4, s5, hs5, m, hm, hr⟩ := h
  obtain ⟨-, rfl⟩ := sliceFrom_some _ _ _ hs1
  obtain ⟨h2a, h2b, rfl⟩ := slice_some _ _ _ _ hs2
  obtain ⟨h3a, rfl⟩ := sliceFrom_some _ _ _ hs3
  obtain ⟨h4a, h4b, rfl⟩ := slice_some _ _ _ _ hs4
  obtain ⟨h5a, rfl⟩ := sliceFrom_some _ _ _ hs5
  have l3 := Uint32_some_length _ _ hvl
  have l5 := Uint32_some_length _ _ hm
  simp only [List.length_drop] at l3 l5
  exact ⟨kl, vl, m, hkl, h2a, by omega, hvl, h4a, by omega, hm, hr.symm⟩

/-- C9 (as amended): for every buffer that is shorter than 8 bytes, or whose
key length field exceeds the bytes that follow, or (for a buffer of fewer than
`2^32` bytes) whose value length field exceeds the bytes that follow, Decode
stops with an out-of-range run-time panic and produces no record.  Decode has
no error result: it cannot return ErrCorruptRecord. -/
theorem Decode_out_of_bounds (e : entry) (input : List Byte) (h : fieldsOutOfBounds input) :
    Decode e input = none := by
  cases hd : Decode e input with
  | none => rfl
  | some r =>
    exfalso
    obtain ⟨kl, vl, m, hkl, h1, h2, hvl, h3, h4, -, -⟩ := Decode_some_inv e r input hd
    have bk := Uint32_lt _ _ hkl
    have bv := Uint32_lt _ _ hvl
    have l1 := Uint32_some_length _ _ hkl
    simp only [List.length_drop] at l1
    have e8 : u32add kl 8 = kl + 8 := by
      unfold u32add two32 at *
      omega
    rcases h with h | ⟨kl2, hkl2, hlt⟩ | ⟨kl2, vl2, hkl2, hvl2, hlt, hsmall⟩
    · omega
    · rw [hkl] at hkl2
      simp only [Option.some.injEq] at hkl2
      subst hkl2
      omega
    · rw [hkl] at hkl2
      simp only [Option.some.injEq] at hkl2
      subst hkl2
      rw [e8, hvl2] at hvl
      simp only [Option.some.injEq] at hvl
      subst hvl
      unfold u32add two32 at *
      omega

/-- Witness of C9 at a 10 byte buffer whose key length field reads 5 while 2
bytes follow. -/
theorem Decode_out_of_bounds_witness :
    fieldsOutOfBounds [0, 0, 0, 0, 5, 0, 0, 0, 1, 2]
      ∧ Decode ⟨[], [], 0⟩ [0, 0, 0, 0, 5, 0, 0, 0, 1, 2] = none :=
  ⟨Or.inr (Or.inl ⟨5, by decide, by decide⟩),
   Decode_out_of_bounds _ _ (Or.inr (Or.inl ⟨5, by decide, by decide⟩))⟩

/-- C9 (counterexample): on the empty buffer, which is shorter than 8 bytes,
Decode stops with an out-of-range access, which the claim excludes; and a
16 byte buffer whose total size field reads `2^32 - 1`, far beyond the buffer,
is not rejected but decoded into a record. -/
theorem Decode_no_ErrCorruptRecord :
    fieldsOutOfBounds [] ∧ Decode ⟨[], [], 0⟩ [] = none
      ∧ Decode ⟨[], [], 0⟩ [255, 255, 255, 255, 0, 0, 0, 0, 0, 0, 0, 0, 0, 0, 0, 0]
          = some ⟨[], [], 0⟩ :=
  ⟨Or.inl (by decide), by decide, by decide⟩

namespace Reader

/-! ## The buffered reader: one call of each method -/

theorem wf_NewReaderSize (src : List Byte) (size : Nat) : (NewReaderSize src size).wf := by
  simp [NewReaderSize, wf]

theorem fill_eq (b : Reader) (h : b.buf.length < b.size) :
    fill b = some (if b.src = [] then { b with err := some GoError.EOF }
      else { b with buf := b.buf ++ b.src.take (b.size - b.buf.length),
                    src := b.src.drop (b.size - b.buf.length) }) := by
  unfold fill
  rw [if_neg (by omega)]
  show some (fillLoop (99 + 1) b) = _
  unfold fillLoop srcRead
  by_cases hs : b.src = []
  · simp [hs]
  · have hpos : 0 < (List.take (b.size - b.buf.length) b.src).length := by
      rw [List.length_take]
      have : 0 < b.src.length := List.length_pos.mpr hs
      omega
    simp [hs]
    intro hc
    omega

theorem fill_spec (b : Reader) (hw : b.wf) (h : b.buf.length < b.size) :
    ∃ b1, fill b = some b1 ∧ b1.wf ∧ b1.size = b.size ∧ b1.stream = b.stream
      ∧ (b.src = [] → b1.err = some GoError.EOF ∧ b1.buf = b.buf ∧ b1.src = [])
      ∧ (b.src ≠ [] → b1.err = b.err ∧ b1.src.length < b.src.length
          ∧ b.buf.length < b1.buf.length) := by
  refine ⟨_, fill_eq b h, ?_⟩
  obtain ⟨w1, w2, w3⟩ := hw
  by_cases hs : b.src = []
  · rw [if_pos hs]
    exact ⟨⟨w1, w2, fun _ => hs⟩, rfl, rfl, fun _ => ⟨rfl, rfl, hs⟩, fun hc => absurd hs hc⟩
  · have hpos : 0 < b.src.length := List.length_pos.mpr hs
    rw [if_neg hs]
    refine ⟨⟨w1, ?_, ?_⟩, rfl, ?_, fun hc => absurd hc hs, fun _ => ⟨rfl, ?_, ?_⟩⟩
    · simp only [List.length_append, List.length_take]
      omega
    · intro he
      exact absurd (w3 he) hs
    · simp [stream]
    · simp only [List.length_drop]
      omega
    · simp only [List.length_append, List.length_take]
      omega

/-- The loop of Peek ends by its own condition, keeps the stream and the
invariant. -/
theorem peekLoop_spec (n : Nat) : ∀ (fuel : Nat) (b : Reader), b.wf →
    b.src.length + (if b.err = none then 1 else 0) < fuel →
    ∃ b1, peekLoop fuel n b = some b1 ∧ b1.wf ∧ b1.size = b.size ∧ b1.stream = b.stream
      ∧ ¬(b1.buf.length < n ∧ b1.buf.length < b1.size ∧ b1.err = none) := by
  intro fuel
  induction fuel with
  | zero => intro b _ h; omega
  | succ f ih =>
    intro b hw hf
    unfold peekLoop
    by_cases hc : b.buf.length < n ∧ b.buf.length < b.size ∧ b.err = none
    · rw [if_pos hc]
      obtain ⟨b1, e1, w1, s1, st1, hnil, hcons⟩ := fill_spec b hw hc.2.1
      rw [e1, Option.some_bind]
      have hm : b1.src.length + (if b1.err = none then 1 else 0) < f := by
        by_cases hs : b.src = []
        · obtain ⟨he, -, hsrc⟩ := hnil hs
          simp only [hs, hc.2.2, hsrc, he, List.length_nil] at hf ⊢
          simp at hf ⊢
          omega
        · obtain ⟨he, hl, -⟩ := hcons hs
          rw [he]
          omega
      obtain ⟨b2, e2, w2, s2, st2, hx⟩ := ih b1 w1 hm
      exact ⟨b2, e2, w2, by rw [s2, s1], by rw [st2, st1], hx⟩
    · rw [if_neg hc]
      exact ⟨b, rfl, hw, rfl, rfl, hc⟩

theorem Peek_spec (n : Nat) (b : Reader) (hw : b.wf) (hn : n ≤ b.size) :
    ∃ res b1, Peek n b = some (res, b1) ∧ b1.wf ∧ b1.size = b.size ∧ b1.stream = b.stream
      ∧ ((n ≤ b.stream.length ∧ res = (b.stream.take n, none))
        ∨ (b.stream.length < n ∧ ∃ e, res.2 = some e)) := by
  obtain ⟨b1, e1, w1, s1, st1, hx⟩ :=
    peekLoop_spec n (b.src.length + 3) b hw (by split <;> omega)
  unfold Peek
  rw [e1, Option.some_bind, if_neg (by omega)]
  have hlen : b1.stream.length = b1.buf.length + b1.src.length := by simp [stream]
  by_cases hlt : b1.buf.length < n
  · rw [if_pos hlt]
    have herr : b1.err ≠ none := fun he => hx ⟨hlt, by omega, he⟩
    have hsrc := w1.2.2 herr
    refine ⟨_, _, rfl, ⟨w1.1, w1.2.1, fun hc => absurd rfl hc⟩, s1, ?_, Or.inr ⟨?_, ?_⟩⟩
    · simpa [readErr, stream] using st1
    · rw [← st1, hlen, hsrc]
      simpa using hlt
    · cases he : b1.err with
      | none => exact absurd he herr
      | some e => exact ⟨e, by simp [readErr, he]⟩
  · rw [if_neg hlt]
    refine ⟨_, _, rfl, w1, s1, st1, Or.inl ⟨?_, ?_⟩⟩
    · rw [← st1, hlen]
      omega
    · rw [← st1]
      simp only [stream]
      rw [List.take_append_of_le_length (by omega)]

theorem stream_length (b : Reader) : b.stream.length = b.buf.length + b.src.length := by
  simp [stream]

/-- The loop of Discard on a reader with `remain` bytes to skip: it returns,
and either the stream held that many bytes, all are skipped and no error is
reported, or the stream was shorter and an error is reported. -/
theorem discardLoop_spec (n : Nat) : ∀ (fuel remain : Nat) (b : Reader), b.wf →
    b.src.length + (if b.buf = [] then 0 else 1) < fuel → 0 < remain →
    ∃ res b1, discardLoop fuel n remain b = some (res, b1) ∧ b1.wf ∧ b1.size = b.size
      ∧ ((remain ≤ b.stream.length ∧ res = (n, none) ∧ b1.stream = b.stream.drop remain)
        ∨ (b.stream.length < remain ∧ ∃ e, res.2 = some e)) := by
  intro fuel
  induction fuel with
  | zero => intro _ b _ h; omega
  | succ f ih =>
    intro remain b hw hf hr
    -- the reader after the optional fill
    have hfill : ∃ b0, (if b.Buffered = 0 then fill b else some b) = some b0 ∧ b0.wf
        ∧ b0.size = b.size ∧ b0.stream = b.stream
        ∧ (b0.buf = [] → b0.err ≠ none)
        ∧ (b0.src.length + (if b0.buf = [] then 0 else 1)
            ≤ b.src.length + (if b.buf = [] then 0 else 1))
        ∧ (b.buf = [] → b0.buf ≠ [] → b0.src.length < b.src.length) := by
      by_cases hb : b.Buffered = 0
      · rw [if_pos hb]
        have hbuf : b.buf = [] := List.length_eq_zero.mp hb
        have hlt : b.buf.length < b.size := by
          have := hw.1
          unfold minReadBufferSize at this
          rw [hbuf]
          simp only [List.length_nil]
          omega
        obtain ⟨b0, e0, w0, s0, st0, hnil, hcons⟩ := fill_spec b hw hlt
        refine ⟨b0, e0, w0, s0, st0, ?_, ?_, ?_⟩
        · intro h0
          by_cases hs : b.src = []
          · rw [(hnil hs).1]
            simp
          · have := (hcons hs).2.2
            rw [h0, hbuf] at this
            simp at this
        · by_cases hs : b.src = []
          · obtain ⟨-, hb0, hs0⟩ := hnil hs
            rw [hb0, hs0, hs]
          · obtain ⟨-, hl, -⟩ := hcons hs
            rw [if_pos hbuf]
            split <;> omega
        · intro _ h0
          by_cases hs : b.src = []
          · exact absurd ((hnil hs).2.1.trans hbuf) h0
          · exact (hcons hs).2.1
      · rw [if_neg hb]
        have hbuf : b.buf ≠ [] := fun h => hb (by simp [Buffered, h])
        exact ⟨b, rfl, hw, rfl, rfl, fun h => absurd h hbuf, Nat.le_refl _,
          fun h => absurd h hbuf⟩
    obtain ⟨b0, e0, w0, s0, st0, herr0, hm0, hdec⟩ := hfill
    unfold discardLoop
    rw [e0, Option.some_bind]
    simp only [Buffered]
    have hl0 := stream_length b0
    by_cases hdone : remain - min b0.buf.length remain = 0
    · -- everything asked for was buffered
      rw [if_pos hdone]
      have hle : remain ≤ b0.buf.length := by omega
      refine ⟨_, _, rfl, ⟨w0.1, ?_, w0.2.2⟩, s0, Or.inl ⟨?_, rfl, ?_⟩⟩
      · simp only [List.length_drop]
        have := w0.2.1
        omega
      · rw [← st0, hl0]
        omega
      · rw [← st0, Nat.min_eq_right hle]
        simp only [stream]
        rw [List.drop_append_of_le_length hle]
    · rw [if_neg hdone]
      have hgt : b0.buf.length < remain := by omega
      rw [Nat.min_eq_left (Nat.le_of_lt hgt)]
      have hdrop : List.drop b0.buf.length b0.buf = [] := List.drop_length b0.buf
      by_cases he : b0.err ≠ none
      · -- the source is used up
        have hsrc := w0.2.2 he
        simp only [ne_eq]
        rw [if_pos he]
        refine ⟨_, _, rfl, ⟨w0.1, ?_, fun hc => absurd rfl hc⟩, s0, Or.inr ⟨?_, ?_⟩⟩
        · simp [readErr, hdrop]
        · rw [← st0, hl0, hsrc]
          simpa using hgt
        · cases hee : b0.err with
          | none => exact absurd hee he
          | some e => exact ⟨e, by simp [readErr, hee]⟩
      · simp only [ne_eq]
        rw [if_neg he]
        have hne : b0.buf ≠ [] := fun h => he (herr0 h)
        have hpos : 0 < b0.buf.length := List.length_pos.mpr hne
        have wf1 : ({ b0 with buf := List.drop b0.buf.length b0.buf } : Reader).wf := by
          refine ⟨w0.1, ?_, w0.2.2⟩
          simp [hdrop]
        have hm1 : ({ b0 with buf := List.drop b0.buf.length b0.buf } : Reader).src.length
            + (if ({ b0 with buf := List.drop b0.buf.length b0.buf } : Reader).buf = []
                then 0 else 1) < f := by
          simp only [hdrop, if_true]
          rw [if_neg hne] at hm0
          by_cases hb : b.buf = []
          · have := hdec hb hne
            rw [if_pos hb] at hf
            omega
          · rw [if_neg hb] at hm0 hf
            omega
        obtain ⟨res, b2, e2, w2, s2, hres⟩ := ih (remain - b0.buf.length) _ wf1 hm1 (by omega)
        refine ⟨res, b2, e2, w2, by rw [s2]; exact s0, ?_⟩
        have hst1 : ({ b0 with buf := List.drop b0.buf.length b0.buf } : Reader).stream
            = b.stream.drop b0.buf.length := by
          rw [← st0]
          simp only [stream, hdrop, List.nil_append]
          rw [List.drop_left]
        rw [hst1] at hres
        rcases hres with ⟨h1, h2, h3⟩ | ⟨h1, h2⟩
        · refine Or.inl ⟨?_, h2, ?_⟩
          · simp only [List.length_drop] at h1
            omega
          · rw [h3, List.drop_drop]
            congr 1
            omega
        · refine Or.inr ⟨?_, h2⟩
          simp only [List.length_drop] at h1
          omega

theorem Discard_spec (n : Nat) (b : Reader) (hw : b.wf) :
    ∃ res b1, Discard n b = some (res, b1) ∧ b1.wf ∧ b1.size = b.size
      ∧ ((n ≤ b.stream.length ∧ res = (n, none) ∧ b1.stream = b.stream.drop n)
        ∨ (b.stream.length < n ∧ ∃ e, res.2 = some e)) := by
  unfold Discard
  by_cases h0 : n = 0
  · rw [if_pos h0]
    exact ⟨_, _, rfl, hw, rfl, Or.inl ⟨by omega, by rw [h0], by rw [h0]; rfl⟩⟩
  · rw [if_neg h0]
    exact discardLoop_spec n _ n b hw (by split <;> omega) (by omega)

/-- One call of Read returns: the bytes it stores are a prefix of the stream,
no more than asked for, and the reader is left behind that prefix. -/
theorem Read_spec (m : Nat) (b : Reader) (hw : b.wf) :
    ∃ got err b1, Read m b = some ((got, err), b1) ∧ b1.wf ∧ b1.size = b.size
      ∧ got ++ b1.stream = b.stream ∧ got.length ≤ m := by
  obtain ⟨w1, w2, w3⟩ := hw
  have wclr : ({ b with err := none } : Reader).wf := ⟨w1, w2, fun hc => absurd rfl hc⟩
  unfold Read
  by_cases hm : m = 0
  · rw [if_pos hm]
    by_cases hb : b.Buffered > 0
    · rw [if_pos hb]
      exact ⟨_, _, _, rfl, ⟨w1, w2, w3⟩, rfl, rfl, by simp⟩
    · rw [if_neg hb]
      exact ⟨_, _, _, rfl, wclr, rfl, rfl, by simp⟩
  · rw [if_neg hm]
    by_cases hb : b.buf.length = 0
    · rw [if_pos hb]
      have hbuf : b.buf = [] := List.length_eq_zero.mp hb
      by_cases he : b.err ≠ none
      · rw [if_pos he]
        exact ⟨_, _, _, rfl, wclr, rfl, rfl, by simp⟩
      · rw [if_neg he]
        by_cases hs : b.src = []
        · by_cases hbig : m ≥ b.size
          · rw [if_pos hbig]
            simp only [srcRead, hs, if_true]
            refine ⟨_, _, _, rfl, ⟨w1, w2, fun hc => absurd rfl hc⟩, rfl, ?_, by simp⟩
            simp [readErr, stream, hbuf, hs]
          · rw [if_neg hbig]
            simp only [srcRead, hs, if_true, List.length_nil]
            refine ⟨_, _, _, rfl, ⟨w1, w2, fun hc => absurd rfl hc⟩, rfl, ?_, by simp⟩
            simp [readErr, stream, hbuf, hs]
        · by_cases hbig : m ≥ b.size
          · rw [if_pos hbig]
            simp only [srcRead, hs, if_false]
            refine ⟨_, _, _, rfl, ⟨w1, w2, fun hc => absurd rfl hc⟩, rfl, ?_, ?_⟩
            · simp [readErr, stream, hbuf]
            · simp only [List.length_take]
              omega
          · rw [if_neg hbig]
            simp only [srcRead, hs, if_false]
            have hpos : 0 < b.src.length := List.length_pos.mpr hs
            have hdl : (List.take b.size b.src).length ≠ 0 := by
              rw [List.length_take]
              unfold minReadBufferSize at w1
              omega
            rw [if_neg hdl]
            refine ⟨_, _, _, rfl, ⟨w1, ?_, fun hc => absurd rfl hc⟩, rfl, ?_, ?_⟩
            · simp only [List.length_drop, List.length_take]
              omega
            · simp only [stream]
              rw [← List.append_assoc]
              have : List.take m (List.take b.size b.src)
                  ++ List.drop (min m (List.take b.size b.src).length) (List.take b.size b.src)
                  = List.take b.size b.src := by
                by_cases hml : m ≤ (List.take b.size b.src).length
                · rw [Nat.min_eq_left hml, List.take_append_drop]
                · rw [Nat.min_eq_right (by omega), List.drop_length,
                    List.take_of_length_le (by omega), List.append_nil]
              rw [this, List.take_append_drop, hbuf, List.nil_append]
            · simp only [List.length_take]
              omega
    · rw [if_neg hb]
      refine ⟨_, _, _, rfl, ⟨w1, ?_, w3⟩, rfl, ?_, ?_⟩
      · simp only [List.length_drop]
        omega
      · simp only [stream]
        rw [← List.append_assoc]
        congr 1
        by_cases hml : m ≤ b.buf.length
        · rw [Nat.min_eq_left hml, List.take_append_drop]
        · rw [Nat.min_eq_right (by omega), List.drop_length,
            List.take_of_length_le (by omega), List.append_nil]
      · simp only [List.length_take]
        omega

theorem size_ge (b : Reader) (hw : b.wf) : 16 ≤ b.size := hw.1

theorem Peek_ok (n : Nat) (b : Reader) (hw : b.wf) (hn : n ≤ b.size)
    (hl : n ≤ b.stream.length) :
    ∃ b1, Peek n b = some ((b.stream.take n, none), b1) ∧ b1.wf ∧ b1.size = b.size
      ∧ b1.stream = b.stream := by
  obtain ⟨res, b1, e, w, s, st, h | h⟩ := Peek_spec n b hw hn
  · rw [h.2] at e
    exact ⟨b1, e, w, s, st⟩
  · omega

theorem Peek_short (n : Nat) (b : Reader) (hw : b.wf) (hn : n ≤ b.size)
    (hl : b.stream.length < n) :
    ∃ x e b1, Peek n b = some ((x, some e), b1) := by
  obtain ⟨res, b1, e, -, -, -, h | ⟨-, e1, h⟩⟩ := Peek_spec n b hw hn
  · omega
  · obtain ⟨x, y⟩ := res
    simp only at h
    rw [h] at e
    exact ⟨x, e1, b1, e⟩

theorem Discard_ok (n : Nat) (b : Reader) (hw : b.wf) (hl : n ≤ b.stream.length) :
    ∃ b1, Discard n b = some ((n, none), b1) ∧ b1.wf ∧ b1.size = b.size
      ∧ b1.stream = b.stream.drop n := by
  obtain ⟨res, b1, e, w, s, h | h⟩ := Discard_spec n b hw
  · rw [h.2.1] at e
    exact ⟨b1, e, w, s, h.2.2⟩
  · omega

theorem Discard_short (n : Nat) (b : Reader) (hw : b.wf) (hl : b.stream.length < n) :
    ∃ k e b1, Discard n b = some ((k, some e), b1) := by
  obtain ⟨res, b1, e, -, -, h | ⟨-, e1, h⟩⟩ := Discard_spec n b hw
  · omega
  · obtain ⟨x, y⟩ := res
    simp only at h
    rw [h] at e
    exact ⟨x, e1, b1, e⟩

end Reader

theorem Uint32_leBytes_self (v : Nat) (hv : v < two32) : Uint32 (leBytes v) = some v := by
  have := Uint32_leBytes v hv []
  rwa [List.append_nil] at this

/-! ## readMark and readValue on a stream of fields -/

/-- On a reader whose stream holds four bytes, a key length field `kl`, `kl`
bytes, a value length field `vl`, `vl` bytes and a marker field `m`, readMark
returns `m` and no error and leaves the reader in front of the marker field. -/
theorem readMark_fields (b : Reader) (hw : b.wf) (h4 K V rest : List Byte) (m : Nat)
    (hs : b.stream
      = h4 ++ (leBytes K.length ++ (K ++ (leBytes V.length ++ (V ++ (leBytes m ++ rest))))))
    (hh : h4.length = 4) (hK : K.length < two32) (hV : V.length < two32) (hm : m < two32) :
    ∃ b1, readMark b = some (((m : Int), none), b1) ∧ b1.wf ∧ b1.size = b.size
      ∧ b1.stream = leBytes m ++ rest := by
  have hsz := Reader.size_ge b hw
  have hl : b.stream.length = K.length + V.length + 16 + rest.length := by
    rw [hs]
    simp only [List.length_append, leBytes_length, hh]
    omega
  obtain ⟨b1, e1, w1, s1, st1⟩ := Reader.Peek_ok 8 b hw (by omega) (by omega)
  have t1 : b.stream.take 8 = h4 ++ leBytes K.length := by
    rw [hs, ← List.append_assoc]
    exact List.take_left' (by simp [hh, leBytes_length])
  rw [t1] at e1
  obtain ⟨b2, e2, w2, s2, st2⟩ := Reader.Discard_ok (K.length + 8) b1 w1 (by rw [st1]; omega)
  have d2 : b2.stream = leBytes V.length ++ (V ++ (leBytes m ++ rest)) := by
    rw [st2, st1, hs]
    have : h4 ++ (leBytes K.length ++ (K ++ (leBytes V.length ++ (V ++ (leBytes m ++ rest)))))
        = (h4 ++ (leBytes K.length ++ K)) ++ (leBytes V.length ++ (V ++ (leBytes m ++ rest))) := by
      simp only [List.append_assoc]
    rw [this]
    exact List.drop_left' (by simp [hh, leBytes_length]; omega)
  obtain ⟨b3, e3, w3, s3, st3⟩ := Reader.Peek_ok 4 b2 w2 (by omega)
    (by rw [d2]; simp [leBytes_length])
  have t3 : b2.stream.take 4 = leBytes V.length := by
    rw [d2]
    exact List.take_left' (leBytes_length _)
  rw [t3] at e3
  obtain ⟨b4, e4, w4, s4, st4⟩ := Reader.Discard_ok (V.length + 4) b3 w3
    (by rw [st3, d2]; simp [leBytes_length]; omega)
  have d4 : b4.stream = leBytes m ++ rest := by
    rw [st4, st3, d2, ← List.append_assoc]
    exact List.drop_left' (by simp [leBytes_length]; omega)
  obtain ⟨b5, e5, w5, s5, st5⟩ := Reader.Peek_ok 4 b4 w4 (by omega)
    (by rw [d4]; simp [leBytes_length])
  have t5 : b4.stream.take 4 = leBytes m := by
    rw [d4]
    exact List.take_left' (leBytes_length _)
  rw [t5] at e5
  have sl : sliceFrom (h4 ++ leBytes K.length) 4 = some (leBytes K.length) :=
    sliceFrom_eq _ h4 _ 4 rfl hh.symm
  refine ⟨b5, ?_, w5, by omega, by rw [st5, d4]⟩
  unfold readMark
  simp [e1, sl, Uint32_leBytes_self _ hK, e2, e3, Uint32_leBytes_self _ hV, e4, e5,
    Uint32_leBytes_self _ hm]

theorem replicate_zero_split (n : Nat) :
    List.replicate (n + 8) (0 : Byte) = leBytes 0 ++ (leBytes 0 ++ List.replicate n 0) := by
  have h : leBytes 0 = List.replicate 4 (0 : Byte) := by decide
  rw [h, List.append_replicate_replicate, List.append_replicate_replicate]
  congr 1
  omega

/-- C7 (as amended): for every entry whose key and value are each shorter
than `2^32` bytes and whose marker lies in `[0, 2^32)`, and every sequence of
following bytes, readMark on a buffered reader positioned at the first byte of
the encoded entry followed by those bytes returns the entry's marker and no
error. -/
theorem readMark_Encode (e : entry) (bytes rest : List Byte) (b : Reader) (hw : b.wf)
    (henc : Encode e = some bytes) (hst : b.stream = bytes ++ rest)
    (hk : e.key.length < 4294967296) (hv : e.value.length < 4294967296)
    (h0 : 0 ≤ e.mark) (h1 : e.mark < 4294967296) :
    ∃ b1, readMark b = some ((e.mark, none), b1) := by
  rw [Encode_eq e] at henc
  simp only [Option.some.injEq] at henc
  have hm := uint32_small e.mark h0 h1
  rw [← henc] at hst
  unfold layout at hst
  rw [u32_small e.key.length (by unfold two32; omega),
    u32_small e.value.length (by unfold two32; omega)] at hst
  simp only [List.append_assoc] at hst
  obtain ⟨b1, e1, -⟩ := readMark_fields b hw _ e.key e.value rest (uint32 e.mark) hst
    (leBytes_length _) (by unfold two32; omega) (by unfold two32; omega) hm.2
  rw [hm.1] at e1
  exact ⟨b1, e1⟩

/-- Witness of C7 at key `[1, 2]`, value `[3]`, marker 1, followed by two more
bytes, on a reader with a 16 byte buffer. -/
theorem readMark_Encode_witness :
    ∃ b1, readMark (NewReaderSize
        ([19, 0, 0, 0, 2, 0, 0, 0, 1, 2, 1, 0, 0, 0, 3, 1, 0, 0, 0] ++ [9, 9]) 16)
      = some ((1, none), b1) :=
  readMark_Encode ⟨[1, 2], [3], 1⟩ [19, 0, 0, 0, 2, 0, 0, 0, 1, 2, 1, 0, 0, 0, 3, 1, 0, 0, 0]
    [9, 9] _ (Reader.wf_NewReaderSize _ _) (by decide) rfl (by decide) (by decide)
    (by decide) (by decide)

/-- An entry whose key has `2^32` bytes, the first eight of them zero, with an
empty value and marker 1: the key length is stored as 0 and readMark returns
marker 0. -/
theorem readMark_long_key (K K1 : List Byte) (hlen : K.length = 4294967296)
    (hK : K = leBytes 0 ++ (leBytes 0 ++ K1)) :
    ∃ bytes, Encode ⟨K, [], 1⟩ = some bytes
      ∧ (∃ b1, readMark (NewReader bytes) = some ((0, none), b1))
      ∧ ¬ ∃ b1, readMark (NewReader bytes) = some ((1, none), b1) := by
  have hb := Encode_eq ⟨K, [], 1⟩
  simp only [hlen, List.length_nil] at hb
  have hu : u32 4294967296 = 0 := by decide
  have hz : u32 0 = 0 := by decide
  rw [hu, hz] at hb
  have hst : (NewReader (layout (u32 (4294967296 + 0 + 16)) 0 K 0 [] (uint32 1))).stream
      = leBytes (u32 (4294967296 + 0 + 16)) ++ (leBytes ([] : List Byte).length
        ++ ([] ++ (leBytes ([] : List Byte).length ++ ([] ++ (leBytes 0
          ++ (K1 ++ (leBytes 0 ++ leBytes (uint32 1)))))))) := by
    simp only [NewReader, NewReaderSize, Reader.stream, layout, List.nil_append, List.length_nil]
    rw [hK]
    simp only [List.append_assoc]
  obtain ⟨b1, e1, -⟩ := readMark_fields _ (Reader.wf_NewReaderSize _ defaultBufSize) _ [] [] _ 0
    hst (leBytes_length _) (by decide) (by decide) (by decide)
  refine ⟨_, hb, ⟨b1, e1⟩, ?_⟩
  rintro ⟨b2, e2⟩
  have e1b : readMark (NewReader (layout (u32 (4294967296 + 0 + 16)) 0 K 0 [] (uint32 1)))
      = some ((((0 : Nat) : Int), none), b1) := e1
  rw [e1b] at e2
  simp at e2

/-- C7 (counterexample): the entry whose key consists of `2^32` zero bytes,
with an empty value and marker 1.  Encode stores the key length reduced to 32
bits, which is 0, so readMark on a new reader over the encoded entry takes the
first bytes of the key for the value length and for the marker and returns
marker 0, not 1. -/
theorem readMark_key_of_4GiB :
    ∃ bytes, Encode ⟨List.replicate 4294967296 0, [], 1⟩ = some bytes
      ∧ (∃ b1, readMark (NewReader bytes) = some ((0, none), b1))
      ∧ ¬ ∃ b1, readMark (NewReader bytes) = some ((1, none), b1) :=
  readMark_long_key (List.replicate 4294967296 0) (List.replicate 4294967288 0)
    (List.length_replicate _ _) (replicate_zero_split 4294967288)

theorem Uint32_take (t : List Byte) (n : Nat) (hn : 4 ≤ n) : Uint32 (t.take n) = Uint32 t := by
  by_cases hl : t.length < 4
  · rw [List.take_of_length_le (by omega)]
  · match t, hl with
    | a :: b :: c :: d :: t, _ =>
      obtain ⟨k, rfl⟩ : ∃ k, n = k + 4 := ⟨n - 4, by omega⟩
      simp [Uint32, List.take_succ_cons]
    | [], hl => simp at hl
    | [_], hl => simp at hl
    | [_, _], hl => simp at hl
    | [_, _, _], hl => simp at hl

theorem Uint32_exists (t : List Byte) (h : 4 ≤ t.length) : ∃ v, Uint32 t = some v := by
  match t, h with
  | a :: b :: c :: d :: t, _ => exact ⟨_, rfl⟩

/-- C10: for every stream that ends before the 8 byte header, the declared key
region, the value length field or the declared value is complete, readValue on
a reader positioned at its start returns the empty string and an error, not a
value. -/
theorem readValue_truncated (b : Reader) (hw : b.wf) (h : truncatedRecord b.stream) :
    ∃ e b1, readValue b = some (([], some e), b1) := by
  have hsz := Reader.size_ge b hw
  by_cases c1 : b.stream.length < 8
  · obtain ⟨x, e, b1, e1⟩ := Reader.Peek_short 8 b hw (by omega) c1
    exact ⟨e, b1, by unfold readValue; simp [e1]⟩
  obtain ⟨b1, e1, w1, s1, st1⟩ := Reader.Peek_ok 8 b hw (by omega) (by omega)
  have sl : sliceFrom (b.stream.take 8) 4 = some ((b.stream.drop 4).take 4) := by
    unfold sliceFrom
    rw [if_pos (by rw [List.length_take]; omega), List.drop_take]
  have hu : Uint32 ((b.stream.drop 4).take 4) = Uint32 (b.stream.drop 4) :=
    Uint32_take _ 4 (Nat.le_refl _)
  obtain ⟨kl, hkl⟩ := Uint32_exists (b.stream.drop 4) (by rw [List.length_drop]; omega)
  by_cases c2 : b.stream.length < kl + 8
  · obtain ⟨k, e, b2, e2⟩ := Reader.Discard_short (kl + 8) b1 w1 (by rw [st1]; exact c2)
    exact ⟨e, b2, by unfold readValue; simp [e1, sl, hu, hkl, e2]⟩
  obtain ⟨b2, e2, w2, s2, st2⟩ := Reader.Discard_ok (kl + 8) b1 w1 (by rw [st1]; omega)
  rw [st1] at st2
  by_cases c3 : b.stream.length < kl + 12
  · obtain ⟨x, e, b3, e3⟩ := Reader.Peek_short 4 b2 w2 (by omega)
      (by rw [st2, List.length_drop]; omega)
    exact ⟨e, b3, by unfold readValue; simp [e1, sl, hu, hkl, e2, e3]⟩
  obtain ⟨b3, e3, w3, s3, st3⟩ := Reader.Peek_ok 4 b2 w2 (by omega)
    (by rw [st2, List.length_drop]; omega)
  rw [st2] at e3 st3
  have hu2 : Uint32 ((b.stream.drop (kl + 8)).take 4) = Uint32 (b.stream.drop (kl + 8)) :=
    Uint32_take _ 4 (Nat.le_refl _)
  obtain ⟨vl, hvl⟩ := Uint32_exists (b.stream.drop (kl + 8)) (by rw [List.length_drop]; omega)
  obtain ⟨b4, e4, w4, s4, st4⟩ := Reader.Discard_ok 4 b3 w3
    (by rw [st3, List.length_drop]; omega)
  rw [st3] at st4
  obtain ⟨got, err, b5, e5, w5, s5, st5, hg⟩ := Reader.Read_spec vl b4 w4
  have hshort : b.stream.length < kl + vl + 12 := by
    rcases h with h | ⟨kl2, hkl2, h | h | ⟨vl2, hvl2, h⟩⟩
    · omega
    · rw [hkl] at hkl2
      simp only [Option.some.injEq] at hkl2
      omega
    · rw [hkl] at hkl2
      simp only [Option.some.injEq] at hkl2
      omega
    · rw [hkl] at hkl2
      simp only [Option.some.injEq] at hkl2
      subst hkl2
      rw [Nat.add_comm 8 kl, hvl] at hvl2
      simp only [Option.some.injEq] at hvl2
      omega
  have hgl : got.length ≠ vl := by
    have := congrArg List.length st5
    rw [st4] at this
    simp only [List.length_append, List.length_drop] at this
    omega
  cases herr : err with
  | some e =>
    rw [herr] at e5
    exact ⟨e, b5, by unfold readValue; simp [e1, sl, hu, hkl, e2, e3, hu2, hvl, e4, e5]⟩
  | none =>
    rw [herr] at e5
    exact ⟨GoError.cantReadValueBytes got.length vl, b5,
      by unfold readValue; simp [e1, sl, hu, hkl, e2, e3, hu2, hvl, e4, e5, hgl]⟩

/-- Witness of C10 at a 16 byte stream whose value length field reads 5 while 2
bytes follow, on a reader with a 16 byte buffer. -/
theorem readValue_truncated_witness :
    truncatedRecord (NewReaderSize [19, 0, 0, 0, 2, 0, 0, 0, 1, 2, 5, 0, 0, 0, 3, 1] 16).stream
      ∧ ∃ e b1, readValue (NewReaderSize [19, 0, 0, 0, 2, 0, 0, 0, 1, 2, 5, 0, 0, 0, 3, 1] 16)
          = some (([], some e), b1) :=
  ⟨Or.inr ⟨2, by decide, Or.inr (Or.inr ⟨5, by decide, by decide⟩)⟩,
   readValue_truncated _ (Reader.wf_NewReaderSize _ _)
    (Or.inr ⟨2, by decide, Or.inr (Or.inr ⟨5, by decide, by decide⟩)⟩)⟩

namespace Reader

/-! ## The buffered reader: exact steps on buffered bytes -/

theorem Peek_buffered (n : Nat) (b : Reader) (hn : n ≤ b.buf.length) (hs : n ≤ b.size) :
    Peek n b = some ((b.buf.take n, none), b) := by
  unfold Peek
  have h3 : b.src.length + 3 = (b.src.length + 2) + 1 := rfl
  rw [h3]
  unfold peekLoop
  rw [if_neg (by omega), Option.some_bind, if_neg (by omega), if_neg (by omega)]

theorem Peek_new (n : Nat) (b : Reader) (hb : b.buf = []) (he : b.err = none)
    (hsrc : b.size ≤ b.src.length) (h0 : 0 < n) (hn : n ≤ b.size) :
    Peek n b = some ((b.src.take n, none),
      { b with buf := b.src.take b.size, src := b.src.drop b.size }) := by
  have hne : b.src ≠ [] := by
    intro h
    rw [h] at hsrc
    simp only [List.length_nil] at hsrc
    omega
  have hf := fill_eq b (by rw [hb]; simp only [List.length_nil]; omega)
  rw [if_neg hne, hb] at hf
  simp only [List.nil_append, List.length_nil, Nat.sub_zero] at hf
  unfold Peek
  have h3 : b.src.length + 3 = ((b.src.length + 1) + 1) + 1 := rfl
  rw [h3]
  unfold peekLoop
  rw [if_pos ⟨by rw [hb]; exact h0, by rw [hb]; simp only [List.length_nil]; omega, he⟩, hf,
    Option.some_bind]
  unfold peekLoop
  have hl : (List.take b.size b.src).length = b.size := by
    rw [List.length_take]
    omega
  rw [if_neg (by simp only [hl]; omega), Option.some_bind]
  simp only
  rw [if_neg (by omega), if_neg (by simp only [hl]; omega)]
  rw [List.take_take, Nat.min_eq_left hn]

theorem Discard_buffered (n : Nat) (b : Reader) (h0 : 0 < n) (hn : n ≤ b.buf.length) :
    Discard n b = some ((n, none), { b with buf := b.buf.drop n }) := by
  unfold Discard
  rw [if_neg (by omega)]
  have h3 : b.src.length + 3 = (b.src.length + 2) + 1 := rfl
  rw [h3]
  unfold discardLoop
  have hB : b.Buffered = b.buf.length := rfl
  rw [if_neg (by rw [hB]; omega), Option.some_bind]
  simp only [hB, Nat.min_eq_right hn, Nat.sub_self, if_true]

theorem Read_partial (m : Nat) (b : Reader) (h0 : 0 < b.buf.length) (hm : b.buf.length < m) :
    Read m b = some ((b.buf, none), { b with buf := [] }) := by
  unfold Read
  rw [if_neg (by omega), if_neg (by omega), List.take_of_length_le (by omega),
    Nat.min_eq_right (by omega), List.drop_length]

end Reader

/-- The short read of readValue.  A new reader of any buffer size `size` over
a stream that holds four bytes, a key length field, the key, a value length
field and the value: when header, key and value length fit in the buffer with
room to spare, and the value reaches beyond the buffer, the single Read
delivers the `size - len(key) - 12` bytes that are buffered and readValue
returns an error instead of the value. -/
theorem readValue_short_read (size : Nat) (h4 K V rest : List Byte)
    (hsz : minReadBufferSize ≤ size) (hh : h4.length = 4)
    (hK : K.length < two32) (hV : V.length < two32)
    (hfit : K.length + 12 < size) (hlong : size < K.length + 12 + V.length) :
    ∃ b1, readValue (NewReaderSize
        (h4 ++ (leBytes K.length ++ (K ++ (leBytes V.length ++ (V ++ rest))))) size)
      = some (([], some (GoError.cantReadValueBytes (size - K.length - 12) V.length)), b1) := by
  generalize hsrc : h4 ++ (leBytes K.length ++ (K ++ (leBytes V.length ++ (V ++ rest)))) = src
  have hnew : NewReaderSize src size = { size := size, buf := [], src := src, err := none } := by
    simp [NewReaderSize, Nat.max_eq_left hsz]
  rw [hnew]
  unfold minReadBufferSize at hsz
  have hlen : src.length = K.length + V.length + 12 + rest.length := by
    rw [← hsrc]
    simp only [List.length_append, leBytes_length, hh]
    omega
  -- the first Peek fills the buffer
  have e1 := Reader.Peek_new 8 { size := size, buf := [], src := src, err := none } rfl rfl
    (by simp only; omega) (by omega) (by simp only; omega)
  simp only at e1
  have t8 : src.take 8 = h4 ++ leBytes K.length := by
    rw [← hsrc, ← List.append_assoc]
    exact List.take_left' (by simp [hh, leBytes_length])
  rw [t8] at e1
  have sl : sliceFrom (h4 ++ leBytes K.length) 4 = some (leBytes K.length) :=
    sliceFrom_eq _ h4 _ 4 rfl hh.symm
  have hbl : (src.take size).length = size := by
    rw [List.length_take]
    omega
  -- the key is skipped inside the buffer
  have e2 := Reader.Discard_buffered (K.length + 8)
    { size := size, buf := src.take size, src := src.drop size, err := none } (by omega)
    (by simp only [hbl]; omega)
  simp only at e2
  -- the value length is peeked and skipped inside the buffer
  have hd2 : ((src.take size).drop (K.length + 8)).length = size - (K.length + 8) := by
    rw [List.length_drop, hbl]
  have e3 := Reader.Peek_buffered 4
    { size := size, buf := (src.take size).drop (K.length + 8), src := src.drop size,
      err := none } (by simp only [hd2]; omega) (by simp only; omega)
  simp only at e3
  have t4 : ((src.take size).drop (K.length + 8)).take 4 = leBytes V.length := by
    rw [List.drop_take, List.take_take, Nat.min_eq_left (by omega)]
    rw [← hsrc]
    have : h4 ++ (leBytes K.length ++ (K ++ (leBytes V.length ++ (V ++ rest))))
        = (h4 ++ (leBytes K.length ++ K)) ++ (leBytes V.length ++ (V ++ rest)) := by
      simp only [List.append_assoc]
    rw [this, List.drop_left' (by simp [hh, leBytes_length]; omega)]
    exact List.take_left' (leBytes_length _)
  rw [t4] at e3
  have e4 := Reader.Discard_buffered 4
    { size := size, buf := (src.take size).drop (K.length + 8), src := src.drop size,
      err := none } (by omega) (by simp only [hd2]; omega)
  simp only at e4
  have hd4 : (((src.take size).drop (K.length + 8)).drop 4).length = size - K.length - 12 := by
    rw [List.length_drop, hd2]
    omega
  -- the single Read hands out what is buffered
  have e5 := Reader.Read_partial V.length
    { size := size, buf := ((src.take size).drop (K.length + 8)).drop 4, src := src.drop size,
      err := none } (by simp only [hd4]; omega) (by simp only [hd4]; omega)
  simp only [List.drop_drop] at e5 hd4
  have hne : size - K.length - 12 ≠ V.length := by omega
  refine ⟨{ size := size, buf := [], src := src.drop size, err := none }, ?_⟩
  unfold readValue
  simp [e1, sl, Uint32_leBytes_self _ hK, e2, e3, Uint32_leBytes_self _ hV, e4, e5, hd4, hne]

/-! ## The store: deletion, and values longer than the read buffer -/

theorem indexGet_indexDel (idx : Index) (key : List Byte) :
    indexGet (indexDel idx key) key = none := by
  unfold indexGet indexDel
  rw [Option.map_eq_none', List.find?_eq_none]
  intro p hp
  have := (List.mem_filter.mp hp).2
  simpa using this

theorem indexGet_indexSet (idx : Index) (key : List Byte) (loc : Nat × Nat) :
    indexGet (indexSet idx key loc) key = some loc := by
  simp [indexGet, indexSet]

/-- The common part of Put and Delete returns without an error, and the Index
afterwards is the Index before, updated at some location. -/
theorem append_index (db : Db) (e : entry) (upd : Index → (Nat × Nat) → Index) :
    ∃ db1 loc, db.append e upd = some (none, db1) ∧ db1.index = upd db.index loc := by
  unfold Db.append
  rw [Encode_eq e, Option.some_bind]
  dsimp only
  split
  · exact ⟨_, _, rfl, rfl⟩
  · exact ⟨_, _, rfl, rfl⟩

/-- C4: for every store, key and value, Put followed by Delete of the key
followed by Get of the key: Put and Delete return no error and Get returns
the error ErrNotFound. -/
theorem Get_after_Delete (db : Db) (k v : List Byte) :
    ∃ db1 db2, db.Put k v = some (none, db1) ∧ db1.Delete k = some (none, db2)
      ∧ db2.Get k = some ([], some GoError.ErrNotFound) := by
  obtain ⟨db1, -, h1, -⟩ := append_index db ⟨k, v, 0⟩ (fun idx loc => indexSet idx k loc)
  obtain ⟨db2, -, h2, hi⟩ := append_index db1 ⟨k, [], 1⟩ (fun idx _ => indexDel idx k)
  refine ⟨db1, db2, h1, h2, ?_⟩
  unfold Db.Get
  rw [hi, indexGet_indexDel]

/-- On a small record the value comes back: key `"k"`, value `"v1"`, read
from a new reader of the default size over the encoding and two more bytes. -/
theorem readValue_small_record :
    ((Encode ⟨[107], [118, 49], 0⟩).bind fun bytes =>
        (readValue (NewReader (bytes ++ [9, 9]))).map Prod.fst)
      = some ([118, 49], none) := by
  decide

/-- On small records the store returns the last value put: `Put("k", "v1")`,
`Put("k", "v2")`, `Get("k")` on a newly opened store gives `"v2"`. -/
theorem Put_Put_Get_small :
    ((NewDb [] 500).bind fun o => o.2.bind fun db =>
        (db.Put [107] [118, 49]).bind fun p =>
          (p.2.Put [107] [118, 50]).bind fun q => q.2.Get [107])
      = some ([118, 50], none) := by
  decide

/-! ## Decode ignores the total size field and what follows the marker -/

/-- Decode on the fields of an entry within the 32 bit limits, behind any four
bytes and in front of any bytes. -/
theorem Decode_entry_fields (e e0 : entry) (h rest : List Byte) (hh : h.length = 4)
    (hlen : e.key.length + e.value.length + 16 < 4294967296)
    (h0 : 0 ≤ e.mark) (h1 : e.mark < 4294967296) :
    Decode e0 (h ++ (leBytes e.key.length ++ (e.key ++ (leBytes e.value.length
      ++ (e.value ++ (leBytes (uint32 e.mark) ++ rest)))))) = some e := by
  have hm := uint32_small e.mark h0 h1
  rw [Decode_fields e0 h e.key e.value rest (uint32 e.mark) hh (by unfold two32; omega) hm.2,
    hm.1]

/-- The buffer that Encode returns for an entry within the 32 bit limits, cut
into the total size field and the rest. -/
theorem Encode_split (e : entry) (bytes : List Byte) (henc : Encode e = some bytes)
    (hlen : e.key.length + e.value.length + 16 < 4294967296) :
    bytes = leBytes (e.key.length + e.value.length + 16) ++ (leBytes e.key.length ++ (e.key
      ++ (leBytes e.value.length ++ (e.value ++ leBytes (uint32 e.mark))))) := by
  rw [Encode_eq e] at henc
  simp only [Option.some.injEq] at henc
  rw [← henc]
  unfold layout
  rw [u32_small e.key.length (by unfold two32; omega),
    u32_small e.value.length (by unfold two32; omega), u32_small _ (by unfold two32; omega)]

/-- C15: for every entry with `len(key)+len(value)+16 < 2^32` and marker in
`[0, 2^32)`: when the first four bytes of the encoded entry are replaced by
any four bytes and any bytes are appended behind it, Decode still returns the
entry. -/
theorem Decode_ignores_total_size (e e0 : entry) (bytes h rest : List Byte)
    (henc : Encode e = some bytes) (hh : h.length = 4)
    (hlen : e.key.length + e.value.length + 16 < 4294967296)
    (h0 : 0 ≤ e.mark) (h1 : e.mark < 4294967296) :
    Decode e0 (h ++ bytes.drop 4 ++ rest) = some e := by
  rw [Encode_split e bytes henc hlen, List.drop_left' (leBytes_length _)]
  simp only [List.append_assoc]
  exact Decode_entry_fields e e0 h rest hh hlen h0 h1

/-- Witness of C15 at key `[1, 2]`, value `[3]`, marker 1, with the total size
field overwritten by `[7, 7, 7, 7]` and two bytes appended. -/
theorem Decode_ignores_total_size_witness :
    Decode ⟨[9], [], 7⟩
      ([7, 7, 7, 7] ++ ([19, 0, 0, 0, 2, 0, 0, 0, 1, 2, 1, 0, 0, 0, 3, 1, 0, 0, 0] : List Byte).drop 4
        ++ [5, 6]) = some ⟨[1, 2], [3], 1⟩ :=
  Decode_ignores_total_size ⟨[1, 2], [3], 1⟩ ⟨[9], [], 7⟩ _ [7, 7, 7, 7] [5, 6]
    (by decide) (by decide) (by decide) (by decide) (by decide)

/-- C18: for all entries `e1`, `e2` within the limits (`len(key)+len(value)+16
< 2^32`, marker in `[0, 2^32)`) and all byte sequences `r1`, `r2`: if the
encoding of `e1` followed by `r1` equals the encoding of `e2` followed by `r2`,
then `e1 = e2` and `r1 = r2`. -/
theorem Encode_unique_parse (e1 e2 : entry) (b1 b2 r1 r2 : List Byte)
    (henc1 : Encode e1 = some b1) (henc2 : Encode e2 = some b2)
    (hlen1 : e1.key.length + e1.value.length + 16 < 4294967296)
    (h01 : 0 ≤ e1.mark) (h11 : e1.mark < 4294967296)
    (hlen2 : e2.key.length + e2.value.length + 16 < 4294967296)
    (h02 : 0 ≤ e2.mark) (h12 : e2.mark < 4294967296)
    (heq : b1 ++ r1 = b2 ++ r2) :
    e1 = e2 ∧ r1 = r2 := by
  have d1 : Decode ⟨[], [], 0⟩ (b1 ++ r1) = some e1 := by
    rw [Encode_split e1 b1 henc1 hlen1]
    simp only [List.append_assoc]
    exact Decode_entry_fields e1 _ _ r1 (leBytes_length _) hlen1 h01 h11
  have d2 : Decode ⟨[], [], 0⟩ (b2 ++ r2) = some e2 := by
    rw [Encode_split e2 b2 henc2 hlen2]
    simp only [List.append_assoc]
    exact Decode_entry_fields e2 _ _ r2 (leBytes_length _) hlen2 h02 h12
  rw [heq, d2] at d1
  simp only [Option.some.injEq] at d1
  subst d1
  rw [henc1] at henc2
  simp only [Option.some.injEq] at henc2
  subst henc2
  exact ⟨rfl, List.append_cancel_left heq⟩

/-- Witness of C18: the encoding of key `[1]`, empty value, marker 0 followed
by `[4, 2]`, split in the same way twice. -/
theorem Encode_unique_parse_witness :
    (Encode ⟨[1], [], 0⟩ = some [17, 0, 0, 0, 1, 0, 0, 0, 1, 0, 0, 0, 0, 0, 0, 0, 0]
      ∧ (⟨[1], [], 0⟩ : entry).key.length + (⟨[1], [], 0⟩ : entry).value.length + 16
          < 4294967296)
    ∧ (⟨[1], [], 0⟩ : entry) = ⟨[1], [], 0⟩ ∧ ([4, 2] : List Byte) = [4, 2] :=
  ⟨⟨by decide, by decide⟩,
   Encode_unique_parse ⟨[1], [], 0⟩ ⟨[1], [], 0⟩
    [17, 0, 0, 0, 1, 0, 0, 0, 1, 0, 0, 0, 0, 0, 0, 0, 0]
    [17, 0, 0, 0, 1, 0, 0, 0, 1, 0, 0, 0, 0, 0, 0, 0, 0] [4, 2] [4, 2]
    (by decide) (by decide) (by decide) (by decide) (by decide) (by decide) (by decide)
    (by decide) rfl⟩

/-! ## The codec at the limit of the 32 bit fields -/

/-- C14 (as amended): for every entry with `len(key)+len(value)+16 < 2^32` and
marker in `[0, 2^32)`, Encode returns a buffer (it has no failure mode), the
buffer has `len(key)+len(value)+16` bytes, its total size field reads that
number, and Decode of the buffer returns the entry. -/
theorem codec_within_limit (e e0 : entry)
    (hlen : e.key.length + e.value.length + 16 < 4294967296)
    (h0 : 0 ≤ e.mark) (h1 : e.mark < 4294967296) :
    ∃ bytes, Encode e = some bytes
      ∧ bytes.length = e.key.length + e.value.length + 16
      ∧ Uint32 bytes = some (e.key.length + e.value.length + 16)
      ∧ Decode e0 bytes = some e := by
  obtain ⟨bytes, henc⟩ : ∃ bytes, Encode e = some bytes := ⟨_, Encode_eq e⟩
  have hs := Encode_split e bytes henc hlen
  refine ⟨bytes, henc, ?_, ?_, ?_⟩
  · rw [hs]
    simp only [List.length_append, leBytes_length]
    omega
  · rw [hs]
    exact Uint32_leBytes _ (by unfold two32; omega) _
  · rw [hs, ← List.append_nil (leBytes (uint32 e.mark))]
    exact Decode_entry_fields e e0 _ [] (leBytes_length _) hlen h0 h1

/-- Witness of C14 at key `[1, 2]`, value `[3]`, marker 1. -/
theorem codec_within_limit_witness :
    ∃ bytes, Encode ⟨[1, 2], [3], 1⟩ = some bytes
      ∧ bytes.length = 2 + 1 + 16
      ∧ Uint32 bytes = some (2 + 1 + 16)
      ∧ Decode ⟨[], [], 0⟩ bytes = some ⟨[1, 2], [3], 1⟩ :=
  codec_within_limit ⟨[1, 2], [3], 1⟩ ⟨[], [], 0⟩ (by decide) (by decide) (by decide)

/-- An entry whose key has `2^32 - 12` bytes, with an empty value and marker
0.  Key and value length each fit their field.  The buffer has `2^32 + 4`
bytes and its total size field reads 4; in Decode the index `kl+12` wraps
around to 0, so the marker is read from the total size field and comes back
as 4. -/
theorem codec_long_key (K : List Byte) (e0 : entry) (hK : K.length = 4294967284) :
    ∃ bytes, Encode ⟨K, [], 0⟩ = some bytes
      ∧ bytes.length = 4294967300
      ∧ Uint32 bytes = some 4
      ∧ Decode e0 bytes = some ⟨K, [], 4⟩ := by
  have hb := Encode_eq ⟨K, [], 0⟩
  simp only [hK, List.length_nil] at hb
  have hu1 : u32 (4294967284 + 0 + 16) = 4 := by decide
  have hu2 : u32 4294967284 = 4294967284 := by decide
  have hu3 : u32 0 = 0 := by decide
  have hu4 : uint32 0 = 0 := by decide
  rw [hu1, hu2, hu3, hu4] at hb
  refine ⟨_, hb, ?_, ?_, ?_⟩
  · simp only [layout, List.length_append, leBytes_length, hK, List.length_nil]
  · exact Uint32_leBytes 4 (by decide) _
  · have a8 : u32add 4294967284 8 = 4294967292 := by decide
    have a12 : u32add 4294967284 12 = 0 := by decide
    have a0 : u32add 0 0 = 0 := by decide
    have hL4 : (leBytes 4).length = 4 := rfl
    have hLK : (leBytes 4294967284).length = 4 := rfl
    have s1 : sliceFrom (layout 4 4294967284 K 0 [] 0) 4
        = some (leBytes 4294967284 ++ (K ++ (leBytes 0 ++ ([] ++ leBytes 0)))) :=
      sliceFrom_eq _ (leBytes 4) _ 4 rfl rfl
    have s2 : slice (layout 4 4294967284 K 0 [] 0) 8 4294967292 = some K :=
      slice_eq _ (leBytes 4 ++ leBytes 4294967284) K (leBytes 0 ++ ([] ++ leBytes 0)) _ _
        (by simp only [layout, List.append_assoc]) (by simp [hL4, hLK])
        (by simp [hL4, hLK, hK])
    have s3 : sliceFrom (layout 4 4294967284 K 0 [] 0) 4294967292
        = some (leBytes 0 ++ ([] ++ leBytes 0)) :=
      sliceFrom_eq _ (leBytes 4 ++ (leBytes 4294967284 ++ K)) _ _
        (by simp only [layout, List.append_assoc]) (by simp [hL4, hLK, hK])
    have s4 : slice (layout 4 4294967284 K 0 [] 0) 0 0 = some [] :=
      slice_eq _ [] [] _ 0 0 rfl rfl rfl
    have s5 : sliceFrom (layout 4 4294967284 K 0 [] 0) 0 = some (layout 4 4294967284 K 0 [] 0) :=
      sliceFrom_eq _ [] _ 0 rfl rfl
    have u1 : Uint32 (leBytes 4294967284 ++ (K ++ (leBytes 0 ++ ([] ++ leBytes 0))))
        = some 4294967284 := Uint32_leBytes _ (by decide) _
    have u2 : Uint32 (leBytes 0 ++ ([] ++ leBytes 0)) = some 0 := Uint32_leBytes _ (by decide) _
    have u3 : Uint32 (layout 4 4294967284 K 0 [] 0) = some 4 := Uint32_leBytes 4 (by decide) _
    have mk : makeCopy 4294967284 K = K := by rw [← hK]; exact makeCopy_self K
    unfold Decode
    rw [s1]
    simp only [Option.bind_eq_bind, Option.some_bind]
    rw [u1]
    simp only [Option.some_bind, a8, a12]
    rw [s2, s3]
    simp only [Option.some_bind]
    rw [u2]
    simp only [Option.some_bind, a0]
    rw [s4, s5]
    simp only [Option.some_bind]
    rw [u3]
    simp only [Option.some_bind, Option.pure_def, mk]
    rfl

/-- C14 (counterexample): the entry whose key consists of `2^32 - 12` zero
bytes, with an empty value and marker 0 (each length is below `2^32`): the
encoded entry has `2^32 + 4` bytes while its total size field reads 4, and
Decode returns marker 4.  And the entry with empty key and value and marker
-1: Decode returns marker `2^32 - 1`. -/
theorem codec_beyond_limit :
    (∃ bytes, Encode ⟨List.replicate 4294967284 0, [], 0⟩ = some bytes
      ∧ bytes.length = 4294967300
      ∧ Uint32 bytes = some 4
      ∧ Decode ⟨[], [], 0⟩ bytes = some ⟨List.replicate 4294967284 0, [], 4⟩)
    ∧ (Encode ⟨[], [], -1⟩).bind (Decode ⟨[], [], 0⟩) = some ⟨[], [], 4294967295⟩ :=
  ⟨codec_long_key (List.replicate 4294967284 0) ⟨[], [], 0⟩ (List.length_replicate _ _),
   by decide⟩

/-! ## Where the streaming readers stop -/

/-- On a reader whose stream holds four bytes, a key length field, the key, a
value length field and the value, followed by `tail`: readValue gets to its
Read call, which stores a prefix `got` of the value and the tail; the result is
the value when `got` has the declared length and an error otherwise, and the
reader is left behind `got`. -/
theorem readValue_fields (b : Reader) (hw : b.wf) (h4 K V tail : List Byte)
    (hs : b.stream = h4 ++ (leBytes K.length ++ (K ++ (leBytes V.length ++ (V ++ tail)))))
    (hh : h4.length = 4) (hK : K.length < two32) (hV : V.length < two32) :
    ∃ got err b1, b1.wf ∧ b1.size = b.size ∧ got ++ b1.stream = V ++ tail
      ∧ got.length ≤ V.length
      ∧ readValue b = some
          (if err ≠ none then ([], err)
           else if got.length ≠ V.length then
             ([], some (GoError.cantReadValueBytes got.length V.length))
           else (makeCopy V.length got, none), b1) := by
  have hsz := Reader.size_ge b hw
  have hl : b.stream.length = K.length + V.length + 12 + tail.length := by
    rw [hs]
    simp only [List.length_append, leBytes_length, hh]
    omega
  obtain ⟨b1, e1, w1, s1, st1⟩ := Reader.Peek_ok 8 b hw (by omega) (by omega)
  have t1 : b.stream.take 8 = h4 ++ leBytes K.length := by
    rw [hs, ← List.append_assoc]
    exact List.take_left' (by simp [hh, leBytes_length])
  rw [t1] at e1
  obtain ⟨b2, e2, w2, s2, st2⟩ := Reader.Discard_ok (K.length + 8) b1 w1 (by rw [st1]; omega)
  have d2 : b2.stream = leBytes V.length ++ (V ++ tail) := by
    rw [st2, st1, hs]
    have : h4 ++ (leBytes K.length ++ (K ++ (leBytes V.length ++ (V ++ tail))))
        = (h4 ++ (leBytes K.length ++ K)) ++ (leBytes V.length ++ (V ++ tail)) := by
      simp only [List.append_assoc]
    rw [this]
    exact List.drop_left' (by simp [hh, leBytes_length]; omega)
  obtain ⟨b3, e3, w3, s3, st3⟩ := Reader.Peek_ok 4 b2 w2 (by omega)
    (by rw [d2]; simp [leBytes_length])
  have t3 : b2.stream.take 4 = leBytes V.length := by
    rw [d2]
    exact List.take_left' (leBytes_length _)
  rw [t3] at e3
  obtain ⟨b4, e4, w4, s4, st4⟩ := Reader.Discard_ok 4 b3 w3
    (by rw [st3, d2]; simp [leBytes_length])
  have d4 : b4.stream = V ++ tail := by
    rw [st4, st3, d2]
    exact List.drop_left' (leBytes_length _)
  obtain ⟨got, err, b5, e5, w5, s5, st5, hg⟩ := Reader.Read_spec V.length b4 w4
  have sl : sliceFrom (h4 ++ leBytes K.length) 4 = some (leBytes K.length) :=
    sliceFrom_eq _ h4 _ 4 rfl hh.symm
  refine ⟨got, err, b5, w5, by omega, by rw [st5, d4], hg, ?_⟩
  unfold readValue
  simp only [e1, Option.some_bind, sl, Uint32_leBytes_self _ hK, e2, e3,
    Uint32_leBytes_self _ hV, e4, e5, ne_eq, not_true_eq_false, if_false]
  by_cases he : err = none
  · by_cases hgl : got.length = V.length
    · simp [he, hgl]
    · simp [he, hgl]
  · simp [he]

/-- A prefix of `V ++ tail` that is as long as `V` is `V`. -/
theorem prefix_of_length (got rest V tail : List Byte) (h : got ++ rest = V ++ tail)
    (hl : got.length = V.length) : got = V ∧ rest = tail :=
  List.append_inj h hl

/-- C16 (as amended): for every entry whose key and value are each shorter
than `2^32` bytes and all trailing bytes: after a readValue or a readMark
that returns no error on a reader positioned at the encoded entry followed by
the trailing bytes, the reader's remaining content is the 4 byte marker
followed by the trailing bytes, and the number of bytes consumed is Length of
the entry, `len(key)+len(value)+12`. -/
theorem readers_stop_at_marker (e : entry) (bytes rest : List Byte) (b : Reader) (hw : b.wf)
    (henc : Encode e = some bytes) (hst : b.stream = bytes ++ rest)
    (hk : e.key.length < 4294967296) (hv : e.value.length < 4294967296) :
    (∀ v b1, readValue b = some ((v, none), b1) →
        b1.stream = leBytes (uint32 e.mark) ++ rest
          ∧ (b.stream.length : Int) - (b1.stream.length : Int) = Length e)
    ∧ (∀ m b1, readMark b = some ((m, none), b1) →
        b1.stream = leBytes (uint32 e.mark) ++ rest
          ∧ (b.stream.length : Int) - (b1.stream.length : Int) = Length e) := by
  rw [Encode_eq e] at henc
  simp only [Option.some.injEq] at henc
  rw [← henc] at hst
  unfold layout at hst
  rw [u32_small e.key.length (by unfold two32; omega),
    u32_small e.value.length (by unfold two32; omega)] at hst
  simp only [List.append_assoc] at hst
  have hlen : b.stream.length = e.key.length + e.value.length + 12 + (4 + rest.length) := by
    rw [hst]
    simp only [List.length_append, leBytes_length]
    omega
  have hcount : ∀ b1 : Reader, b1.stream = leBytes (uint32 e.mark) ++ rest →
      (b.stream.length : Int) - (b1.stream.length : Int) = Length e := by
    intro b1 h1
    rw [hlen, h1]
    simp only [List.length_append, leBytes_length, Length]
    push_cast
    omega
  constructor
  · intro v b1 hr
    obtain ⟨got, err, b5, -, -, hgot, -, hres⟩ := readValue_fields b hw _ e.key e.value
      (leBytes (uint32 e.mark) ++ rest) hst (leBytes_length _)
      (by unfold two32; omega) (by unfold two32; omega)
    rw [hres] at hr
    simp only [Option.some.injEq, Prod.mk.injEq] at hr
    obtain ⟨hr1, hr2⟩ := hr
    subst hr2
    by_cases he : err = none
    · by_cases hgl : got.length = e.value.length
      · have := (prefix_of_length got b5.stream e.value _ hgot hgl).2
        exact ⟨this, hcount b5 this⟩
      · simp [he, hgl] at hr1
    · simp only [ne_eq, he, not_false_eq_true, if_true, Prod.mk.injEq] at hr1
      exact hr1.2.elim
  · intro m b1 hr
    obtain ⟨b5, e5, -, -, st5⟩ := readMark_fields b hw _ e.key e.value rest (uint32 e.mark) hst
      (leBytes_length _) (by unfold two32; omega) (by unfold two32; omega)
      (by unfold uint32 two32; omega)
    rw [e5] at hr
    simp only [Option.some.injEq, Prod.mk.injEq] at hr
    obtain ⟨-, hr2⟩ := hr
    subst hr2
    exact ⟨st5, hcount b5 st5⟩

/-- Witness of C16 at key `[1, 2, 3, 4]`, value `[7, 8]`, marker 1, followed by
`[9, 9]`, on a new reader with a 16 byte buffer: readValue and readMark both
leave the reader in front of the marker bytes `[1, 0, 0, 0]`. -/
theorem readers_stop_at_marker_witness :
    ((⟨16, [1, 0, 0, 0, 9, 9], [], none⟩ : Reader).stream = leBytes (uint32 1) ++ [9, 9]
      ∧ (((NewReaderSize ([22, 0, 0, 0, 4, 0, 0, 0, 1, 2, 3, 4, 2, 0, 0, 0, 7, 8, 1, 0, 0, 0]
            ++ [9, 9]) 16).stream.length : Nat) : Int)
          - (((⟨16, [1, 0, 0, 0, 9, 9], [], none⟩ : Reader).stream.length : Nat) : Int)
          = Length ⟨[1, 2, 3, 4], [7, 8], 1⟩)
    ∧ ((⟨16, [1, 0, 0, 0, 9, 9], [], none⟩ : Reader).stream = leBytes (uint32 1) ++ [9, 9]
      ∧ (((NewReaderSize ([22, 0, 0, 0, 4, 0, 0, 0, 1, 2, 3, 4, 2, 0, 0, 0, 7, 8, 1, 0, 0, 0]
            ++ [9, 9]) 16).stream.length : Nat) : Int)
          - (((⟨16, [1, 0, 0, 0, 9, 9], [], none⟩ : Reader).stream.length : Nat) : Int)
          = Length ⟨[1, 2, 3, 4], [7, 8], 1⟩) :=
  ⟨(readers_stop_at_marker ⟨[1, 2, 3, 4], [7, 8], 1⟩
      [22, 0, 0, 0, 4, 0, 0, 0, 1, 2, 3, 4, 2, 0, 0, 0, 7, 8, 1, 0, 0, 0] [9, 9]
      (NewReaderSize ([22, 0, 0, 0, 4, 0, 0, 0, 1, 2, 3, 4, 2, 0, 0, 0, 7, 8, 1, 0, 0, 0]
        ++ [9, 9]) 16)
      (Reader.wf_NewReaderSize _ _) (by decide) (by rfl) (by decide) (by decide)).1
      [7, 8] ⟨16, [1, 0, 0, 0, 9, 9], [], none⟩ (by decide),
   (readers_stop_at_marker ⟨[1, 2, 3, 4], [7, 8], 1⟩
      [22, 0, 0, 0, 4, 0, 0, 0, 1, 2, 3, 4, 2, 0, 0, 0, 7, 8, 1, 0, 0, 0] [9, 9]
      (NewReaderSize ([22, 0, 0, 0, 4, 0, 0, 0, 1, 2, 3, 4, 2, 0, 0, 0, 7, 8, 1, 0, 0, 0]
        ++ [9, 9]) 16)
      (Reader.wf_NewReaderSize _ _) (by decide) (by rfl) (by decide) (by decide)).2
      1 ⟨16, [1, 0, 0, 0, 9, 9], [], none⟩ (by decide)⟩

/-- An entry whose key has `2^32` bytes, the first eight of them zero, with an
empty value and marker 1: readMark on a new reader over the encoded entry
returns without an error after 12 bytes; Length of the entry is `2^32 + 12`. -/
theorem readMark_long_key_consumed (K K1 : List Byte) (hlen : K.length = 4294967296)
    (hK : K = leBytes 0 ++ (leBytes 0 ++ K1)) :
    ∃ bytes b1, Encode ⟨K, [], 1⟩ = some bytes
      ∧ readMark (NewReader bytes) = some ((0, none), b1)
      ∧ (NewReader bytes).stream.length = b1.stream.length + 12
      ∧ Length ⟨K, [], 1⟩ = 4294967308 := by
  have hb := Encode_eq ⟨K, [], 1⟩
  simp only [hlen, List.length_nil] at hb
  have hu : u32 4294967296 = 0 := by decide
  have hz : u32 0 = 0 := by decide
  rw [hu, hz] at hb
  have hst : (NewReader (layout (u32 (4294967296 + 0 + 16)) 0 K 0 [] (uint32 1))).stream
      = leBytes (u32 (4294967296 + 0 + 16)) ++ (leBytes ([] : List Byte).length
        ++ ([] ++ (leBytes ([] : List Byte).length ++ ([] ++ (leBytes 0
          ++ (K1 ++ (leBytes 0 ++ leBytes (uint32 1)))))))) := by
    simp only [NewReader, NewReaderSize, Reader.stream, layout, List.nil_append, List.length_nil]
    rw [hK]
    simp only [List.append_assoc]
  obtain ⟨b1, e1, -, -, st1⟩ := readMark_fields _ (Reader.wf_NewReaderSize _ defaultBufSize) _
    [] [] _ 0 hst (leBytes_length _) (by decide) (by decide) (by decide)
  have hK1 : K1.length = 4294967288 := by
    have := congrArg List.length hK
    rw [hlen] at this
    simp only [List.length_append, leBytes_length] at this
    omega
  refine ⟨_, b1, hb, e1, ?_, ?_⟩
  · rw [hst, st1]
    simp only [List.length_append, leBytes_length, List.length_nil, hK1]
  · simp only [Length, hlen, List.length_nil]
    rfl

/-- C16 (counterexample): the entry whose key consists of `2^32` zero bytes,
with an empty value and marker 1.  readMark on a new reader over the encoded
entry succeeds, but only 12 bytes have been consumed, not the `2^32 + 12`
that Length gives, so the reader is not in front of the marker. -/
theorem readMark_stops_inside_key :
    ∃ bytes b1, Encode ⟨List.replicate 4294967296 0, [], 1⟩ = some bytes
      ∧ readMark (NewReader bytes) = some ((0, none), b1)
      ∧ (NewReader bytes).stream.length = b1.stream.length + 12
      ∧ Length ⟨List.replicate 4294967296 0, [], 1⟩ = 4294967308 :=
  readMark_long_key_consumed (List.replicate 4294967296 0) (List.replicate 4294967288 0)
    (List.length_replicate _ _) (replicate_zero_split 4294967288)

/-! ## The streaming readers against Decode -/

/-- The encoded entry with key `"k"`, a value `V` of 5000 bytes and marker 0:
Decode and readMark read it, readValue on a new reader does not. -/
theorem readers_on_long_value (V : List Byte) (hV : V.length = 5000) :
    ∃ bytes, Encode ⟨[107], V, 0⟩ = some bytes
      ∧ bytes.length = 5017
      ∧ Decode ⟨[], [], 0⟩ bytes = some ⟨[107], V, 0⟩
      ∧ (∃ b1, readMark (NewReader bytes) = some ((0, none), b1))
      ∧ ∃ b1, readValue (NewReader bytes)
          = some (([], some (GoError.cantReadValueBytes 4083 5000)), b1) := by
  obtain ⟨bytes, hb⟩ : ∃ bytes, Encode ⟨[107], V, 0⟩ = some bytes := ⟨_, Encode_eq _⟩
  have hs := Encode_split ⟨[107], V, 0⟩ bytes hb
    (by simp only [hV, List.length_singleton]; decide)
  simp only [hV, List.length_singleton] at hs
  have hm : uint32 0 = 0 := by decide
  rw [hm] at hs
  refine ⟨bytes, hb, ?_, ?_, ?_, ?_⟩
  · rw [hs]
    simp only [List.length_append, leBytes_length, hV, List.length_singleton]
  · rw [hs, ← List.append_nil (leBytes 0)]
    have h := Decode_entry_fields ⟨[107], V, 0⟩ ⟨[], [], 0⟩ (leBytes (1 + 5000 + 16)) []
      (leBytes_length _) (by simp only [hV, List.length_singleton]; decide)
      (Int.le_refl 0) (by show (0 : Int) < 4294967296; decide)
    simp only [hV, List.length_singleton, hm] at h
    exact h
  · rw [hs]
    have hst : (NewReader (leBytes (1 + 5000 + 16) ++ (leBytes 1 ++ ([107]
        ++ (leBytes 5000 ++ (V ++ leBytes 0)))))).stream
        = leBytes (1 + 5000 + 16) ++ (leBytes ([107] : List Byte).length ++ ([107]
          ++ (leBytes V.length ++ (V ++ (leBytes 0 ++ []))))) := by
      rw [hV, List.append_nil]
      exact List.nil_append _
    obtain ⟨b1, e1, -⟩ := readMark_fields _ (Reader.wf_NewReaderSize _ _) _ [107] V [] 0
      hst (leBytes_length _) (by decide) (by rw [hV]; decide) (by decide)
    exact ⟨b1, e1⟩
  · rw [hs]
    have h := readValue_short_read 4096 (leBytes (1 + 5000 + 16)) [107] V (leBytes 0)
      (by decide) (leBytes_length _) (by decide) (by rw [hV]; decide) (by decide)
      (by rw [hV]; decide)
    simp only [hV, List.length_singleton] at h
    exact h

/-- C17 (failing input): the buffer that Encode returns for key `"k"`, a value
of 5000 bytes and marker 0.  It has 5017 bytes, Decode completes on it and
returns the entry, readMark on a new reader over it returns marker 0 and no
error, but readValue on a new reader over it returns an error instead of the
value that Decode produces. -/
theorem readValue_disagrees_with_Decode :
    ∃ bytes, Encode ⟨[107], List.replicate 5000 97, 0⟩ = some bytes
      ∧ bytes.length = 5017
      ∧ Decode ⟨[], [], 0⟩ bytes = some ⟨[107], List.replicate 5000 97, 0⟩
      ∧ (∃ b1, readMark (NewReader bytes) = some ((0, none), b1))
      ∧ ∃ b1, readValue (NewReader bytes)
          = some (([], some (GoError.cantReadValueBytes 4083 5000)), b1) :=
  readers_on_long_value (List.replicate 5000 97) (List.length_replicate _ _)

/-! ## The store: growth of the active file -/

theorem Encode_length (e : entry) (bytes : List Byte) (h : Encode e = some bytes) :
    bytes.length = e.key.length + e.value.length + 16 := by
  rw [Encode_eq e] at h
  simp only [Option.some.injEq] at h
  rw [← h]
  simp only [layout, List.length_append, leBytes_length]
  omega

/-- One Put returns without an error and keeps the size threshold; either no
rotation took place, the active segment is the same one and has grown by the
encoded record, or the store rotated and the active segment has the next
id. -/
theorem Put_cases (db : Db) (k v : List Byte) :
    ∃ db1, db.Put k v = some (none, db1) ∧ db1.maxSegmentSize = db.maxSegmentSize
      ∧ ((db1.active.id = db.active.id ∧ db1.closed = db.closed
          ∧ db1.active.data.length = db.active.data.length + (k.length + v.length + 16))
        ∨ db1.active.id = db.active.id + 1) := by
  obtain ⟨bytes, hb⟩ : ∃ bytes, Encode ⟨k, v, 0⟩ = some bytes := ⟨_, Encode_eq _⟩
  have hl := Encode_length _ bytes hb
  simp only at hl
  unfold Db.Put Db.append
  rw [hb, Option.some_bind]
  dsimp only
  by_cases hc : (db.active.data ++ bytes).length > db.maxSegmentSize
  · rw [if_pos hc]
    exact ⟨_, rfl, rfl, Or.inr rfl⟩
  · rw [if_neg hc]
    refine ⟨_, rfl, rfl, Or.inl ⟨rfl, rfl, ?_⟩⟩
    simp only [List.length_append, hl]

/-- The id of the active segment never decreases over a list of Puts. -/
theorem PutAll_id_le : ∀ (ps : List (List Byte × List Byte)) (db db1 : Db),
    db.PutAll ps = some db1 → db.active.id ≤ db1.active.id := by
  intro ps
  induction ps with
  | nil =>
    intro db db1 h
    simp only [Db.PutAll, Option.some.injEq] at h
    rw [h]
  | cons p rest ih =>
    intro db db1 h
    obtain ⟨k, v⟩ := p
    obtain ⟨dbk, hk, -, hc⟩ := Put_cases db k v
    simp only [Db.PutAll, hk, Option.some_bind] at h
    have := ih dbk db1 h
    rcases hc with ⟨h1, -, -⟩ | h1 <;> omega

/-- A list of Puts after which the active segment is still the same one has
made the active file grow by the encoded size of the list. -/
theorem PutAll_growth : ∀ (ps : List (List Byte × List Byte)) (db db1 : Db),
    db.PutAll ps = some db1 → db1.active.id = db.active.id →
    db1.active.data.length = db.active.data.length + encodedSize ps := by
  intro ps
  induction ps with
  | nil =>
    intro db db1 h _
    simp only [Db.PutAll, Option.some.injEq] at h
    rw [← h]
    simp [encodedSize]
  | cons p rest ih =>
    intro db db1 h hid
    obtain ⟨k, v⟩ := p
    obtain ⟨dbk, hk, -, hc⟩ := Put_cases db k v
    simp only [Db.PutAll, hk, Option.some_bind] at h
    have hle := PutAll_id_le rest dbk db1 h
    rcases hc with ⟨h1, -, h3⟩ | h1
    · have := ih dbk db1 h (by omega)
      rw [this, h3]
      simp only [encodedSize, List.map_cons, List.sum_cons]
      omega
    · omega

/-- C13: for every store: a Put after which the active segment is still the
same one (no rotation) has made the active file grow by exactly
`len(k)+len(v)+16` bytes, whatever the Index held for `k`; and when a list of
pairs is put twice and the active segment is still the same one, each pass
has made the file grow by the encoded size of the list, so that on a file
that was empty the second pass doubles the size reached after the first. -/
theorem Put_file_growth (db : Db) :
    (∀ k v db1, db.Put k v = some (none, db1) → db1.active.id = db.active.id →
        db1.active.data.length = db.active.data.length + (k.length + v.length + 16))
    ∧ (∀ ps db1 db2, db.PutAll ps = some db1 → db1.PutAll ps = some db2 →
        db2.active.id = db.active.id →
        db1.active.data.length = db.active.data.length + encodedSize ps
          ∧ db2.active.data.length = db1.active.data.length + encodedSize ps
          ∧ (db.active.data = [] → db2.active.data.length = 2 * db1.active.data.length)) := by
  constructor
  · intro k v db1 h hid
    obtain ⟨dbk, hk, -, hc⟩ := Put_cases db k v
    rw [hk] at h
    simp only [Option.some.injEq, Prod.mk.injEq, true_and] at h
    subst h
    rcases hc with ⟨-, -, h3⟩ | h1
    · exact h3
    · omega
  · intro ps db1 db2 h1 h2 hid
    have l1 := PutAll_id_le ps db db1 h1
    have l2 := PutAll_id_le ps db1 db2 h2
    have g1 := PutAll_growth ps db db1 h1 (by omega)
    have g2 := PutAll_growth ps db1 db2 h2 (by omega)
    refine ⟨g1, g2, ?_⟩
    intro he
    rw [g2, g1, he]
    simp only [List.length_nil]
    omega

/-- Witness of C13 on a new store with threshold 500: `Put("k", "v")` makes the
empty active file 18 bytes long, and putting the pair a second time makes it
36 bytes long. -/
theorem Put_file_growth_witness :
    (18 = 0 + (1 + 1 + 16))
    ∧ ((18 = 0 + encodedSize [([107], [118])])
      ∧ (36 = 18 + encodedSize [([107], [118])])
      ∧ (([] : List Byte) = [] → 36 = 2 * 18)) :=
  ⟨(Put_file_growth ⟨[], ⟨0, []⟩, [], 500⟩).1 [107] [118]
      ⟨[], ⟨0, [18, 0, 0, 0, 1, 0, 0, 0, 107, 1, 0, 0, 0, 118, 0, 0, 0, 0]⟩,
        [([107], (0, 0))], 500⟩ (by decide) (by decide),
   (Put_file_growth ⟨[], ⟨0, []⟩, [], 500⟩).2 [([107], [118])]
      ⟨[], ⟨0, [18, 0, 0, 0, 1, 0, 0, 0, 107, 1, 0, 0, 0, 118, 0, 0, 0, 0]⟩,
        [([107], (0, 0))], 500⟩
      ⟨[], ⟨0, [18, 0, 0, 0, 1, 0, 0, 0, 107, 1, 0, 0, 0, 118, 0, 0, 0, 0,
                18, 0, 0, 0, 1, 0, 0, 0, 107, 1, 0, 0, 0, 118, 0, 0, 0, 0]⟩,
        [([107], (0, 18))], 500⟩ (by decide) (by decide) (by decide)⟩

/-- One half of the agreement between the readers and Decode holds: on every
buffer of fewer than `2^32` bytes on which Decode completes, readMark on a
reader positioned at the start of the buffer returns the marker that Decode
produces, and no error. -/
theorem readMark_agrees_with_Decode (e0 r : entry) (input : List Byte) (b : Reader)
    (hw : b.wf) (hst : b.stream = input) (hlen : input.length < two32)
    (hd : Decode e0 input = some r) :
    ∃ b1, readMark b = some ((r.mark, none), b1) := by
  obtain ⟨kl, vl, m, hkl, h1, h2, hvl, h3, h4, hm, hr⟩ := Decode_some_inv e0 r input hd
  have bk := Uint32_lt _ _ hkl
  have bv := Uint32_lt _ _ hvl
  have e8 : u32add kl 8 = kl + 8 := by
    unfold u32add two32 at *
    omega
  rw [e8] at h2 hvl
  have e12 : u32add kl 12 = kl + 12 := by
    unfold u32add two32 at *
    omega
  rw [e12] at h3 h4 hm
  have e12v : u32add (kl + 12) vl = kl + 12 + vl := by
    unfold u32add two32 at *
    omega
  rw [e12v] at h4 hm
  have hmark : r.mark = (m : Int) := by rw [hr]
  subst hst
  have hsz := Reader.size_ge b hw
  obtain ⟨b1, e1, w1, s1, st1⟩ := Reader.Peek_ok 8 b hw (by omega) (by omega)
  have sl : sliceFrom (b.stream.take 8) 4 = some ((b.stream.drop 4).take 4) := by
    unfold sliceFrom
    rw [if_pos (by rw [List.length_take]; omega), List.drop_take]
  have hu : Uint32 ((b.stream.drop 4).take 4) = Uint32 (b.stream.drop 4) :=
    Uint32_take _ 4 (Nat.le_refl _)
  obtain ⟨b2, e2, w2, s2, st2⟩ := Reader.Discard_ok (kl + 8) b1 w1 (by rw [st1]; omega)
  rw [st1] at st2
  obtain ⟨b3, e3, w3, s3, st3⟩ := Reader.Peek_ok 4 b2 w2 (by omega)
    (by rw [st2, List.length_drop]; omega)
  rw [st2] at e3 st3
  have hu2 : Uint32 ((b.stream.drop (kl + 8)).take 4) = Uint32 (b.stream.drop (kl + 8)) :=
    Uint32_take _ 4 (Nat.le_refl _)
  obtain ⟨b4, e4, w4, s4, st4⟩ := Reader.Discard_ok (vl + 4) b3 w3
    (by rw [st3, List.length_drop]; omega)
  rw [st3, List.drop_drop] at st4
  have hpos : kl + 8 + (vl + 4) = kl + 12 + vl := by omega
  rw [hpos] at st4
  obtain ⟨b5, e5, w5, s5, st5⟩ := Reader.Peek_ok 4 b4 w4 (by omega)
    (by rw [st4, List.length_drop]; omega)
  rw [st4] at e5
  have hu3 : Uint32 ((b.stream.drop (kl + 12 + vl)).take 4)
      = Uint32 (b.stream.drop (kl + 12 + vl)) := Uint32_take _ 4 (Nat.le_refl _)
  refine ⟨b5, ?_⟩
  unfold readMark
  simp [e1, sl, hu, hkl, e2, e3, hu2, hvl, e4, e5, hu3, hm, hmark]

/-! ## The buffered reader: exact states on a stream that holds the bytes -/

namespace Reader

theorem NewReader_eq (s : List Byte) : NewReader s = readerAt s 0 0 := rfl

theorem readerAt_buf_length (s : List Byte) (p c : Nat) :
    (readerAt s p c).buf.length = min c (s.length - p) := by
  simp only [readerAt, List.length_take, List.length_drop]

theorem readerAt_skip (s : List Byte) (p c k : Nat) (hk : k ≤ c) :
    ({ readerAt s p c with buf := (readerAt s p c).buf.drop k } : Reader)
      = readerAt s (p + k) (c - k) := by
  simp only [readerAt, List.drop_take, List.drop_drop]
  have : p + k + (c - k) = p + c := by omega
  rw [this]

theorem fill_readerAt (s : List Byte) (p c : Nat) (hc : c < 4096) (hl : p + c < s.length) :
    fill (readerAt s p c) = some (readerAt s p 4096) := by
  have hbl := readerAt_buf_length s p c
  have hB : min c (s.length - p) = c := by omega
  rw [hB] at hbl
  have hsz : (readerAt s p c).size = 4096 := rfl
  rw [fill_eq _ (by rw [hbl, hsz]; exact hc)]
  have hne : (readerAt s p c).src ≠ [] := by
    intro h
    have := congrArg List.length h
    simp only [readerAt, List.length_drop, List.length_nil] at this
    omega
  rw [if_neg hne, hbl, hsz]
  simp only [readerAt, List.drop_drop]
  have e1 : List.take c (List.drop p s) ++ List.take (4096 - c) (List.drop (p + c) s)
      = List.take 4096 (List.drop p s) := by
    have := List.take_add (List.drop p s) c (4096 - c)
    rw [List.drop_drop] at this
    rw [← this]
    congr 1
    omega
  have e2 : p + c + (4096 - c) = p + 4096 := by omega
  rw [e1, e2]
  rfl

/-- Peek from a reader over a stream that holds the bytes asked for: they are
taken from the buffer, which is filled first when it holds too few. -/
theorem Peek_readerAt (s : List Byte) (p c n : Nat) (hc : c ≤ 4096) (h0 : 0 < n) (hn : n ≤ 4096)
    (hl : p + n ≤ s.length) :
    Peek n (readerAt s p c)
      = some (((s.drop p).take n, none), readerAt s p (if n ≤ c then c else 4096)) := by
  by_cases hnc : n ≤ c
  · rw [if_pos hnc, Peek_buffered n _ (by rw [readerAt_buf_length]; omega) hn]
    simp only [readerAt, List.take_take, Nat.min_eq_left hnc]
  · rw [if_neg hnc]
    have hbl := readerAt_buf_length s p c
    have hB : min c (s.length - p) = c := by omega
    rw [hB] at hbl
    have hbl2 := readerAt_buf_length s p 4096
    unfold Peek
    have h3 : (readerAt s p c).src.length + 3 = (((readerAt s p c).src.length + 1) + 1) + 1 := rfl
    rw [h3]
    unfold peekLoop
    rw [if_pos ⟨by rw [hbl]; omega, by rw [hbl]; show c < 4096; omega, rfl⟩,
      fill_readerAt s p c (by omega) (by omega), Option.some_bind]
    unfold peekLoop
    rw [if_neg (by rw [hbl2]; omega), Option.some_bind]
    simp only
    rw [if_neg (by show ¬ n > 4096; omega), if_neg (by rw [hbl2]; omega)]
    simp only [readerAt, List.take_take, Nat.min_eq_left hn]

theorem discardLoop_readerAt (s : List Byte) (n0 : Nat) : ∀ (fuel remain p c : Nat),
    c ≤ 4096 → 0 < remain → p + remain ≤ s.length →
    (s.length - (p + c)) + (if c = 0 then 0 else 1) < fuel →
    discardLoop fuel n0 remain (readerAt s p c)
      = some ((n0, none), readerAt s (p + remain)
          (if remain ≤ c then c - remain else (4096 - (remain - c) % 4096) % 4096)) := by
  intro fuel
  induction fuel with
  | zero => intro remain p c _ _ _ hf; omega
  | succ f ih =>
    intro remain p c hc h0 hl hf
    have hbl := readerAt_buf_length s p c
    unfold discardLoop
    by_cases hc0 : c = 0
    · -- the buffer is empty and is filled first
      subst hc0
      have hB : (readerAt s p 0).Buffered = 0 := by
        show (readerAt s p 0).buf.length = 0
        rw [hbl]; omega
      rw [if_pos hB, fill_readerAt s p 0 (by omega) (by omega), Option.some_bind]
      have hbl2 := readerAt_buf_length s p 4096
      have hB2 : (readerAt s p 4096).Buffered = min 4096 (s.length - p) := hbl2
      by_cases hr : remain ≤ 4096
      · have hmin : min (min 4096 (s.length - p)) remain = remain := by omega
        simp only [hB2, hmin, Nat.sub_self, if_true]
        rw [readerAt_skip s p 4096 remain hr]
        have this : ¬ remain ≤ 0 := by omega
        have e : (4096 - (remain - 0) % 4096) % 4096 = 4096 - remain := by omega
        rw [if_neg this, e]
      · have hmin : min (min 4096 (s.length - p)) remain = 4096 := by omega
        have hne : remain - 4096 ≠ 0 := by omega
        simp only [hB2, hmin, if_neg hne]
        rw [readerAt_skip s p 4096 4096 (Nat.le_refl _)]
        have herr : ¬ (readerAt s p 4096).err ≠ none := by
          intro h; exact h rfl
        rw [if_neg herr]
        have hst : readerAt s (p + 4096) (4096 - 4096) = readerAt s (p + 4096) 0 := by
          rw [Nat.sub_self]
        rw [hst, ih (remain - 4096) (p + 4096) 0 (by omega) (by omega) (by omega)
          (by rw [if_pos rfl]; rw [if_pos rfl] at hf; omega)]
        have e1 : p + 4096 + (remain - 4096) = p + remain := by omega
        have this : ¬ remain ≤ 0 := by omega
        have h2 : ¬ remain - 4096 ≤ 0 := by omega
        have e : (4096 - (remain - 4096 - 0) % 4096) % 4096
            = (4096 - (remain - 0) % 4096) % 4096 := by omega
        rw [e1, if_neg this, if_neg h2, e]
    · have hB : (readerAt s p c).Buffered = min c (s.length - p) := hbl
      have hBne : ¬ (readerAt s p c).Buffered = 0 := by rw [hB]; omega
      rw [if_neg hBne, Option.some_bind]
      by_cases hr : remain ≤ c
      · have hmin : min (min c (s.length - p)) remain = remain := by omega
        simp only [hB, hmin, Nat.sub_self, if_true]
        rw [readerAt_skip s p c remain hr, if_pos hr]
      · have hmin : min (min c (s.length - p)) remain = c := by omega
        have hne : remain - c ≠ 0 := by omega
        simp only [hB, hmin, if_neg hne]
        rw [readerAt_skip s p c c (Nat.le_refl _)]
        have herr : ¬ (readerAt s p c).err ≠ none := by
          intro h; exact h rfl
        rw [if_neg herr]
        have hst : readerAt s (p + c) (c - c) = readerAt s (p + c) 0 := by rw [Nat.sub_self]
        rw [hst, ih (remain - c) (p + c) 0 (by omega) (by omega) (by omega)
          (by rw [if_pos rfl]; rw [if_neg hc0] at hf; omega)]
        have e1 : p + c + (remain - c) = p + remain := by omega
        have h2 : ¬ remain - c ≤ 0 := by omega
        have e : (4096 - (remain - c - 0) % 4096) % 4096
            = (4096 - (remain - c) % 4096) % 4096 := by omega
        rw [e1, if_neg hr, if_neg h2, e]

/-- Discard of `n` bytes that the stream holds: the reader skips what is
buffered and refills the empty buffer until `n` bytes are skipped. -/
theorem Discard_readerAt (s : List Byte) (p c n : Nat) (hc : c ≤ 4096) (h0 : 0 < n)
    (hl : p + n ≤ s.length) :
    Discard n (readerAt s p c)
      = some ((n, none), readerAt s (p + n)
          (if n ≤ c then c - n else (4096 - (n - c) % 4096) % 4096)) := by
  unfold Discard
  rw [if_neg (by omega)]
  apply discardLoop_readerAt s n _ n p c hc h0 hl
  have : (readerAt s p c).src.length = s.length - (p + c) := by
    simp only [readerAt, List.length_drop]
  rw [this]
  split <;> omega

/-- The single Read of `m` bytes that the stream holds: from a buffer that
holds bytes it delivers them, at most `m`; with an empty buffer the bytes
come from the source and all `m` are delivered. -/
theorem Read_readerAt (s : List Byte) (p c m : Nat) (hc : c ≤ 4096) (hl : p + m ≤ s.length) :
    ∃ b1, Read m (readerAt s p c)
      = some (((s.drop p).take (if c = 0 then m else min m c), none), b1) := by
  have hbl := readerAt_buf_length s p c
  have hB : (readerAt s p c).Buffered = min c (s.length - p) := hbl
  unfold Read
  by_cases hm : m = 0
  · subst hm
    rw [if_pos rfl]
    have : (if c = 0 then 0 else min 0 c) = 0 := by split <;> omega
    rw [this, List.take_zero]
    by_cases hb : (readerAt s p c).Buffered > 0
    · rw [if_pos hb]
      exact ⟨_, rfl⟩
    · rw [if_neg hb]
      exact ⟨_, rfl⟩
  · rw [if_neg hm]
    by_cases hc0 : c = 0
    · subst hc0
      rw [if_pos (by rw [hbl]; omega), if_pos rfl]
      have herr : ¬ (readerAt s p 0).err ≠ none := by intro h; exact h rfl
      rw [if_neg herr]
      have hsrc : (readerAt s p 0).src = s.drop p := rfl
      have hne : s.drop p ≠ [] := by
        intro h
        have := congrArg List.length h
        simp only [List.length_drop, List.length_nil] at this
        omega
      by_cases hbig : m ≥ (readerAt s p 0).size
      · rw [if_pos hbig, hsrc]
        unfold srcRead
        rw [if_neg hne]
        exact ⟨_, rfl⟩
      · rw [if_neg hbig, hsrc]
        unfold srcRead
        rw [if_neg hne]
        have hsz : (readerAt s p 0).size = 4096 := rfl
        rw [hsz] at hbig ⊢
        have hdl : ¬ (List.take 4096 (s.drop p)).length = 0 := by
          rw [List.length_take, List.length_drop]
          omega
        simp only
        rw [if_neg hdl, List.take_take, Nat.min_eq_left (by omega)]
        exact ⟨_, rfl⟩
    · rw [if_neg (by rw [hbl]; omega), if_neg hc0]
      refine ⟨{ readerAt s p c with
        buf := (readerAt s p c).buf.drop (min m (readerAt s p c).buf.length) }, ?_⟩
      simp only [readerAt, List.take_take]

end Reader

/-- The outcome of readValue on a whole record.  A new reader of the default
size over a stream that holds four bytes, a key length field, the key, a value
length field, the value and any bytes behind it: readValue returns the value
when the buffer is empty at its single `Read` or holds the whole value, and
else the error for the bytes that the buffer holds.  What follows the value in
the stream plays no part. -/
theorem readValue_NewReader (h4 K V tail : List Byte) (hh : h4.length = 4)
    (hK : K.length < two32) (hV : V.length < two32) :
    ∃ b1, readValue (NewReader
        (h4 ++ (leBytes K.length ++ (K ++ (leBytes V.length ++ (V ++ tail))))))
      = some (readOutcome K.length V, b1) := by
  generalize hsrc : h4 ++ (leBytes K.length ++ (K ++ (leBytes V.length ++ (V ++ tail)))) = s
  have hlen : s.length = K.length + V.length + 12 + tail.length := by
    rw [← hsrc]
    simp only [List.length_append, leBytes_length, hh]
    omega
  rw [Reader.NewReader_eq]
  -- the first Peek fills the buffer
  have e1 := Reader.Peek_readerAt s 0 0 8 (by omega) (by omega) (by omega) (by omega)
  rw [if_neg (by omega), List.drop_zero] at e1
  have t8 : s.take 8 = h4 ++ leBytes K.length := by
    rw [← hsrc, ← List.append_assoc]
    exact List.take_left' (by simp [hh, leBytes_length])
  rw [t8] at e1
  have sl : sliceFrom (h4 ++ leBytes K.length) 4 = some (leBytes K.length) :=
    sliceFrom_eq _ h4 _ 4 rfl hh.symm
  -- the key is skipped, the buffer being refilled when it is used up
  have e2 := Reader.Discard_readerAt s 0 4096 (K.length + 8) (by omega) (by omega) (by omega)
  generalize hc1 : (if K.length + 8 ≤ 4096 then 4096 - (K.length + 8)
    else (4096 - (K.length + 8 - 4096) % 4096) % 4096) = c1 at e2
  have hc1v : c1 = (4096 - (K.length + 8) % 4096) % 4096 := by
    rw [← hc1]
    split <;> omega
  have hc1le : c1 ≤ 4096 := by omega
  rw [Nat.zero_add] at e2
  -- the value length is peeked and skipped
  have e3 := Reader.Peek_readerAt s (K.length + 8) c1 4 hc1le (by omega) (by omega) (by omega)
  have t4 : (s.drop (K.length + 8)).take 4 = leBytes V.length := by
    rw [← hsrc]
    have : h4 ++ (leBytes K.length ++ (K ++ (leBytes V.length ++ (V ++ tail))))
        = (h4 ++ (leBytes K.length ++ K)) ++ (leBytes V.length ++ (V ++ tail)) := by
      simp only [List.append_assoc]
    rw [this, List.drop_left' (by simp [hh, leBytes_length]; omega)]
    exact List.take_left' (leBytes_length _)
  rw [t4] at e3
  generalize hc2 : (if 4 ≤ c1 then c1 else 4096) = c2 at e3
  have hc2le : c2 ≤ 4096 := by rw [← hc2]; split <;> omega
  have hc2ge : 4 ≤ c2 := by rw [← hc2]; split <;> omega
  have e4 := Reader.Discard_readerAt s (K.length + 8) c2 4 hc2le (by omega) (by omega)
  rw [if_pos hc2ge] at e4
  have hbr : c2 - 4 = bufferedAtRead K.length := by
    unfold bufferedAtRead
    rw [← hc1v, hc2]
  rw [hbr] at e4
  -- the single Read
  have hble : bufferedAtRead K.length ≤ 4096 := by rw [← hbr]; omega
  obtain ⟨b5, e5⟩ := Reader.Read_readerAt s (K.length + 8 + 4) (bufferedAtRead K.length)
    V.length hble (by omega)
  have t5 : s.drop (K.length + 8 + 4) = V ++ tail := by
    rw [← hsrc]
    have : h4 ++ (leBytes K.length ++ (K ++ (leBytes V.length ++ (V ++ tail))))
        = (h4 ++ (leBytes K.length ++ (K ++ leBytes V.length))) ++ (V ++ tail) := by
      simp only [List.append_assoc]
    rw [this]
    exact List.drop_left' (by simp [hh, leBytes_length]; omega)
  rw [t5] at e5
  refine ⟨b5, ?_⟩
  unfold readValue readOutcome
  by_cases hok : bufferedAtRead K.length = 0 ∨ V.length ≤ bufferedAtRead K.length
  · have hn : (if bufferedAtRead K.length = 0 then V.length
        else min V.length (bufferedAtRead K.length)) = V.length := by
      split <;> omega
    rw [hn, List.take_left' rfl] at e5
    simp [e1, sl, Uint32_leBytes_self _ hK, e2, e3, Uint32_leBytes_self _ hV, e4, e5, hok,
      makeCopy_self]
  · have hn : (if bufferedAtRead K.length = 0 then V.length
        else min V.length (bufferedAtRead K.length)) = bufferedAtRead K.length := by
      split <;> omega
    rw [hn, List.take_append_of_le_length (by omega)] at e5
    have hgl : (List.take (bufferedAtRead K.length) V).length = bufferedAtRead K.length := by
      rw [List.length_take]
      omega
    have hne : bufferedAtRead K.length ≠ V.length := by omega
    simp [e1, sl, Uint32_leBytes_self _ hK, e2, e3, Uint32_leBytes_self _ hV, e4, e5, hok,
      hgl, hne]

/-! ## The store: the Index as a replay of the log -/

theorem indexGet_indexSet_ne (idx : Index) (key k : List Byte) (loc : Nat × Nat) (h : key ≠ k) :
    indexGet (indexSet idx key loc) k = indexGet idx k := by
  unfold indexGet indexSet indexDel
  rw [List.find?_cons_of_neg _ (by simpa using h)]
  congr 1
  induction idx with
  | nil => rfl
  | cons p rest ih =>
    by_cases hp : p.1 = key
    · have hk : ¬ p.1 = k := by rw [hp]; exact h
      rw [List.filter_cons_of_neg (by simpa using hp), List.find?_cons_of_neg _ (by simpa using hk)]
      exact ih
    · rw [List.filter_cons_of_pos (by simpa using hp)]
      by_cases hk : p.1 = k
      · rw [List.find?_cons_of_pos _ (by simpa using hk), List.find?_cons_of_pos _ (by simpa using hk)]
      · rw [List.find?_cons_of_neg _ (by simpa using hk), List.find?_cons_of_neg _ (by simpa using hk)]
        exact ih

theorem indexGet_indexDel_ne (idx : Index) (key k : List Byte) (h : key ≠ k) :
    indexGet (indexDel idx key) k = indexGet idx k := by
  unfold indexGet indexDel
  congr 1
  induction idx with
  | nil => rfl
  | cons p rest ih =>
    by_cases hp : p.1 = key
    · have hk : ¬ p.1 = k := by rw [hp]; exact h
      rw [List.filter_cons_of_neg (by simpa using hp), List.find?_cons_of_neg _ (by simpa using hk)]
      exact ih
    · rw [List.filter_cons_of_pos (by simpa using hp)]
      by_cases hk : p.1 = k
      · rw [List.find?_cons_of_pos _ (by simpa using hk), List.find?_cons_of_pos _ (by simpa using hk)]
      · rw [List.find?_cons_of_neg _ (by simpa using hk), List.find?_cons_of_neg _ (by simpa using hk)]
        exact ih

/-- One record replayed into the Index, seen through a lookup. -/
theorem indexGet_replayRecord (idx : Index) (sid off : Nat) (e : entry) (k : List Byte)
    (acc : Option (Nat × Nat × List Byte)) (hm : e.mark = 0 ∨ e.mark = 1)
    (h : indexGet idx k = acc.map fun t => (t.1, t.2.1)) :
    indexGet (replayRecord idx sid off e) k
      = (lookStep k acc (sid, off, e)).map fun t => (t.1, t.2.1) := by
  unfold replayRecord lookStep
  by_cases hk : e.key = k
  · rcases hm with hm | hm
    · simp only [hm, if_true, hk]
      rw [indexGet_indexSet]
      rfl
    · simp only [hm, hk, if_true]
      rw [if_neg (by decide), indexGet_indexDel]
      rfl
  · rcases hm with hm | hm
    · simp only [hm, if_true, if_neg hk]
      rw [indexGet_indexSet_ne _ _ _ _ hk, h]
    · simp only [hm, if_neg hk, if_true]
      rw [if_neg (by decide), indexGet_indexDel_ne _ _ _ hk, h]

/-- A lookup in the Index after the replay of a log finds the place of the
most recent record of the key when that is a live one. -/
theorem indexGet_replayLog (k : List Byte) : ∀ (log : List (Nat × Nat × entry)) (idx : Index)
    (acc : Option (Nat × Nat × List Byte)),
    (∀ r ∈ log, r.2.2.mark = 0 ∨ r.2.2.mark = 1) →
    indexGet idx k = acc.map (fun t => (t.1, t.2.1)) →
    indexGet (replayLog idx log) k = (lookFrom k acc log).map fun t => (t.1, t.2.1) := by
  intro log
  induction log with
  | nil => intro idx acc _ h; exact h
  | cons r rest ih =>
    intro idx acc hm h
    unfold replayLog lookFrom
    rw [List.foldl_cons, List.foldl_cons]
    exact ih _ _ (fun r hr => hm r (List.mem_cons_of_mem _ hr))
      (indexGet_replayRecord idx r.1 r.2.1 r.2.2 k acc (hm r (List.mem_cons_self _ _)) h)

/-! ## The store: recovery reads the records back -/

theorem Encode_getD (e : entry) (h : e.key.length + e.value.length + 16 < two32) :
    (Encode e).getD [] = leBytes (e.key.length + e.value.length + 16) ++ (leBytes e.key.length
      ++ (e.key ++ (leBytes e.value.length ++ (e.value ++ leBytes (uint32 e.mark))))) := by
  have h1 := Encode_eq e
  rw [h1, Option.getD_some]
  exact (Encode_split e _ h1 h).symm ▸ rfl

theorem Encode_getD_length (e : entry) :
    ((Encode e).getD []).length = e.key.length + e.value.length + 16 := by
  have h1 := Encode_eq e
  rw [h1, Option.getD_some]
  exact Encode_length e _ h1

theorem Encode_some_getD (e : entry) : Encode e = some ((Encode e).getD []) := by
  rw [Encode_eq e, Option.getD_some]

theorem Decode_getD (e e0 : entry) (hv : e.valid) : Decode e0 ((Encode e).getD []) = some e := by
  rw [Encode_getD e hv.1]
  have h0 : 0 ≤ e.mark := by rcases hv.2 with h | h <;> omega
  have h1 : e.mark < 4294967296 := by rcases hv.2 with h | h <;> omega
  have := Decode_entry_fields e e0 (leBytes (e.key.length + e.value.length + 16)) []
    (leBytes_length _) hv.1 h0 h1
  rw [List.append_nil] at this
  exact this

theorem Uint32_getD (e : entry) (hv : e.valid) (rest : List Byte) :
    Uint32 ((Encode e).getD [] ++ rest) = some (e.key.length + e.value.length + 16) := by
  rw [Encode_getD e hv.1, List.append_assoc]
  exact Uint32_leBytes _ hv.1 _

/-- Recovery over a segment file that holds whole records, from the start of
one of them: the file is read to its end without an error and the Index is
the replay of the records that follow. -/
theorem recoverSegment_encoded (sid : Nat) : ∀ (es : List entry) (fuel : Nat) (pre : List Byte)
    (idx : Index), (∀ e ∈ es, e.valid) → es.length < fuel →
    recoverSegment fuel sid (pre ++ encodeAll es) pre.length idx
      = some (none, replayLog idx (located sid pre.length es)) := by
  intro es
  induction es with
  | nil =>
    intro fuel pre idx _ hf
    obtain ⟨f, rfl⟩ : ∃ f, fuel = f + 1 := ⟨fuel - 1, by simp at hf; omega⟩
    unfold recoverSegment
    rw [if_pos (by simp [encodeAll])]
    rfl
  | cons e es ih =>
    intro fuel pre idx hv hf
    obtain ⟨f, rfl⟩ : ∃ f, fuel = f + 1 := ⟨fuel - 1, by simp at hf; omega⟩
    have hve := hv e (List.mem_cons_self _ _)
    have hl := Encode_getD_length e
    unfold recoverSegment
    have hdrop : (pre ++ encodeAll (e :: es)).drop pre.length
        = (Encode e).getD [] ++ encodeAll es := by
      rw [List.drop_left]
      rfl
    have hlen : (pre ++ encodeAll (e :: es)).length
        = pre.length + (e.key.length + e.value.length + 16) + (encodeAll es).length := by
      simp only [encodeAll, List.length_append, hl]
      omega
    rw [if_neg (by rw [hlen]; omega), hdrop, Uint32_getD e hve]
    dsimp only
    rw [if_neg (by rw [hlen]; omega), List.take_left' hl, Decode_getD e _ hve, Option.some_bind]
    have hpre : pre ++ encodeAll (e :: es) = (pre ++ (Encode e).getD []) ++ encodeAll es := by
      simp only [encodeAll, List.append_assoc]
    have hoff : pre.length + (e.key.length + e.value.length + 16)
        = (pre ++ (Encode e).getD []).length := by
      rw [List.length_append, hl]
    rw [hpre, hoff, ih f _ _ (fun x hx => hv x (List.mem_cons_of_mem _ hx))
      (by simp at hf; omega)]
    simp only [located, replayLog, List.foldl_cons, List.length_append]

theorem encodeAll_append (es1 es2 : List entry) :
    encodeAll (es1 ++ es2) = encodeAll es1 ++ encodeAll es2 := by
  induction es1 with
  | nil => rfl
  | cons e es ih =>
    show (Encode e).getD [] ++ encodeAll (es ++ es2)
      = ((Encode e).getD [] ++ encodeAll es) ++ encodeAll es2
    rw [ih, List.append_assoc]

theorem encodeAll_length_ge (es : List entry) : es.length ≤ (encodeAll es).length := by
  induction es with
  | nil => exact Nat.le_refl _
  | cons e es ih =>
    simp only [encodeAll, List.length_cons, List.length_append, Encode_getD_length]
    omega

theorem located_append (sid : Nat) : ∀ (es1 es2 : List entry) (off : Nat),
    located sid off (es1 ++ es2)
      = located sid off es1 ++ located sid (off + (encodeAll es1).length) es2 := by
  intro es1
  induction es1 with
  | nil => intro es2 off; rfl
  | cons e es ih =>
    intro es2 off
    show (sid, off, e) :: located sid (off + ((Encode e).getD []).length) (es ++ es2)
      = ((sid, off, e) :: located sid (off + ((Encode e).getD []).length) es)
        ++ located sid (off + (encodeAll (e :: es)).length) es2
    rw [ih]
    simp only [encodeAll, List.length_append, Nat.add_assoc, List.cons_append]

theorem logOf_append (l1 l2 : List (Nat × List entry)) : logOf (l1 ++ l2) = logOf l1 ++ logOf l2 := by
  induction l1 with
  | nil => rfl
  | cons p rest ih =>
    show located p.1 0 p.2 ++ logOf (rest ++ l2) = (located p.1 0 p.2 ++ logOf rest) ++ logOf l2
    rw [ih, List.append_assoc]

theorem logOf_snoc (cs : List (Nat × List entry)) (sid : Nat) (aes : List entry) (e : entry) :
    logOf (cs ++ [(sid, aes ++ [e])])
      = logOf (cs ++ [(sid, aes)]) ++ [(sid, (encodeAll aes).length, e)] := by
  simp only [logOf_append, logOf, located_append, located, List.append_nil, Nat.zero_add,
    List.append_assoc]

/-- Recovery over segment files that hold whole records: no error, and the
Index is the replay of the log of the segments. -/
theorem recoverAll_encoded : ∀ (segs : List (Nat × List entry)) (idx : Index),
    (∀ p ∈ segs, ∀ e ∈ p.2, e.valid) →
    recoverAll (segs.map toSegment) idx = some (none, replayLog idx (logOf segs)) := by
  intro segs
  induction segs with
  | nil => intro idx _; rfl
  | cons p rest ih =>
    intro idx hv
    have h1 := recoverSegment_encoded p.1 p.2 ((encodeAll p.2).length + 1) [] idx
      (hv p (List.mem_cons_self _ _)) (by have := encodeAll_length_ge p.2; omega)
    rw [List.nil_append, List.length_nil] at h1
    simp only [List.map_cons, recoverAll, toSegment, h1, Option.some_bind]
    have := ih (replayLog idx (located p.1 0 p.2)) (fun q hq => hv q (List.mem_cons_of_mem _ hq))
    simp only [toSegment] at this
    rw [this]
    simp only [logOf, replayLog, List.foldl_append]

theorem lookFrom_snoc (k : List Byte) (acc : Option (Nat × Nat × List Byte))
    (log : List (Nat × Nat × entry)) (r : Nat × Nat × entry) :
    lookFrom k acc (log ++ [r]) = lookStep k (lookFrom k acc log) r := by
  simp only [lookFrom, List.foldl_append, List.foldl_cons, List.foldl_nil]

theorem lookFrom_append (k : List Byte) (acc : Option (Nat × Nat × List Byte))
    (l1 l2 : List (Nat × Nat × entry)) :
    lookFrom k acc (l1 ++ l2) = lookFrom k (lookFrom k acc l1) l2 := by
  simp only [lookFrom, List.foldl_append]

theorem latest_snoc (k : List Byte) (ops : List Op) (op : Op) :
    latest k (ops ++ [op]) = (match op with
      | .put k1 v => if k1 = k then some v else latest k ops
      | .delete k1 => if k1 = k then none else latest k ops
      | .merge => latest k ops
      | .reopen _ => latest k ops) := by
  cases op <;> simp only [latest, List.foldl_append, List.foldl_cons, List.foldl_nil]

/-! ## The store: Put and Delete keep the invariants of the data model -/

/-- A newly opened store on an empty directory satisfies the invariants, for
the empty history. -/
theorem Good_fresh (maxSegmentSize : Nat) :
    ∃ db, NewDb [] maxSegmentSize = some (none, some db) ∧ db.Good []
      ∧ db.maxSegmentSize = maxSegmentSize := by
  refine ⟨_, rfl, ⟨[], [], rfl, rfl, ?_, ?_, ?_, ?_⟩, rfl⟩
  · intro p hp e he
    simp only [List.nil_append, List.mem_singleton] at hp
    rw [hp] at he
    exact absurd he (List.not_mem_nil _)
  · simp
  · intro k; rfl
  · intro k; rfl

/-- Rotation keeps the invariants. -/
theorem Good_rotate (db : Db) (ops : List Op) (h : db.Good ops) : db.rotate.Good ops := by
  obtain ⟨cs, aes, hc, ha, hv, hs, hi, hl⟩ := h
  have hlog : logOf ((cs ++ [(db.active.id, aes)]) ++ [(db.active.id + 1, [])])
      = logOf (cs ++ [(db.active.id, aes)]) := by
    rw [logOf_append]
    simp only [logOf, located, List.append_nil]
  refine ⟨cs ++ [(db.active.id, aes)], [], ?_, rfl, ?_, ?_, ?_, ?_⟩
  · show db.closed ++ [db.active] = _
    rw [List.map_append, hc]
    simp only [List.map_cons, List.map_nil, toSegment, ← ha]
  · intro p hp e he
    rcases List.mem_append.mp hp with hp | hp
    · exact hv p hp e he
    · simp only [List.mem_singleton] at hp
      rw [hp] at he
      exact absurd he (List.not_mem_nil _)
  · show (((cs ++ [(db.active.id, aes)]) ++ [(db.active.id + 1, [])]).map Prod.fst).Pairwise _
    rw [List.map_append, List.pairwise_append]
    refine ⟨hs, by simp, ?_⟩
    intro a ha1 b hb
    simp only [List.map_cons, List.map_nil, List.mem_singleton] at hb
    rw [List.map_append, List.pairwise_append] at hs
    simp only [List.map_append, List.map_cons, List.map_nil, List.mem_append,
      List.mem_singleton] at ha1
    rcases ha1 with ha1 | ha1
    · have := hs.2.2 a ha1 db.active.id (by simp)
      omega
    · omega
  · intro k
    show indexGet db.index k = _
    rw [hi k]
    show _ = Option.map _ (lookFrom k none
      (logOf ((cs ++ [(db.active.id, aes)]) ++ [(db.active.id + 1, [])])))
    rw [hlog]
  · intro k
    show Option.map _ (lookFrom k none
      (logOf ((cs ++ [(db.active.id, aes)]) ++ [(db.active.id + 1, [])]))) = _
    rw [hlog]
    exact hl k

/-- The common part of Put and Delete keeps the store well formed: the record
joins the log and the Index follows it. -/
theorem Good_append (db : Db) (ops : List Op) (op : Op) (e : entry)
    (upd : Index → (Nat × Nat) → Index) (h : db.Good ops) (hv : e.valid)
    (hupd : ∀ idx loc, upd idx loc = replayRecord idx loc.1 loc.2 e)
    (hlat : ∀ k, latest k (ops ++ [op])
      = if e.key = k then (if e.mark = 0 then some e.value else none) else latest k ops) :
    ∃ db1, db.append e upd = some (none, db1) ∧ db1.Good (ops ++ [op])
      ∧ db1.maxSegmentSize = db.maxSegmentSize := by
  have hG1 : Db.Good { db with
      active := { db.active with data := db.active.data ++ (Encode e).getD [] },
      index := upd db.index (db.active.id, db.active.data.length) } (ops ++ [op]) := by
    obtain ⟨cs, aes, hc, ha, hvs, hs, hi, hl⟩ := h
    have hs1 : ((cs ++ [(db.active.id, aes ++ [e])]).map Prod.fst).Pairwise (· < ·) := by
      simpa using hs
    refine ⟨cs, aes ++ [e], hc, ?_, ?_, hs1, ?_, ?_⟩
    · show db.active.data ++ (Encode e).getD [] = _
      rw [encodeAll_append, ha]
      simp only [encodeAll, List.append_nil]
    · intro p hp x hx
      rcases List.mem_append.mp hp with hp | hp
      · exact hvs p (List.mem_append_left _ hp) x hx
      · simp only [List.mem_singleton] at hp
        rw [hp] at hx
        rcases List.mem_append.mp hx with hx | hx
        · exact hvs (db.active.id, aes) (by simp) x hx
        · simp only [List.mem_singleton] at hx
          rw [hx]; exact hv
    · intro k
      show indexGet (upd db.index (db.active.id, db.active.data.length)) k
        = Option.map _ (lookFrom k none (logOf (cs ++ [(db.active.id, aes ++ [e])])))
      rw [logOf_snoc, lookFrom_snoc, hupd, ha]
      exact indexGet_replayRecord db.index db.active.id _ e k _ hv.2 (hi k)
    · intro k
      show Option.map _ (lookFrom k none (logOf (cs ++ [(db.active.id, aes ++ [e])]))) = _
      rw [logOf_snoc, lookFrom_snoc, hlat k, ← hl k]
      unfold lookStep
      simp only
      by_cases hk : e.key = k
      · rw [if_pos hk, if_pos hk]
        by_cases hm : e.mark = 0
        · rw [if_pos hm, if_pos hm]; rfl
        · rw [if_neg hm, if_neg hm]; rfl
      · rw [if_neg hk, if_neg hk]
  unfold Db.append
  rw [Encode_some_getD e, Option.some_bind]
  dsimp only
  split
  · exact ⟨_, rfl, Good_rotate _ _ hG1, rfl⟩
  · exact ⟨_, rfl, hG1, rfl⟩

theorem Good_Put (db : Db) (ops : List Op) (k v : List Byte) (h : db.Good ops)
    (hf : k.length + v.length + 16 < two32) :
    ∃ db1, db.Put k v = some (none, db1) ∧ db1.Good (ops ++ [Op.put k v])
      ∧ db1.maxSegmentSize = db.maxSegmentSize := by
  unfold Db.Put
  apply Good_append db ops (Op.put k v) ⟨k, v, 0⟩ _ h ⟨hf, Or.inl rfl⟩
  · intro idx loc
    simp only [replayRecord, if_true]
  · intro k1
    rw [latest_snoc]
    simp only [if_true]

theorem Good_Delete (db : Db) (ops : List Op) (k : List Byte) (h : db.Good ops)
    (hf : k.length + 16 < two32) :
    ∃ db1, db.Delete k = some (none, db1) ∧ db1.Good (ops ++ [Op.delete k])
      ∧ db1.maxSegmentSize = db.maxSegmentSize := by
  unfold Db.Delete
  apply Good_append db ops (Op.delete k) ⟨k, [], 1⟩ _ h ⟨by simpa using hf, Or.inr rfl⟩
  · intro idx loc
    simp [replayRecord]
  · intro k1
    rw [latest_snoc]
    by_cases hk : k = k1 <;> simp [hk]

/-! ## The store: what Get returns, and the reopened store -/

theorem lookFrom_some (k : List Byte) (t : Nat × Nat × List Byte) :
    ∀ (log : List (Nat × Nat × entry)) (acc : Option (Nat × Nat × List Byte)),
    lookFrom k acc log = some t →
    acc = some t ∨ ∃ r ∈ log, r.2.2.key = k ∧ r.2.2.mark = 0 ∧ t = (r.1, r.2.1, r.2.2.value) := by
  intro log
  induction log with
  | nil => intro acc h; exact Or.inl h
  | cons r rest ih =>
    intro acc h
    have h1 : lookFrom k (lookStep k acc r) rest = some t := h
    rcases ih _ h1 with h2 | ⟨r1, hr1, h3⟩
    · unfold lookStep at h2
      by_cases hk : r.2.2.key = k
      · rw [if_pos hk] at h2
        by_cases hm : r.2.2.mark = 0
        · rw [if_pos hm] at h2
          exact Or.inr ⟨r, List.mem_cons_self _ _, hk, hm, (Option.some.inj h2).symm⟩
        · rw [if_neg hm] at h2
          exact absurd h2 (by simp)
      · rw [if_neg hk] at h2
        exact Or.inl h2
    · exact Or.inr ⟨r1, List.mem_cons_of_mem _ hr1, h3⟩

theorem mem_located (sid : Nat) (r : Nat × Nat × entry) : ∀ (es : List entry) (off : Nat),
    r ∈ located sid off es →
    r.1 = sid ∧ ∃ es0 es1, es = es0 ++ r.2.2 :: es1 ∧ r.2.1 = off + (encodeAll es0).length := by
  intro es
  induction es with
  | nil => intro off h; exact absurd h (List.not_mem_nil _)
  | cons e es ih =>
    intro off h
    rcases List.mem_cons.mp h with h | h
    · rw [h]
      exact ⟨rfl, [], es, rfl, rfl⟩
    · obtain ⟨h1, es0, es1, h2, h3⟩ := ih _ h
      refine ⟨h1, e :: es0, es1, by rw [h2]; rfl, ?_⟩
      rw [h3]
      simp only [encodeAll, List.length_append, Nat.add_assoc]

theorem mem_logOf (r : Nat × Nat × entry) : ∀ (segs : List (Nat × List entry)),
    r ∈ logOf segs → ∃ p ∈ segs, r ∈ located p.1 0 p.2 := by
  intro segs
  induction segs with
  | nil => intro h; exact absurd h (List.not_mem_nil _)
  | cons p rest ih =>
    intro h
    rcases List.mem_append.mp h with h | h
    · exact ⟨p, List.mem_cons_self _ _, h⟩
    · obtain ⟨q, hq, hr⟩ := ih h
      exact ⟨q, List.mem_cons_of_mem _ hq, hr⟩

theorem find_toSegment : ∀ (segs : List (Nat × List entry)) (p : Nat × List entry),
    (segs.map Prod.fst).Pairwise (· < ·) → p ∈ segs →
    (segs.map toSegment).find? (fun s => s.id = p.1) = some (toSegment p) := by
  intro segs
  induction segs with
  | nil => intro p _ h; exact absurd h (List.not_mem_nil _)
  | cons q rest ih =>
    intro p hs hp
    rw [List.map_cons, List.pairwise_cons] at hs
    rcases List.mem_cons.mp hp with hp | hp
    · rw [hp, List.map_cons, List.find?_cons_of_pos]
      simp [toSegment]
    · have hlt := hs.1 p.1 (List.mem_map_of_mem _ hp)
      rw [List.map_cons, List.find?_cons_of_neg _ (by simp [toSegment]; omega)]
      exact ih p hs.2 hp

theorem log_marks (segs : List (Nat × List entry)) (hv : ∀ p ∈ segs, ∀ e ∈ p.2, e.valid) :
    ∀ r ∈ logOf segs, r.2.2.mark = 0 ∨ r.2.2.mark = 1 := by
  intro r hr
  obtain ⟨p, hp, hr1⟩ := mem_logOf r segs hr
  obtain ⟨-, es0, es1, he, -⟩ := mem_located p.1 r p.2 0 hr1
  exact (hv p hp r.2.2 (by rw [he]; simp)).2

theorem Good_segments (db : Db) (cs : List (Nat × List entry)) (aes : List entry)
    (hc : db.closed = cs.map toSegment) (ha : db.active.data = encodeAll aes) :
    db.segments = (cs ++ [(db.active.id, aes)]).map toSegment := by
  unfold Db.segments
  rw [List.map_append, hc]
  simp only [List.map_cons, List.map_nil, toSegment, ← ha]

/-- What Get returns on a well formed store: `ErrNotFound` for a key whose
latest operation is a Delete or that was never put, and for a key whose latest
operation is a Put what `readValue` makes of the record. -/
theorem Good_Get (db : Db) (ops : List Op) (h : db.Good ops) (k : List Byte) :
    db.Get k = some (getSpec k (latest k ops)) := by
  obtain ⟨cs, aes, hc, ha, hv, hs, hi, hl⟩ := h
  have hseg := Good_segments db cs aes hc ha
  unfold Db.Get
  rw [hi k, ← hl k]
  cases hlk : lookFrom k none (logOf (cs ++ [(db.active.id, aes)])) with
  | none => rfl
  | some t =>
    rcases lookFrom_some k t _ _ hlk with h0 | ⟨r, hr, hk, hm, ht⟩
    · exact absurd h0 (by simp)
    · obtain ⟨p, hp, hr1⟩ := mem_logOf r _ hr
      obtain ⟨hsid, es0, es1, hes, hoff⟩ := mem_located p.1 r p.2 0 hr1
      have hvr : r.2.2.valid := hv p hp r.2.2 (by rw [hes]; simp)
      have hfind := find_toSegment _ p hs hp
      rw [← hseg, ← hsid] at hfind
      have hdata : (toSegment p).data.drop r.2.1
          = (Encode r.2.2).getD [] ++ encodeAll es1 := by
        simp only [toSegment]
        rw [hes, encodeAll_append, hoff, Nat.zero_add, List.drop_left]
        rfl
      simp only [Option.map_some', ht, hfind, hdata, getSpec]
      rw [Encode_getD r.2.2 hvr.1]
      simp only [List.append_assoc]
      obtain ⟨b1, hb1⟩ := readValue_NewReader (leBytes (r.2.2.key.length + r.2.2.value.length + 16))
        r.2.2.key r.2.2.value (leBytes (uint32 r.2.2.mark) ++ encodeAll es1) (leBytes_length _)
        (by have := hvr.1; omega) (by have := hvr.1; omega)
      rw [hb1, hk]
      rfl

/-- Recovery on the files of a well formed store gives a well formed store
for the same history. -/
theorem Good_reopen (db : Db) (ops : List Op) (h : db.Good ops) (maxSegmentSize : Nat) :
    ∃ db1, NewDb db.Close.2 maxSegmentSize = some (none, some db1) ∧ db1.Good ops := by
  obtain ⟨cs, aes, hc, ha, hv, hs, hi, hl⟩ := h
  have hseg := Good_segments db cs aes hc ha
  have hrec := recoverAll_encoded (cs ++ [(db.active.id, aes)]) [] hv
  rw [← hseg] at hrec
  have hlast : db.segments.getLast? = some db.active := List.getLast?_concat _
  have hdrop : db.segments.dropLast = db.closed := List.dropLast_concat
  refine ⟨{ closed := db.closed, active := db.active,
            index := replayLog [] (logOf (cs ++ [(db.active.id, aes)])),
            maxSegmentSize := maxSegmentSize }, ?_, ⟨cs, aes, hc, ha, hv, hs, ?_, hl⟩⟩
  · show NewDb db.segments maxSegmentSize = _
    unfold NewDb
    rw [hlast]
    simp only [hrec, Option.some_bind, hdrop]
  · intro k
    exact indexGet_replayLog k _ [] none (log_marks _ hv) rfl

/-! ## The store: the merge of the two oldest closed segments -/

/-- The merge replay over a segment file that holds whole records: no error,
and the merge map has taken the records one by one. -/
theorem mergeSegment_encoded : ∀ (es : List entry) (fuel : Nat) (pre : List Byte)
    (m : MergeMap), (∀ e ∈ es, e.valid) → es.length < fuel →
    mergeSegment fuel (pre ++ encodeAll es) pre.length m
      = some (none, es.foldl mergeRecord m) := by
  intro es
  induction es with
  | nil =>
    intro fuel pre m _ hf
    obtain ⟨f, rfl⟩ : ∃ f, fuel = f + 1 := ⟨fuel - 1, by simp at hf; omega⟩
    unfold mergeSegment
    rw [if_pos (by simp [encodeAll])]
    rfl
  | cons e es ih =>
    intro fuel pre m hv hf
    obtain ⟨f, rfl⟩ : ∃ f, fuel = f + 1 := ⟨fuel - 1, by simp at hf; omega⟩
    have hve := hv e (List.mem_cons_self _ _)
    have hl := Encode_getD_length e
    unfold mergeSegment
    have hdrop : (pre ++ encodeAll (e :: es)).drop pre.length
        = (Encode e).getD [] ++ encodeAll es := by
      rw [List.drop_left]
      rfl
    have hlen : (pre ++ encodeAll (e :: es)).length
        = pre.length + (e.key.length + e.value.length + 16) + (encodeAll es).length := by
      simp only [encodeAll, List.length_append, hl]
      omega
    rw [if_neg (by rw [hlen]; omega), hdrop, Uint32_getD e hve]
    dsimp only
    rw [if_neg (by rw [hlen]; omega), List.take_left' hl, Decode_getD e _ hve, Option.some_bind]
    have hpre : pre ++ encodeAll (e :: es) = (pre ++ (Encode e).getD []) ++ encodeAll es := by
      simp only [encodeAll, List.append_assoc]
    have hoff : pre.length + (e.key.length + e.value.length + 16)
        = (pre ++ (Encode e).getD []).length := by
      rw [List.length_append, hl]
    rw [hpre, hoff, ih f _ _ (fun x hx => hv x (List.mem_cons_of_mem _ hx))
      (by simp at hf; omega)]
    rfl

theorem lastVal_filter_ne (k key : List Byte) (hk : key ≠ k) : ∀ (m : MergeMap)
    (acc : Option (List Byte)),
    lastVal k acc (m.filter (fun p => p.1 ≠ key)) = lastVal k acc m := by
  intro m
  induction m with
  | nil => intro acc; rfl
  | cons p rest ih =>
    intro acc
    by_cases hp : p.1 = key
    · have hpk : ¬ p.1 = k := by rw [hp]; exact hk
      rw [List.filter_cons_of_neg (by simpa using hp)]
      show _ = lastVal k (if p.1 = k then some p.2 else acc) rest
      rw [if_neg hpk]
      exact ih acc
    · rw [List.filter_cons_of_pos (by simpa using hp)]
      exact ih _

theorem lastVal_filter_eq (k : List Byte) : ∀ (m : MergeMap) (acc : Option (List Byte)),
    lastVal k acc (m.filter (fun p => p.1 ≠ k)) = acc := by
  intro m
  induction m with
  | nil => intro acc; rfl
  | cons p rest ih =>
    intro acc
    by_cases hp : p.1 = k
    · rw [List.filter_cons_of_neg (by simpa using hp)]
      exact ih acc
    · rw [List.filter_cons_of_pos (by simpa using hp)]
      show lastVal k (if p.1 = k then some p.2 else acc) _ = acc
      rw [if_neg hp]
      exact ih acc

theorem lastVal_snoc (k : List Byte) (acc : Option (List Byte)) (m : MergeMap)
    (p : List Byte × List Byte) :
    lastVal k acc (m ++ [p]) = if p.1 = k then some p.2 else lastVal k acc m := by
  simp only [lastVal, List.foldl_append, List.foldl_cons, List.foldl_nil]

/-- The merge map after the replay of a list of records holds for each key
the value that a lookup in the log of these records finds. -/
theorem lastVal_mergeRecords (k : List Byte) (sid : Nat) : ∀ (es : List entry) (m : MergeMap)
    (acc : Option (Nat × Nat × List Byte)) (off : Nat),
    (∀ e ∈ es, e.valid) → lastVal k none m = acc.map (fun t => t.2.2) →
    lastVal k none (es.foldl mergeRecord m)
      = (lookFrom k acc (located sid off es)).map fun t => t.2.2 := by
  intro es
  induction es with
  | nil => intro m acc off _ h; exact h
  | cons e es ih =>
    intro m acc off hv h
    have hve := hv e (List.mem_cons_self _ _)
    show lastVal k none (es.foldl mergeRecord (mergeRecord m e))
      = (lookFrom k (lookStep k acc (sid, off, e)) (located sid _ es)).map fun t => t.2.2
    apply ih _ _ _ (fun x hx => hv x (List.mem_cons_of_mem _ hx))
    unfold mergeRecord lookStep
    simp only
    rcases hve.2 with hm | hm
    · rw [if_pos hm, if_pos hm, lastVal_snoc]
      by_cases hk : e.key = k
      · rw [if_pos hk, if_pos hk]; rfl
      · rw [if_neg hk, if_neg hk, lastVal_filter_ne k e.key hk, h]
    · have hm0 : ¬ e.mark = 0 := by rw [hm]; decide
      rw [if_neg hm0, if_pos hm, if_neg hm0]
      by_cases hk : e.key = k
      · rw [if_pos hk, hk, lastVal_filter_eq]; rfl
      · rw [if_neg hk, lastVal_filter_ne k e.key hk, h]

/-- A lookup in the log of the merged segment finds the value that the merge
map holds. -/
theorem lastVal_merged (k : List Byte) (sid : Nat) : ∀ (m : MergeMap)
    (acc : Option (Nat × Nat × List Byte)) (off : Nat),
    lastVal k (acc.map fun t => t.2.2) m
      = (lookFrom k acc (located sid off (m.map liveEntry))).map fun t => t.2.2 := by
  intro m
  induction m with
  | nil => intro acc off; rfl
  | cons p rest ih =>
    intro acc off
    show lastVal k (if p.1 = k then some p.2 else acc.map fun t => t.2.2) rest
      = (lookFrom k (lookStep k acc (sid, off, liveEntry p)) (located sid _ _)).map _
    rw [← ih]
    congr 1
    unfold lookStep liveEntry
    simp only [if_true]
    by_cases hk : p.1 = k
    · rw [if_pos hk, if_pos hk]; rfl
    · rw [if_neg hk, if_neg hk]

theorem mergeRecords_fit : ∀ (es : List entry) (m : MergeMap),
    (∀ e ∈ es, e.valid) → (∀ p ∈ m, (liveEntry p).valid) →
    ∀ p ∈ es.foldl mergeRecord m, (liveEntry p).valid := by
  intro es
  induction es with
  | nil => intro m _ hm; exact hm
  | cons e es ih =>
    intro m hv hm
    apply ih (mergeRecord m e) (fun x hx => hv x (List.mem_cons_of_mem _ hx))
    intro p hp
    have hve := hv e (List.mem_cons_self _ _)
    unfold mergeRecord at hp
    split at hp
    · rcases List.mem_append.mp hp with hp | hp
      · exact hm p (List.mem_filter.mp hp).1
      · simp only [List.mem_singleton] at hp
        rw [hp]
        exact ⟨hve.1, Or.inl rfl⟩
    · split at hp
      · exact hm p (List.mem_filter.mp hp).1
      · exact hm p hp

/-- The merged segment file holds the live records of the merge map, and the
offset noted for a key is where a lookup in the log of the merged segment
finds the key. -/
theorem writeMerged_eq (sid : Nat) : ∀ (m : MergeMap) (data : List Byte)
    (offsets : List (List Byte × Nat)), (∀ p ∈ m, (liveEntry p).valid) →
    ∃ offs, writeMerged m data offsets = some (data ++ encodeAll (m.map liveEntry), offs)
      ∧ ∀ (k : List Byte) (acc : Option (Nat × Nat × List Byte)),
          (offsets.find? (fun q => q.1 = k)).map Prod.snd = acc.map (fun t => t.2.1) →
          (offs.find? (fun q => q.1 = k)).map Prod.snd
            = (lookFrom k acc (located sid data.length (m.map liveEntry))).map
                fun t => t.2.1 := by
  intro m
  induction m with
  | nil =>
    intro data offsets _
    exact ⟨offsets, by simp [writeMerged, encodeAll], fun k acc h => h⟩
  | cons p rest ih =>
    intro data offsets hv
    obtain ⟨k0, v0⟩ := p
    obtain ⟨offs, h1, h2⟩ := ih (data ++ (Encode ⟨k0, v0, 0⟩).getD [])
      ((k0, data.length) :: offsets) (fun q hq => hv q (List.mem_cons_of_mem _ hq))
    refine ⟨offs, ?_, ?_⟩
    · unfold writeMerged
      rw [Encode_some_getD ⟨k0, v0, 0⟩, Option.some_bind, h1]
      simp only [List.map_cons, encodeAll, liveEntry, List.append_assoc]
    · intro k acc hacc
      have := h2 k (lookStep k acc (sid, data.length, liveEntry (k0, v0))) (by
        unfold lookStep liveEntry
        simp only [if_true]
        by_cases hk : k0 = k
        · rw [List.find?_cons_of_pos _ (by simpa using hk), if_pos hk]
          rfl
        · rw [List.find?_cons_of_neg _ (by simpa using hk), if_neg hk]
          exact hacc)
      rw [this]
      simp only [List.map_cons, located, lookFrom, List.foldl_cons, List.length_append, liveEntry]

theorem lookFrom_acc (k : List Byte) : ∀ (log : List (Nat × Nat × entry))
    (acc : Option (Nat × Nat × List Byte)), (∀ r ∈ log, r.2.2.key ≠ k) →
    lookFrom k acc log = acc := by
  intro log
  induction log with
  | nil => intro acc _; rfl
  | cons r rest ih =>
    intro acc h
    show lookFrom k (lookStep k acc r) rest = acc
    rw [ih _ (fun x hx => h x (List.mem_cons_of_mem _ hx))]
    unfold lookStep
    rw [if_neg (h r (List.mem_cons_self _ _))]

theorem lookFrom_indep (k : List Byte) : ∀ (log : List (Nat × Nat × entry))
    (acc : Option (Nat × Nat × List Byte)), (∃ r ∈ log, r.2.2.key = k) →
    lookFrom k acc log = lookFrom k none log := by
  intro log
  induction log with
  | nil =>
    intro acc h
    obtain ⟨r, hr, _⟩ := h
    exact absurd hr (List.not_mem_nil _)
  | cons r rest ih =>
    intro acc h
    show lookFrom k (lookStep k acc r) rest = lookFrom k (lookStep k none r) rest
    by_cases hk : r.2.2.key = k
    · unfold lookStep
      rw [if_pos hk, if_pos hk]
    · have hrest : ∃ x ∈ rest, x.2.2.key = k := by
        obtain ⟨x, hx, hxk⟩ := h
        rcases List.mem_cons.mp hx with hx | hx
        · rw [hx] at hxk; exact absurd hxk hk
        · exact ⟨x, hx, hxk⟩
      rw [ih _ hrest, ih (lookStep k none r) hrest]

theorem lookFrom_congr_val (k : List Byte) : ∀ (log : List (Nat × Nat × entry))
    (acc1 acc2 : Option (Nat × Nat × List Byte)),
    acc1.map (fun t => t.2.2) = acc2.map (fun t => t.2.2) →
    (lookFrom k acc1 log).map (fun t => t.2.2) = (lookFrom k acc2 log).map fun t => t.2.2 := by
  intro log
  induction log with
  | nil => intro acc1 acc2 h; exact h
  | cons r rest ih =>
    intro acc1 acc2 h
    apply ih
    unfold lookStep
    by_cases hk : r.2.2.key = k
    · rw [if_pos hk, if_pos hk]
    · rw [if_neg hk, if_neg hk]
      exact h

theorem remapEntry_fst (a b : Nat) (offsets : List (List Byte × Nat))
    (p : List Byte × (Nat × Nat)) : (remapEntry a b offsets p).1 = p.1 := by
  unfold remapEntry
  split
  · split <;> rfl
  · rfl

theorem indexGet_map_remapEntry (a b : Nat) (offsets : List (List Byte × Nat)) (k : List Byte) :
    ∀ (idx : Index), indexGet (idx.map (remapEntry a b offsets)) k
      = (indexGet idx k).map fun loc => (remapEntry a b offsets (k, loc)).2 := by
  intro idx
  induction idx with
  | nil => rfl
  | cons p rest ih =>
    unfold indexGet at ih ⊢
    by_cases hk : p.1 = k
    · rw [List.map_cons, List.find?_cons_of_pos _ (by simpa [remapEntry_fst] using hk),
        List.find?_cons_of_pos _ (by simpa using hk)]
      simp only [Option.map_some', ← hk]
    · rw [List.map_cons, List.find?_cons_of_neg _ (by simpa [remapEntry_fst] using hk),
        List.find?_cons_of_neg _ (by simpa using hk)]
      exact ih

theorem lookFrom_sid (k : List Byte) (segs : List (Nat × List entry)) (t : Nat × Nat × List Byte)
    (h : lookFrom k none (logOf segs) = some t) : t.1 ∈ segs.map Prod.fst := by
  rcases lookFrom_some k t _ _ h with h0 | ⟨r, hr, -, -, ht⟩
  · exact absurd h0 (by simp)
  · obtain ⟨p, hp, hr1⟩ := mem_logOf r _ hr
    obtain ⟨hsid, -⟩ := mem_located p.1 r p.2 0 hr1
    rw [ht]
    show r.1 ∈ _
    rw [hsid]
    exact List.mem_map_of_mem _ hp

/-- One tick of the compactor on a well formed store: it reports no error,
the store stays well formed for the same history, and with two closed
segments or more their number goes down by one. -/
theorem Good_merge (db : Db) (ops : List Op) (h : db.Good ops) :
    ∃ db1, db.merge = some (none, db1) ∧ db1.Good ops
      ∧ db1.maxSegmentSize = db.maxSegmentSize
      ∧ (2 ≤ db.closed.length → db1.closed.length + 1 = db.closed.length) := by
  have hkeep := h
  obtain ⟨cs, aes, hc, ha, hv, hs, hi, hl⟩ := h
  match cs, hc, hv, hs, hi, hl with
  | [], hc, _, _, _, _ =>
    refine ⟨db, ?_, hkeep, rfl, ?_⟩
    · unfold Db.merge
      rw [hc]
      rfl
    · intro h2
      rw [hc] at h2
      simp at h2
  | [p], hc, _, _, _, _ =>
    refine ⟨db, ?_, hkeep, rfl, ?_⟩
    · unfold Db.merge
      rw [hc]
      rfl
    · intro h2
      rw [hc] at h2
      simp at h2
  | pa :: pb :: rest, hc, hv, hs, hi, hl =>
    have hva : ∀ e ∈ pa.2, e.valid := hv pa (by simp)
    have hvb : ∀ e ∈ pb.2, e.valid := hv pb (by simp)
    have hm1 := mergeSegment_encoded pa.2 ((encodeAll pa.2).length + 1) [] [] hva
      (by have := encodeAll_length_ge pa.2; omega)
    have hm2 := mergeSegment_encoded pb.2 ((encodeAll pb.2).length + 1) []
      (pa.2.foldl mergeRecord []) hvb (by have := encodeAll_length_ge pb.2; omega)
    rw [List.nil_append, List.length_nil] at hm1 hm2
    have hfit : ∀ p ∈ pb.2.foldl mergeRecord (pa.2.foldl mergeRecord []), (liveEntry p).valid :=
      mergeRecords_fit pb.2 _ hvb
        (mergeRecords_fit pa.2 [] hva (fun p hp => absurd hp (List.not_mem_nil _)))
    obtain ⟨offs, hw, hoffs⟩ := writeMerged_eq pb.1
      (pb.2.foldl mergeRecord (pa.2.foldl mergeRecord [])) [] [] hfit
    rw [List.nil_append] at hw
    generalize hM : pb.2.foldl mergeRecord (pa.2.foldl mergeRecord []) = m2 at hw hoffs hfit
    -- the log before and after
    have hold : logOf (pa :: pb :: rest ++ [(db.active.id, aes)])
        = (located pa.1 0 pa.2 ++ located pb.1 0 pb.2) ++ logOf (rest ++ [(db.active.id, aes)]) := by
      show located pa.1 0 pa.2 ++ (located pb.1 0 pb.2 ++ logOf (rest ++ [(db.active.id, aes)]))
        = _
      rw [List.append_assoc]
    have hnew : logOf ((pb.1, m2.map liveEntry) :: rest ++ [(db.active.id, aes)])
        = located pb.1 0 (m2.map liveEntry) ++ logOf (rest ++ [(db.active.id, aes)]) := rfl
    rw [hold] at hi hl
    -- values found in the two merged segments and in the merged one
    have hvalAB : ∀ k, (lookFrom k none (located pa.1 0 pa.2 ++ located pb.1 0 pb.2)).map
        (fun t => t.2.2) = lastVal k none m2 := by
      intro k
      rw [lookFrom_append, ← hM]
      exact (lastVal_mergeRecords k pb.1 pb.2 _ _ 0 hvb
        (lastVal_mergeRecords k pa.1 pa.2 [] none 0 hva rfl)).symm
    have hvalM : ∀ k, (lookFrom k none (located pb.1 0 (m2.map liveEntry))).map
        (fun t => t.2.2) = lastVal k none m2 := fun k => (lastVal_merged k pb.1 m2 none 0).symm
    -- ids
    have hs1 := hs
    simp only [List.cons_append, List.map_cons, List.pairwise_cons] at hs1
    have hida : ∀ x ∈ (rest ++ [(db.active.id, aes)]).map Prod.fst, pa.1 < x :=
      fun x hx => hs1.1 x (List.mem_cons_of_mem _ hx)
    have hidb : ∀ x ∈ (rest ++ [(db.active.id, aes)]).map Prod.fst, pb.1 < x :=
      fun x hx => hs1.2.1 x hx
    refine ⟨{ db with closed := { id := pb.1, data := encodeAll (m2.map liveEntry) }
                        :: rest.map toSegment,
                      index := db.index.map (remapEntry pa.1 pb.1 offs) }, ?_,
      ⟨(pb.1, m2.map liveEntry) :: rest, aes, rfl, ha, ?_, ?_, ?_, ?_⟩, rfl, ?_⟩
    · unfold Db.merge
      rw [hc]
      simp only [List.map_cons, toSegment, hm1, Option.some_bind, hm2, hM, hw]
    · intro p hp e he
      rcases List.mem_append.mp hp with hp | hp
      · rcases List.mem_cons.mp hp with hp | hp
        · rw [hp] at he
          obtain ⟨q, hq, hqe⟩ := List.mem_map.mp he
          rw [← hqe]
          exact hfit q hq
        · exact hv p (by simp [hp]) e he
      · exact hv p (by simp only [List.mem_append]; exact Or.inr hp) e he
    · show (((pb.1, m2.map liveEntry) :: rest ++ [(db.active.id, aes)]).map Prod.fst).Pairwise _
      simp only [List.cons_append, List.map_cons, List.pairwise_cons]
      exact ⟨hs1.2.1, hs1.2.2⟩
    · intro k
      show indexGet (db.index.map (remapEntry pa.1 pb.1 offs)) k
        = Option.map _ (lookFrom k none
            (logOf ((pb.1, m2.map liveEntry) :: rest ++ [(db.active.id, aes)])))
      rw [indexGet_map_remapEntry, hi k, hnew,
        lookFrom_append k none (located pa.1 0 pa.2 ++ located pb.1 0 pb.2),
        lookFrom_append k none (located pb.1 0 (m2.map liveEntry))]
      by_cases hex : ∃ r ∈ logOf (rest ++ [(db.active.id, aes)]), r.2.2.key = k
      · rw [lookFrom_indep k _ _ hex, lookFrom_indep k _ (lookFrom k none (located pb.1 0 _)) hex]
        cases hlk : lookFrom k none (logOf (rest ++ [(db.active.id, aes)])) with
        | none => rfl
        | some t =>
          have hsid := lookFrom_sid k _ t hlk
          have h1 := hida t.1 hsid
          have h2 := hidb t.1 hsid
          simp only [Option.map_some', remapEntry]
          rw [if_neg (by omega)]
      · have hno : ∀ r ∈ logOf (rest ++ [(db.active.id, aes)]), r.2.2.key ≠ k :=
          fun r hr hk => hex ⟨r, hr, hk⟩
        rw [lookFrom_acc k _ _ hno, lookFrom_acc k _ _ hno]
        have hAB := hvalAB k
        have hMk := hvalM k
        have hoff := hoffs k none rfl
        rw [List.length_nil] at hoff
        cases hlk : lookFrom k none (located pa.1 0 pa.2 ++ located pb.1 0 pb.2) with
        | none =>
          rw [hlk] at hAB
          rw [← hAB] at hMk
          cases hlm : lookFrom k none (located pb.1 0 (m2.map liveEntry)) with
          | none => rfl
          | some u => rw [hlm] at hMk; exact absurd hMk (by simp)
        | some t =>
          rw [hlk] at hAB
          rw [← hAB] at hMk
          cases hlm : lookFrom k none (located pb.1 0 (m2.map liveEntry)) with
          | none => rw [hlm] at hMk; exact absurd hMk (by simp)
          | some u =>
            rw [hlm] at hoff
            -- the record found before the merge lies in one of the two segments
            have hsid : t.1 = pa.1 ∨ t.1 = pb.1 := by
              rcases lookFrom_some k t _ _ hlk with h0 | ⟨r, hr, -, -, ht⟩
              · exact absurd h0 (by simp)
              · rw [ht]
                rcases List.mem_append.mp hr with hr | hr
                · exact Or.inl (mem_located pa.1 r pa.2 0 hr).1
                · exact Or.inr (mem_located pb.1 r pb.2 0 hr).1
            -- the record found after the merge lies in the merged segment
            have hu : u.1 = pb.1 := by
              rcases lookFrom_some k u _ _ hlm with h0 | ⟨r, hr, -, -, ht⟩
              · exact absurd h0 (by simp)
              · rw [ht]
                exact (mem_located pb.1 r _ 0 hr).1
            cases hfo : offs.find? (fun q => q.1 = k) with
            | none => rw [hfo] at hoff; exact absurd hoff (by simp)
            | some q =>
              rw [hfo] at hoff
              simp only [Option.map_some', Option.some.injEq] at hoff
              simp only [Option.map_some', remapEntry, if_pos hsid, hfo, hoff, hu]
    · intro k
      show Option.map _ (lookFrom k none
        (logOf ((pb.1, m2.map liveEntry) :: rest ++ [(db.active.id, aes)]))) = _
      rw [← hl k, hnew, lookFrom_append k none (located pa.1 0 pa.2 ++ located pb.1 0 pb.2),
        lookFrom_append k none (located pb.1 0 (m2.map liveEntry))]
      apply lookFrom_congr_val
      rw [hvalAB k, hvalM k]
    · intro _
      rw [hc]
      simp

/-! ## The store: histories of operations, reopening and merging -/

theorem Good_congr (db : Db) (ops1 ops2 : List Op) (h : db.Good ops1)
    (hl : ∀ k, latest k ops1 = latest k ops2) : db.Good ops2 := by
  obtain ⟨cs, aes, hc, ha, hv, hs, hi, hl1⟩ := h
  exact ⟨cs, aes, hc, ha, hv, hs, hi, fun k => (hl1 k).trans (hl k)⟩

theorem Good_step (db : Db) (done : List Op) (op : Op) (h : db.Good done) (hf : op.fits) :
    ∃ db1, db.step op = some db1 ∧ db1.Good (done ++ [op]) := by
  cases op with
  | put k v =>
    obtain ⟨db1, h1, h2, -⟩ := Good_Put db done k v h hf
    exact ⟨db1, by simp [Db.step, h1], h2⟩
  | delete k =>
    obtain ⟨db1, h1, h2, -⟩ := Good_Delete db done k h hf
    exact ⟨db1, by simp [Db.step, h1], h2⟩
  | merge =>
    obtain ⟨db1, h1, h2, -, -⟩ := Good_merge db done h
    refine ⟨db1, by simp [Db.step, h1], Good_congr db1 _ _ h2 ?_⟩
    intro k
    rw [latest_snoc]
  | reopen m =>
    obtain ⟨db1, h1, h2⟩ := Good_reopen db done h m
    refine ⟨db1, by simp [Db.step, h1], Good_congr db1 _ _ h2 ?_⟩
    intro k
    rw [latest_snoc]

/-- Every history of operations within the limits of the length fields runs
to the end on a store that satisfies the invariants and leaves such a
store. -/
theorem Good_run : ∀ (ops done : List Op) (db : Db), db.Good done →
    (∀ op ∈ ops, op.fits) →
    ∃ db1, db.run ops = some db1 ∧ db1.Good (done ++ ops) := by
  intro ops
  induction ops with
  | nil =>
    intro done db h _
    exact ⟨db, rfl, by rw [List.append_nil]; exact h⟩
  | cons op rest ih =>
    intro done db h hf
    obtain ⟨db1, h1, h2⟩ := Good_step db done op h (hf op (List.mem_cons_self _ _))
    obtain ⟨db2, h4, h5⟩ := ih (done ++ [op]) db1 h2
      (fun x hx => hf x (List.mem_cons_of_mem _ hx))
    refine ⟨db2, ?_, ?_⟩
    · show (db.step op).bind _ = _
      rw [h1, Option.some_bind, h4]
    · rw [List.append_assoc] at h5
      exact h5

theorem readOutcome_small (kl : Nat) (V : List Byte) (h : kl + V.length + 12 ≤ defaultBufSize) :
    readOutcome kl V = (V, none) := by
  unfold defaultBufSize at h
  unfold readOutcome
  rw [if_pos]
  right
  unfold bufferedAtRead
  have e : (4096 - (kl + 8) % 4096) % 4096 = 4096 - (kl + 8) := by omega
  rw [e, if_pos (by omega)]
  omega

/-- What Get returns after a history of operations. -/
theorem Good_Get_cases (db : Db) (ops : List Op) (h : db.Good ops) (k : List Byte) :
    (latest k ops = none → db.Get k = some ([], some GoError.ErrNotFound))
    ∧ (∀ v, latest k ops = some v → k.length + v.length + 12 ≤ defaultBufSize →
        db.Get k = some (v, none)) := by
  have hg := Good_Get db ops h k
  constructor
  · intro hn
    rw [hg, hn]
    rfl
  · intro v hv hs
    rw [hg, hv]
    show some (readOutcome k.length v) = _
    rw [readOutcome_small _ _ hs]

/-- C5 (amended claim): for every sequence of Put and Delete operations
whose records fit the 32 bit length fields (`len(key)+len(value)+16 < 2^32`),
with ticks of the compactor and reopenings anywhere between them, applied to a
newly opened store with any threshold: the sequence runs to the end, the
store opened on the files left at Close, with any threshold, opens without an
error, and for every key its Get returns what Get returned before the close:
`ErrNotFound` for a key whose latest record is a tombstone or that was never
put, and the last value put for a key whose latest record is a live write that
fits the read buffer (`len(key)+len(value)+12 ≤ 4096`). -/
theorem reopen_reproduces_Get (max0 max1 : Nat) (ops : List Op) (hfit : ∀ op ∈ ops, op.fits) :
    ∃ db0 db db1, NewDb [] max0 = some (none, some db0) ∧ db0.run ops = some db
      ∧ NewDb db.Close.2 max1 = some (none, some db1)
      ∧ ∀ k, db1.Get k = db.Get k
          ∧ (latest k ops = none → db1.Get k = some ([], some GoError.ErrNotFound))
          ∧ (∀ v, latest k ops = some v → k.length + v.length + 12 ≤ defaultBufSize →
              db1.Get k = some (v, none)) := by
  obtain ⟨db0, h0, hg0, -⟩ := Good_fresh max0
  obtain ⟨db, hrun, hg⟩ := Good_run ops [] db0 hg0 hfit
  rw [List.nil_append] at hg
  obtain ⟨db1, hre, hg1⟩ := Good_reopen db ops hg max1
  refine ⟨db0, db, db1, h0, hrun, hre, fun k => ⟨?_, Good_Get_cases db1 ops hg1 k⟩⟩
  rw [Good_Get db1 ops hg1 k, Good_Get db ops hg k]

/-- Witness of C5 at the history `Put("k","v")`, `Delete("k")`, `Put("a","b")`
on a store opened with threshold 500 and reopened with threshold 300. -/
theorem reopen_reproduces_Get_witness :
    ∃ db0 db db1, NewDb [] 500 = some (none, some db0)
      ∧ db0.run [Op.put [107] [118], Op.delete [107], Op.put [97] [98]] = some db
      ∧ NewDb db.Close.2 300 = some (none, some db1)
      ∧ ∀ k, db1.Get k = db.Get k
          ∧ (latest k [Op.put [107] [118], Op.delete [107], Op.put [97] [98]] = none →
              db1.Get k = some ([], some GoError.ErrNotFound))
          ∧ (∀ v, latest k [Op.put [107] [118], Op.delete [107], Op.put [97] [98]] = some v →
              k.length + v.length + 12 ≤ defaultBufSize → db1.Get k = some (v, none)) :=
  reopen_reproduces_Get 500 300 [Op.put [107] [118], Op.delete [107], Op.put [97] [98]] (by
    intro op hop
    simp only [List.mem_cons, List.mem_singleton, List.not_mem_nil, or_false] at hop
    rcases hop with rfl | rfl | rfl <;> simp [Op.fits, two32])

theorem longKeyOf_length (K1 : List Byte) (h : K1.length = 2147483632) :
    (longKeyOf K1).length = 4294967296 := by
  simp only [longKeyOf, List.length_append, leBytes_length, Encode_getD_length, h,
    List.length_nil]

/-- The record of the long key with an empty value.  Its total size field and
its key length field wrap, to 16 and to 0, and its bytes are those of three
records one after the other: the empty key, and `K1` twice, each with an empty
value. -/
theorem longKeyOf_file (K1 : List Byte) (h : K1.length = 2147483632) :
    Encode ⟨longKeyOf K1, [], 0⟩ = some (encodeAll (threeRecords K1)) := by
  have hv1 : (⟨K1, [], 0⟩ : entry).key.length + (⟨K1, [], 0⟩ : entry).value.length + 16 < two32 := by
    simp only [h, List.length_nil]
    decide
  have hv0 : (⟨[], [], 0⟩ : entry).key.length + (⟨[], [], 0⟩ : entry).value.length + 16 < two32 := by
    decide
  have hu : uint32 0 = 0 := by decide
  have hu1 : u32 4294967312 = 16 := by decide
  have hu2 : u32 4294967296 = 0 := by decide
  have hu3 : u32 0 = 0 := by decide
  rw [Encode_eq]
  simp only [layout, longKeyOf_length K1 h, List.length_nil, Nat.add_zero, hu, hu1, hu2, hu3,
    threeRecords, encodeAll, Encode_getD _ hv0, List.append_nil, List.nil_append]
  simp only [longKeyOf, Encode_getD _ hv1, h, List.length_nil, Nat.add_zero, hu,
    List.append_assoc, List.nil_append]

theorem threeRecords_valid (K1 : List Byte) (h : K1.length = 2147483632) :
    ∀ e ∈ threeRecords K1, e.valid := by
  intro e he
  simp only [threeRecords, List.mem_cons, List.mem_singleton, List.not_mem_nil, or_false] at he
  rcases he with he | he | he <;> rw [he] <;> refine ⟨?_, Or.inl rfl⟩ <;>
    simp only [h, List.length_nil] <;> decide

theorem threeRecords_keys (K1 : List Byte) (h : K1.length = 2147483632) :
    ∀ e ∈ threeRecords K1, e.key ≠ longKeyOf K1 := by
  intro e he hk
  have hl := congrArg List.length hk
  rw [longKeyOf_length K1 h] at hl
  simp only [threeRecords, List.mem_cons, List.mem_singleton, List.not_mem_nil, or_false] at he
  rcases he with he | he | he <;> rw [he] at hl <;> simp only [h, List.length_nil] at hl <;>
    omega

theorem Put_longKey (K1 : List Byte) (h : K1.length = 2147483632) :
    Db.Put { closed := [], active := { id := 0, data := [] }, index := [],
             maxSegmentSize := 10 } (longKeyOf K1) []
      = some (none, afterLongPut K1) := by
  have hlen : (encodeAll (threeRecords K1)).length > 10 := by
    simp only [threeRecords, encodeAll, List.length_append, Encode_getD_length, h,
      List.length_nil]
    omega
  unfold Db.Put Db.append
  rw [longKeyOf_file K1 h, Option.some_bind]
  simp only [List.nil_append, List.length_nil]
  rw [if_pos hlen]
  rfl

theorem threeRecords_stream (K1 : List Byte) :
    ∃ tail, encodeAll (threeRecords K1)
      = leBytes 16 ++ (leBytes ([] : List Byte).length ++ ([] ++ (leBytes ([] : List Byte).length
          ++ ([] ++ tail)))) := by
  have hv0 : (⟨[], [], 0⟩ : entry).key.length + (⟨[], [], 0⟩ : entry).value.length + 16 < two32 := by
    decide
  refine ⟨leBytes (uint32 0) ++ (((Encode ⟨K1, [], 0⟩).getD []) ++
    (((Encode ⟨K1, [], 0⟩).getD []) ++ [])), ?_⟩
  simp only [threeRecords, encodeAll, Encode_getD _ hv0, List.length_nil, List.nil_append,
    List.append_assoc, Nat.zero_add]

/-- Get of the long key finds the empty value in the file of segment 0. -/
theorem Get_longKey_file (K1 : List Byte) :
    (readValue (NewReader (encodeAll (threeRecords K1)))).map Prod.fst = some ([], none) := by
  obtain ⟨tail, ht⟩ := threeRecords_stream K1
  obtain ⟨b1, hb⟩ := readValue_NewReader (leBytes 16) [] [] tail (leBytes_length _)
    (by decide) (by decide)
  rw [ht, hb]
  rfl

theorem Get_afterLongPut (K1 : List Byte) :
    (afterLongPut K1).Get (longKeyOf K1) = some ([], none) := by
  unfold Db.Get afterLongPut
  simp only [indexGet, List.find?_cons_of_pos, decide_True, Option.map_some', Db.segments,
    List.singleton_append, toSegment, List.drop_zero]
  exact Get_longKey_file K1

theorem reopen_afterLongPut (K1 : List Byte) (h : K1.length = 2147483632) (k : List Byte)
    (hk : ∀ e ∈ threeRecords K1, e.key ≠ k) :
    ∃ db1, NewDb (afterLongPut K1).Close.2 10 = some (none, some db1)
      ∧ db1.Get k = some ([], some GoError.ErrNotFound) := by
  have hv : ∀ p ∈ [(0, threeRecords K1), (1, ([] : List entry))], ∀ e ∈ p.2, e.valid := by
    intro p hp e he
    simp only [List.mem_cons, List.mem_singleton, List.not_mem_nil, or_false] at hp
    rcases hp with hp | hp
    · rw [hp] at he; exact threeRecords_valid K1 h e he
    · rw [hp] at he; exact absurd he (List.not_mem_nil _)
  have hrec := recoverAll_encoded [(0, threeRecords K1), (1, [])] [] hv
  have hdir : (afterLongPut K1).Close.2
      = [(0, threeRecords K1), (1, ([] : List entry))].map toSegment := rfl
  refine ⟨{ closed := [toSegment (0, threeRecords K1)], active := toSegment (1, []),
            index := replayLog [] (logOf [(0, threeRecords K1), (1, [])]),
            maxSegmentSize := 10 }, ?_, ?_⟩
  · rw [hdir]
    unfold NewDb
    simp only [List.map_cons, List.map_nil, List.getLast?_cons_cons, List.getLast?_singleton,
      List.dropLast] at hrec ⊢
    rw [hrec]
    rfl
  · unfold Db.Get
    simp only
    rw [indexGet_replayLog k _ [] none (log_marks _ hv) rfl, lookFrom_acc]
    · rfl
    · intro r hr
      obtain ⟨p, hp, hr1⟩ := mem_logOf r _ hr
      obtain ⟨-, es0, es1, he, -⟩ := mem_located p.1 r p.2 0 hr1
      simp only [List.mem_cons, List.mem_singleton, List.not_mem_nil, or_false] at hp
      rcases hp with hp | hp
      · rw [hp] at he
        have he1 : threeRecords K1 = es0 ++ r.2.2 :: es1 := he
        exact hk r.2.2 (by rw [he1]; simp)
      · rw [hp] at he
        have := congrArg List.length he
        simp only [List.length_nil, List.length_append, List.length_cons] at this
        omega

/-- The Put of a key of `2^32` bytes, reopened: for every `K1` of `2^31 - 16`
bytes. -/
theorem long_key_reopened (K1 : List Byte) (h : K1.length = 2147483632) :
    ((NewDb [] 10).bind fun o => o.2.bind fun db =>
        (db.Put (longKeyOf K1) []).bind fun p =>
          (p.2.Get (longKeyOf K1)).bind fun g0 =>
            (NewDb p.2.Close.2 10).bind fun o1 => o1.2.bind fun db1 =>
              (db1.Get (longKeyOf K1)).map fun g1 => (p.1, g0, o1.1, g1))
      = some (none, ([], none), none, ([], some GoError.ErrNotFound)) := by
  obtain ⟨db1, h1, h2⟩ := reopen_afterLongPut K1 h (longKeyOf K1) (threeRecords_keys K1 h)
  have h0 : NewDb [] 10 = some (none, some ⟨[], ⟨0, []⟩, [], 10⟩) := rfl
  rw [h0]
  simp only [Option.some_bind, Put_longKey K1 h, Get_afterLongPut K1, h1, h2, Option.map_some']

/-- C5 (counterexample): on a new store with threshold 10, Put of a key of
`2^32` bytes (built around `2^31 - 16` zero bytes) with an empty value returns
no error and Get of the key returns the empty value.  The key length field of
the record wraps to 0 and the file reads as three records of other keys: the
store opened on the files left at Close opens without an error and its Get of
the key returns `ErrNotFound`. -/
theorem reopen_long_key :
    ((NewDb [] 10).bind fun o => o.2.bind fun db =>
        (db.Put (longKeyOf (List.replicate 2147483632 0)) []).bind fun p =>
          (p.2.Get (longKeyOf (List.replicate 2147483632 0))).bind fun g0 =>
            (NewDb p.2.Close.2 10).bind fun o1 => o1.2.bind fun db1 =>
              (db1.Get (longKeyOf (List.replicate 2147483632 0))).map fun g1 =>
                (p.1, g0, o1.1, g1))
      = some (none, ([], none), none, ([], some GoError.ErrNotFound)) :=
  long_key_reopened (List.replicate 2147483632 0) (List.length_replicate _ _)

set_option maxRecDepth 100000 in
/-- The scenario of `TestDb_Segmentation` on the store of section 4.2, which
rotates after the write once the active file exceeds the threshold.  With
threshold 90 the store has 2 segments after the first five Puts and still 2
after the two further Puts, the active file then holding 81 bytes; a tick of
the compactor finds one closed segment and leaves 2 segments.  Each of the
seven records takes 27 bytes and has Length 23. -/
theorem segmentation_rotation_after_write :
    ((NewDb [] 90).bind fun o => o.2.bind fun db =>
        (db.PutAll segmentationFirst).bind fun d5 =>
          (d5.PutAll segmentationNext).bind fun d7 =>
            d7.merge.bind fun m =>
              some (d5.segments.length, d7.segments.length, d7.active.data.length, m.1,
                m.2.segments.length))
      = some (2, 2, 81, none, 2)
    ∧ ∀ p ∈ segmentationFirst ++ segmentationNext,
        (Encode ⟨p.1, p.2, 0⟩).map List.length = some 27 ∧ Length ⟨p.1, p.2, 0⟩ = 23 := by
  decide

/-! ## Evaluations at the failing inputs -/

set_option maxRecDepth 1000000 in
/-- C6 (failing input): the entry with key `"k"`, a value of 5000 bytes and
marker 0, read by readValue from a new reader of the default size over its
encoding.  The first fill buffers 4096 bytes, of which 4083 are left after the
header, the key and the value length; the single Read copies those and
readValue returns the error built from 4083 read and 5000 expected. -/
theorem readValue_long_value :
    ((Encode ⟨[107], List.replicate 5000 97, 0⟩).bind fun bytes =>
        (readValue (NewReader bytes)).map Prod.fst)
      = some ([], some (GoError.cantReadValueBytes 4083 5000)) := by
  decide!

set_option maxRecDepth 1000000 in
/-- C3 (failing input): on a newly opened store, Put of key `"k"` with a value
of 5000 bytes followed by Get of `"k"`: Get returns the error of readValue, not
the value. -/
theorem Put_Get_long_value :
    ((NewDb [] 10000).bind fun o => o.2.bind fun db =>
        (db.Put [107] (List.replicate 5000 97)).bind fun p => p.2.Get [107])
      = some ([], some (GoError.cantReadValueBytes 4083 5000)) := by
  decide!

end Datastore
